import Mathlib

/-!
# lazy_bdecode (libtorrent 0.14.1): a shallow embedding

The development embeds `src/tags/libtorrent-0_14_1/src/lazy_bdecode.cpp`.

Conventions of the embedding

* A buffer `[start, end)` is a `List Int` of C `char` values; a pointer into it
  is an `Int` offset from the buffer start (`end` is `buf.length`).  Pointer
  arithmetic is exact integer arithmetic.  A null pointer is `none`.
* Reading a byte outside `[0, buf.length)` and violating a `TORRENT_ASSERT`
  have no defined result: the embedding answers `none` / `Outcome.undefined`.
* The 64-bit accumulator of `parse_int` wraps modulo `2^64` (`int64`), the
  conversion `int(len)` wraps modulo `2^32` (`int32`).
* The loop of `lazy_bdecode` needs not terminate (a negative key length moves
  the cursor backwards), so it is run with an explicit iteration budget.
* The growth of a capacity, `int(m_capacity * 1.5f)`, is computed in binary32
  with round-to-nearest, ties to even; a capacity above `2^31 - 1` does not
  fit an `int` and has no defined result.
-/

namespace libtorrent

/-! ## Machine integers and memory reads -/

/-- Two's complement value of `x` in 64 bits. -/
def int64 (x : Int) : Int :=
  (x + 9223372036854775808) % 18446744073709551616 - 9223372036854775808

/-- Two's complement value of `x` in 32 bits. -/
def int32 (x : Int) : Int :=
  (x + 2147483648) % 4294967296 - 2147483648

/-- The byte at offset `p`, `none` outside the buffer. -/
def peek (buf : List Int) (p : Int) : Option Int :=
  if 0 ≤ p then buf[p.toNat]? else none

/-- C `isdigit` on a `char`. -/
def isdigit (c : Int) : Bool := decide (48 ≤ c) && decide (c ≤ 57)

/-! ## parse_int and find_char -/

/-- The `while` loop of `parse_int`; the first argument counts `end - start`.
The result is the returned cursor (`none` is the null pointer) and `val`. -/
def parse_int_loop (buf : List Int) (delimiter : Int) :
    Nat → Int → Int → Option (Option Int × Int)
  | 0, start, val => some (some start, val)
  | n + 1, start, val =>
    match peek buf start with
    | none => none
    | some c =>
      if c = delimiter then some (some start, val)
      else if isdigit c = false then some (none, val)
      else parse_int_loop buf delimiter n (start + 1) (int64 (int64 (val * 10) + (c - 48)))

/-- Embedding of `parse_int(start, end, delimiter, val)`. -/
def parse_int (buf : List Int) (start end_ : Int) (delimiter : Int) (val : Int) :
    Option (Option Int × Int) :=
  parse_int_loop buf delimiter (end_ - start).toNat start val

/-- The `while` loop of `find_char`. -/
def find_char_loop (buf : List Int) (delimiter : Int) : Nat → Int → Option Int
  | 0, start => some start
  | n + 1, start =>
    match peek buf start with
    | none => none
    | some c => if c = delimiter then some start else find_char_loop buf delimiter n (start + 1)

/-- Embedding of `find_char(start, end, delimiter)`. -/
def find_char (buf : List Int) (start end_ : Int) (delimiter : Int) : Option Int :=
  find_char_loop buf delimiter (end_ - start).toNat start

/-! ## Entries -/

/-- Modelled from the spec: the class `lazy_entry` is declared in
`libtorrent/lazy_entry.hpp`, which is not part of the sources.  One constructor
per `m_type`; `start`/`size` are `m_data.start`/`m_size` of integers and
strings, `items` is the owned array (its length is `m_size`), `m_end` of a
container is `none` until `set_end` is called. -/
inductive lazy_entry where
  | none_e : lazy_entry
  | int_e (start size m_begin m_end : Int) : lazy_entry
  | string_e (start size m_begin m_end : Int) : lazy_entry
  | list_e (m_begin : Int) (m_end : Option Int) (m_capacity : Nat)
      (items : List lazy_entry) : lazy_entry
  | dict_e (m_begin : Int) (m_end : Option Int) (m_capacity : Nat)
      (items : List (Int × lazy_entry)) : lazy_entry
  deriving Repr

/-- The tag of an entry. -/
inductive entry_type_t where
  | none_t | dict_t | list_t | string_t | int_t
  deriving Repr, DecidableEq

namespace lazy_entry

/-- Modelled from the spec: `type()` of the missing header. -/
def type : lazy_entry → entry_type_t
  | none_e => .none_t
  | int_e .. => .int_t
  | string_e .. => .string_t
  | list_e .. => .list_t
  | dict_e .. => .dict_t

/-- Modelled from the spec: `m_begin`, the first byte of the encoded form
(`none` for the null pointer of a default-constructed entry). -/
def m_begin? : lazy_entry → Option Int
  | none_e => none
  | int_e _ _ b _ => some b
  | string_e _ _ b _ => some b
  | list_e b _ _ _ => some b
  | dict_e b _ _ _ => some b

/-- Modelled from the spec: `m_size`, the number of items of a container and
the length of the span of an integer or string; 0 for the `None` entry. -/
def m_size : lazy_entry → Int
  | none_e => 0
  | int_e _ n _ _ => n
  | string_e _ n _ _ => n
  | list_e _ _ _ items => items.length
  | dict_e _ _ _ items => items.length

end lazy_entry

/-- The `while` loop of `num_digits`, with an iteration budget. -/
def num_digits_loop : Nat → Int → Int → Int
  | 0, _, ret => ret
  | n + 1, val, ret => if val ≥ 10 then num_digits_loop n (val / 10) (ret + 1) else ret

/-- Embedding of `num_digits(int val)`: an `int` has at most 10 digits. -/
def num_digits (val : Int) : Int := num_digits_loop 10 val 1

/-- Modelled from the spec: `construct_int(start, length)` of the missing
header; the span of the digits, `m_begin` at the `i`, `m_end` after the `e`. -/
def construct_int (start length : Int) : lazy_entry :=
  .int_e start length (start - 1) (start + length + 1)

/-- Embedding of `lazy_entry::construct_string(start, length)`. -/
def construct_string (start length : Int) : lazy_entry :=
  .string_e start length (start - 1 - num_digits length) (start + length)

/-- Modelled from the spec: `construct_dict(begin)` of the missing header. -/
def construct_dict (begin_ : Int) : lazy_entry := .dict_e begin_ none 0 []

/-- Modelled from the spec: `construct_list(begin)` of the missing header. -/
def construct_list (begin_ : Int) : lazy_entry := .list_e begin_ none 0 []

/-- Modelled from the spec: `set_end(end)` of the missing header. -/
def set_end (e : lazy_entry) (end_ : Int) : lazy_entry :=
  match e with
  | .list_e b _ c items => .list_e b (some end_) c items
  | .dict_e b _ c items => .dict_e b (some end_) c items
  | .int_e s n b _ => .int_e s n b end_
  | .string_e s n b _ => .string_e s n b end_
  | .none_e => .none_e

/-- The spacing of the binary32 values around `n`: the smallest power of two
`q` from `q0` on with `n < q * 2^24` (a binary32 significand has 24 bits).
The first argument bounds the number of doublings. -/
def ulp_loop : Nat → Nat → Nat → Nat
  | 0, _, q => q
  | fuel + 1, n, q => if n < q * 16777216 then q else ulp_loop fuel n (2 * q)

/-- The spacing of the binary32 values around `n`. -/
def ulp (n : Nat) : Nat := ulp_loop n n 1

/-- The binary32 value nearest to `n`, ties to the even significand (the
default rounding of IEEE 754).  Rounding to 24 significant bits does not
depend on the scale, so the same function rounds a number of halves. -/
def round_binary32 (n : Nat) : Nat :=
  if 2 * (n % ulp n) < ulp n then n - n % ulp n
  else if 2 * (n % ulp n) > ulp n then n - n % ulp n + ulp n
  else if (n / ulp n) % 2 = 0 then n - n % ulp n
  else n - n % ulp n + ulp n

/-- The value of `int capacity = m_capacity * lazy_entry_grow_factor` (lines
199 and 319) in binary32 arithmetic: `m_capacity` is converted to `float`,
the product with `1.5f` is rounded to `float` (it is `3 * float(m_capacity)`
halves) and the conversion to `int` drops the fraction. -/
def grow_capacity (m_capacity : Nat) : Nat :=
  round_binary32 (3 * round_binary32 m_capacity) / 2

/-- The capacity after the growth step of `list_append` / `dict_append`:
5 for an empty store, `int(m_capacity * 1.5f)` for a full one. -/
def grow (m_size m_capacity : Nat) : Nat :=
  if m_capacity = 0 then 5
  else if m_size = m_capacity then grow_capacity m_capacity
  else m_capacity

/-- Embedding of `lazy_entry::list_append()` (allocation succeeds): the entry
with one more, default-constructed, child.  `none` when an assertion fails or
the capacity does not fit an `int` (the conversion of the product is
undefined then). -/
def list_append (e : lazy_entry) : Option lazy_entry :=
  match e with
  | .list_e b en c items =>
    if items.length ≤ c ∧ grow items.length c ≤ 2147483647 ∧
        items.length < grow items.length c then
      some (.list_e b en (grow items.length c) (items ++ [.none_e]))
    else none
  | _ => none

/-- Embedding of `lazy_entry::dict_append(name)` (allocation succeeds). -/
def dict_append (e : lazy_entry) (name : Int) : Option lazy_entry :=
  match e with
  | .dict_e b en c items =>
    if items.length ≤ c ∧ grow items.length c ≤ 2147483647 ∧
        items.length < grow items.length c then
      some (.dict_e b en (grow items.length c) (items ++ [(name, .none_e)]))
    else none
  | _ => none

/-! ## The decoder -/

/-- The stack of `lazy_bdecode` holds pointers to the entry under construction
and to its ancestors, each the last child of the one below.  The embedding
keeps the pointed-to values (top first); `set_last parent child` stores the
value of the child back into the slot it lives in. -/
def set_last (parent child : lazy_entry) : lazy_entry :=
  match parent with
  | .list_e b en c items => .list_e b en c (items.dropLast ++ [child])
  | .dict_e b en c items =>
    match items.getLast? with
    | some (name, _) => .dict_e b en c (items.dropLast ++ [(name, child)])
    | none => .dict_e b en c items
  | e => e

/-- State at the head of the `while` loop: the cursor, the stack (top first,
its last element is `ret` itself) and the value of `ret` once popped. -/
structure State where
  start : Int
  stack : List lazy_entry
  ret : lazy_entry
  deriving Repr

/-- The value of `ret` seen through a stack of pending entries. -/
def collapse : List lazy_entry → lazy_entry → lazy_entry
  | [], r => r
  | top :: rest, _ => rest.foldl (fun child parent => set_last parent child) top

/-- Embedding of `stack.pop_back()`: the finished top is stored in its slot. -/
def pop (stack : List lazy_entry) (ret : lazy_entry) : List lazy_entry × lazy_entry :=
  match stack with
  | [] => ([], ret)
  | [root] => ([], root)
  | child :: parent :: rest => (set_last parent child :: rest, ret)

/-- The effect on the stack of a `fail_bdecode(ret)` whose result is dropped
(lines 111 and 114): `ret`, the bottom of the stack, is a fresh entry.  The
assignment `ret = lazy_entry()` is taken to be the memberwise one (the class
declaration is not part of the sources): it overwrites the fields of `ret`
and leaves the entries the rest of the stack points to as they are. -/
def reset_root (stack : List lazy_entry) : List lazy_entry :=
  match stack with
  | [] => []
  | _ :: _ => stack.dropLast ++ [.none_e]

/-- What a call can do: return a code and `ret`, leave defined behaviour, or
still be running when the iteration budget is used up. -/
inductive Outcome where
  | returned (code : Int) (ret : lazy_entry)
  | undefined
  | out_of_fuel
  deriving Repr

/-- One pass through the loop body either goes round again or leaves. -/
inductive Step where
  | next (st : State)
  | done (o : Outcome)
  deriving Repr

/-- Embedding of `return fail_bdecode(ret)`. -/
def fail_bdecode : Step := .done (.returned (-1) .none_e)

/-- The second `switch` of the loop body (lines 135-169): the token `t` has
been read, `start` is past it, the top of the stack is the entry to build. -/
def interpret (buf : List Int) (t start : Int) (stack : List lazy_entry)
    (ret : lazy_entry) : Step :=
  match stack with
  | .none_e :: rest =>
    if t = 100 then .next ⟨start, construct_dict (start - 1) :: rest, ret⟩
    else if t = 108 then .next ⟨start, construct_list (start - 1) :: rest, ret⟩
    else if t = 105 then
      match find_char buf start buf.length 101 with
      | none => .done .undefined
      | some p =>
        if p = buf.length then fail_bdecode
        else
          let s := pop (construct_int start (p - start) :: rest) ret
          .next ⟨p + 1, s.1, s.2⟩
    else if isdigit t = false then fail_bdecode
    else
      match parse_int buf start buf.length 58 (t - 48) with
      | none => .done .undefined
      | some (none, _) => fail_bdecode
      | some (some p, len) =>
        if p + len + 1 > buf.length then fail_bdecode
        else match peek buf p with
          | none => .done .undefined
          | some c =>
            if c ≠ 58 then fail_bdecode
            else
              let s := pop (construct_string (p + 1) (int32 len) :: rest) ret
              .next ⟨p + 1 + len, s.1, s.2⟩
  | _ => .done .undefined

/-- How the key part of the dictionary branch ends: the function is left, or
the token `t` of the value has been read (line 116) with the cursor `start`
past it and the new pending entry on top of `stack`. -/
inductive KeyStep where
  | leave (o : Outcome)
  | value (t start : Int) (stack : List lazy_entry)
  deriving Repr

/-- The statement `if (cond) fail_bdecode(ret);` of lines 111 and 114: the
call resets `ret` and its result is dropped. -/
def reset_if (cond : Bool) (stack : List lazy_entry) : List lazy_entry :=
  if cond then reset_root stack else stack

/-- Lines 111-117 of the dictionary branch: the pair for the key at `name` is
appended, the cursor skips `len` bytes and the token of the value is read. -/
def dict_value (buf : List Int) (name len : Int) (stack : List lazy_entry) : KeyStep :=
  match reset_if (decide (name = buf.length)) stack with
  | [] => .leave .undefined
  | top :: rest =>
    match dict_append top name with
    | none => .leave .undefined
    | some top1 =>
      match peek buf (name + len) with
      | none => .leave .undefined
      | some t1 =>
        .value t1 (name + len + 1)
          (.none_e :: reset_if (decide (name + len ≥ buf.length)) (top1 :: rest))

/-- The dictionary branch of the first `switch` for a token other than `e`
(lines 107-117): the key, the new pair, and the token of its value. -/
def dict_key (buf : List Int) (t start : Int) (stack : List lazy_entry) : KeyStep :=
  match parse_int buf start buf.length 58 (t - 48) with
  | none => .leave .undefined
  | some (none, _) => .leave (.returned (-1) .none_e)
  | some (some p, len) =>
    if p + len + 3 > buf.length then .leave (.returned (-1) .none_e)
    else match peek buf p with
      | none => .leave .undefined
      | some c =>
        if c ≠ 58 then .leave (.returned (-1) .none_e)
        else dict_value buf (p + 1) len stack

/-- A list or dictionary is closed by the token `e` (lines 103-105 and
124-126): `set_end`, then `pop_back`. -/
def close_container (start : Int) (top : lazy_entry) (rest : List lazy_entry)
    (ret : lazy_entry) : Step :=
  .next ⟨start, (pop (set_end top start :: rest) ret).1, (pop (set_end top start :: rest) ret).2⟩

/-- The two `switch` statements of the loop body (lines 97-169) for the token
`t`, with `start` past it and `top :: rest` the stack. -/
def body (buf : List Int) (t start : Int) (top : lazy_entry) (rest : List lazy_entry)
    (ret : lazy_entry) : Step :=
  match top with
  | .dict_e .. =>
    if t = 101 then close_container start top rest ret
    else match dict_key buf t start (top :: rest) with
      | .leave o => .done o
      | .value t1 start1 stack1 => interpret buf t1 start1 stack1 ret
  | .list_e .. =>
    if t = 101 then close_container start top rest ret
    else match list_append top with
      | none => .done .undefined
      | some top1 => interpret buf t start (.none_e :: top1 :: rest) ret
  | _ => interpret buf t start (top :: rest) ret

/-- One iteration of the `while` loop of `lazy_bdecode` (lines 85-171). -/
def step (buf : List Int) (depth_limit : Int) (st : State) : Step :=
  if ¬ (st.start < buf.length) then .done (.returned 0 (collapse st.stack st.ret))
  else
    match st.stack with
    | [] => .done (.returned 0 st.ret)
    | top :: rest =>
      if ((top :: rest).length : Int) > depth_limit then fail_bdecode
      else match peek buf st.start with
        | none => .done .undefined
        | some t =>
          if st.start + 1 ≥ buf.length ∧ t ≠ 101 then fail_bdecode
          else body buf t (st.start + 1) top rest st.ret

/-- The `while` loop of `lazy_bdecode`, run for at most `fuel` iterations. -/
def run (buf : List Int) (depth_limit : Int) : Nat → State → Outcome
  | 0, _ => .out_of_fuel
  | fuel + 1, st =>
    match step buf depth_limit st with
    | .done o => o
    | .next st1 => run buf depth_limit fuel st1

/-- Embedding of `lazy_bdecode(start, end, ret, depth_limit)` on the buffer
`buf`, with an iteration budget for the loop.  `ret.clear()` makes `ret` the
`None` entry; an empty range returns 0 at once. -/
def lazy_bdecode (fuel : Nat) (buf : List Int) (depth_limit : Int) : Outcome :=
  if buf.length = 0 then .returned 0 .none_e
  else run buf depth_limit fuel ⟨0, [.none_e], .none_e⟩

/-- The state at the head of the loop after `n` further iterations, when the
loop is still running then. -/
def state_at (buf : List Int) (depth_limit : Int) : Nat → State → Option State
  | 0, st => some st
  | n + 1, st =>
    match step buf depth_limit st with
    | .done _ => none
    | .next st1 => state_at buf depth_limit n st1

/-- The token read `char t = *start` at the head of the loop body (line 93)
in the iteration that starts in `st`: its offset and `stack.size()` then. -/
def head_token_read (buf : List Int) (depth_limit : Int) (st : State) : Option (Int × Nat) :=
  if ¬ (st.start < buf.length) then none
  else
    match st.stack with
    | [] => none
    | top :: rest =>
      if ((top :: rest).length : Int) > depth_limit then none
      else match peek buf st.start with
        | none => none
        | some _ => some (st.start, (top :: rest).length)

/-- The token read `t = *start` after a dictionary key (line 116) in the
iteration that starts in `st`: its offset and `stack.size()` then, the
pending entry of the value having been pushed on line 115. -/
def value_token_read (buf : List Int) (depth_limit : Int) (st : State) : Option (Int × Nat) :=
  if ¬ (st.start < buf.length) then none
  else
    match st.stack with
    | [] => none
    | top :: rest =>
      if ((top :: rest).length : Int) > depth_limit then none
      else match peek buf st.start with
        | none => none
        | some t =>
          if st.start + 1 ≥ buf.length ∧ t ≠ 101 then none
          else match top with
            | .dict_e .. =>
              if t = 101 then none
              else match dict_key buf t (st.start + 1) (top :: rest) with
                | .leave _ => none
                | .value _ start1 stack1 => some (start1 - 1, stack1.length)
            | _ => none

/-- The token reads of the iteration that starts in `st`. -/
def token_reads (buf : List Int) (depth_limit : Int) (st : State) : List (Int × Nat) :=
  (head_token_read buf depth_limit st).toList ++ (value_token_read buf depth_limit st).toList

/-! ## The accessor layer -/

/-- The bytes `[start, start + len)` of the buffer, as `std::string(start, len)`
copies them; `none` when the range is not inside the buffer. -/
def span (buf : List Int) (start len : Int) : Option (List Int) :=
  if 0 ≤ start ∧ 0 ≤ len ∧ start + len ≤ buf.length then
    some ((buf.drop start.toNat).take len.toNat)
  else none

/-- Embedding of `lazy_entry::int_value()`. -/
def int_value (buf : List Int) (e : lazy_entry) : Option Int :=
  match e with
  | .int_e start size _ _ =>
    match peek buf start with
    | none => none
    | some c =>
      let negative := decide (c = 45)
      match parse_int buf (if negative then start + 1 else start) (start + size) 101 0 with
      | none => none
      | some (_, val) => some (if negative then int64 (-val) else val)
  | _ => none

/-- The byte `str1[i]` of the null-terminated string whose bytes are `name`. -/
def cstr_at (name : List Int) (i : Nat) : Int := name.getD i 0

/-- The `while` loop of `string_equal`; the first argument counts `len2`. -/
def string_equal_loop (buf : List Int) (name : List Int) : Nat → Nat → Int → Option Bool
  | 0, i, _ => some (decide (cstr_at name i = 0))
  | n + 1, i, str2 =>
    match peek buf str2 with
    | none => none
    | some c =>
      if cstr_at name i ≠ c then some false
      else if cstr_at name i = 0 then some false
      else string_equal_loop buf name n (i + 1) (str2 + 1)

/-- Embedding of `string_equal(str1, str2, len2)`: `str1` is the
null-terminated `name`, `str2` an offset into the buffer. -/
def string_equal (buf : List Int) (name : List Int) (str2 len2 : Int) : Option Bool :=
  string_equal_loop buf name len2.toNat 0 str2

/-- The test `string_equal(name, e.first, e.second.m_begin - e.first)` of
`dict_find` on one pair (undefined when `m_begin` is the null pointer). -/
def key_matches (buf : List Int) (name : List Int) (pair : Int × lazy_entry) : Option Bool :=
  match pair.2.m_begin? with
  | none => none
  | some b => string_equal buf name pair.1 (b - pair.1)

/-- The `for` loop of `dict_find` from index `i` on: the index and the value
of the first pair whose key compares equal to `name`. -/
def dict_find_loop (buf : List Int) (name : List Int) :
    List (Int × lazy_entry) → Nat → Option (Option (Nat × lazy_entry))
  | [], _ => some none
  | pair :: rest, i =>
    match key_matches buf name pair with
    | none => none
    | some true => some (some (i, pair.2))
    | some false => dict_find_loop buf name rest (i + 1)

/-- Embedding of `lazy_entry::dict_find(name)`, with the index of the pair
the returned pointer points into. -/
def dict_find_at (buf : List Int) (e : lazy_entry) (name : List Int) :
    Option (Option (Nat × lazy_entry)) :=
  match e with
  | .dict_e _ _ _ items => dict_find_loop buf name items 0
  | _ => none

/-- Embedding of `lazy_entry::dict_find(name)`: `some none` is the null
pointer (not found). -/
def dict_find (buf : List Int) (e : lazy_entry) (name : List Int) :
    Option (Option lazy_entry) :=
  (dict_find_at buf e name).map (fun r => r.map (fun p => p.2))

/-- Modelled from the spec: the key of a pair as `dict_at(i)` of the missing
header returns it, the bytes from the key pointer up to `m_begin` of the value
(the length `dict_find` passes to `string_equal`). -/
def dict_key_bytes (buf : List Int) (pair : Int × lazy_entry) : Option (List Int) :=
  match pair.2.m_begin? with
  | none => none
  | some b => span buf pair.1 (b - pair.1)

/-! ## Trees and their canonical encoding -/

/-- A bencoded value. -/
inductive Tree where
  | int (n : Int) : Tree
  | str (s : List Int) : Tree
  | list (xs : List Tree) : Tree
  | dict (kvs : List (List Int × Tree)) : Tree

/-- Decimal digits of `n`, most significant first (`f` bounds the recursion). -/
def nat_digits_aux : Nat → Nat → List Int
  | 0, n => [48 + ((n % 10 : Nat) : Int)]
  | f + 1, n =>
    if n < 10 then [48 + (n : Int)]
    else nat_digits_aux f (n / 10) ++ [48 + ((n % 10 : Nat) : Int)]

/-- The decimal text of `n` without leading zeros. -/
def nat_digits (n : Nat) : List Int := nat_digits_aux n n

/-- The decimal text of an integer, `-` first when negative. -/
def int_text (n : Int) : List Int :=
  (if n < 0 then [45] else []) ++ nat_digits n.natAbs

mutual
/-- The canonical bencoding of a tree. -/
def encode : Tree → List Int
  | .int n => 105 :: (int_text n ++ [101])
  | .str s => nat_digits s.length ++ 58 :: s
  | .list xs => 108 :: (encode_list xs ++ [101])
  | .dict kvs => 100 :: (encode_pairs kvs ++ [101])
/-- The encodings of the children of a list, one after the other. -/
def encode_list : List Tree → List Int
  | [] => []
  | x :: xs => encode x ++ encode_list xs
/-- The encodings of the pairs of a dictionary: key, then value. -/
def encode_pairs : List (List Int × Tree) → List Int
  | [] => []
  | (k, v) :: kvs => (nat_digits k.length ++ 58 :: k) ++ (encode v ++ encode_pairs kvs)
end

mutual
/-- Nesting depth of the containers of a tree: 0 for an integer or string. -/
def Tree.depth : Tree → Nat
  | .int _ => 0
  | .str _ => 0
  | .list xs => 1 + Tree.depth_list xs
  | .dict kvs => 1 + Tree.depth_pairs kvs
/-- Largest depth among the children of a list. -/
def Tree.depth_list : List Tree → Nat
  | [] => 0
  | x :: xs => max (Tree.depth x) (Tree.depth_list xs)
/-- Largest depth among the values of a dictionary. -/
def Tree.depth_pairs : List (List Int × Tree) → Nat
  | [] => 0
  | (_, v) :: kvs => max (Tree.depth v) (Tree.depth_pairs kvs)
end

mutual
/-- Every integer of the tree is in the signed 64-bit range. -/
def Tree.ints_ok : Tree → Prop
  | .int n => -9223372036854775808 ≤ n ∧ n ≤ 9223372036854775807
  | .str _ => True
  | .list xs => Tree.ints_ok_list xs
  | .dict kvs => Tree.ints_ok_pairs kvs
/-- Every integer below a list is in the signed 64-bit range. -/
def Tree.ints_ok_list : List Tree → Prop
  | [] => True
  | x :: xs => Tree.ints_ok x ∧ Tree.ints_ok_list xs
/-- Every integer below a dictionary is in the signed 64-bit range. -/
def Tree.ints_ok_pairs : List (List Int × Tree) → Prop
  | [] => True
  | (_, v) :: kvs => Tree.ints_ok v ∧ Tree.ints_ok_pairs kvs
end

mutual
/-- Reading an entry back through `type()`, `int_value()`, the string payload
span, the children of a list in order and the (key, value) pairs of a
dictionary in order. -/
def readback (buf : List Int) : lazy_entry → Option Tree
  | .none_e => none
  | .int_e s n b e => (int_value buf (.int_e s n b e)).map Tree.int
  | .string_e s n _ _ => (span buf s n).map Tree.str
  | .list_e _ _ _ items => (readback_list buf items).map Tree.list
  | .dict_e _ _ _ items => (readback_pairs buf items).map Tree.dict
/-- Reading back the children of a list. -/
def readback_list (buf : List Int) : List lazy_entry → Option (List Tree)
  | [] => some []
  | x :: xs =>
    match readback buf x, readback_list buf xs with
    | some t, some ts => some (t :: ts)
    | _, _ => none
/-- Reading back the pairs of a dictionary. -/
def readback_pairs (buf : List Int) : List (Int × lazy_entry) → Option (List (List Int × Tree))
  | [] => some []
  | (key, v) :: rest =>
    match dict_key_bytes buf (key, v), readback buf v, readback_pairs buf rest with
    | some k, some t, some ts => some ((k, t) :: ts)
    | _, _, _ => none
end

/-- The `char` values of a text. -/
def bytes (s : String) : List Int := s.toList.map (fun c => (c.toNat : Int))

/-! ## Auxiliary functions of the proofs -/

/-- The value `parse_int` leaves in `val` after the digits `ds`, started with
`val = v`: each step is `val *= 10; val += d - '0'` in 64-bit arithmetic. -/
def accumulate (v : Int) (ds : List Int) : Int :=
  ds.foldl (fun v d => int64 (int64 (v * 10) + (d - 48))) v

/-- The number the decimal digits `ds` denote after the prefix value `v`,
in exact arithmetic. -/
def digits_value (v : Int) (ds : List Int) : Int :=
  ds.foldl (fun v d => v * 10 + (d - 48)) v

/-- The entry is a list. -/
def is_list : lazy_entry → Prop
  | .list_e .. => True
  | _ => False

/-- A chain of `n` nested lists: `n` times `l`, then `n` times `e`. -/
def chain (n : Nat) : List Int := List.replicate n 108 ++ List.replicate n 101

/-- The entry is a list or a dictionary. -/
def is_container : lazy_entry → Prop
  | .list_e .. => True
  | .dict_e .. => True
  | _ => False

mutual
/-- No list or dictionary in the entry is nested deeper than `depth_limit`,
the entry itself being at nesting level `lvl` when it is a container. -/
def nest_ok (depth_limit : Int) : Nat → lazy_entry → Prop
  | lvl, .list_e _ _ _ items => (lvl : Int) ≤ depth_limit ∧ nest_ok_list depth_limit (lvl + 1) items
  | lvl, .dict_e _ _ _ items => (lvl : Int) ≤ depth_limit ∧ nest_ok_pairs depth_limit (lvl + 1) items
  | _, .none_e => True
  | _, .int_e .. => True
  | _, .string_e .. => True
/-- `nest_ok` for the children of a list. -/
def nest_ok_list (depth_limit : Int) : Nat → List lazy_entry → Prop
  | _, [] => True
  | lvl, x :: xs => nest_ok depth_limit lvl x ∧ nest_ok_list depth_limit lvl xs
/-- `nest_ok` for the values of a dictionary. -/
def nest_ok_pairs (depth_limit : Int) : Nat → List (Int × lazy_entry) → Prop
  | _, [] => True
  | lvl, (_, v) :: rest => nest_ok depth_limit lvl v ∧ nest_ok_pairs depth_limit lvl rest
end

/-- The children of an entry at level `lvl` respect the depth limit. -/
def kids_ok (depth_limit : Int) (lvl : Nat) : lazy_entry → Prop
  | .list_e _ _ _ items => nest_ok_list depth_limit (lvl + 1) items
  | .dict_e _ _ _ items => nest_ok_pairs depth_limit (lvl + 1) items
  | _ => True

/-- Every entry of the stack, at the level given by its height, has children
that respect the depth limit. -/
def stack_kids (depth_limit : Int) : List lazy_entry → Prop
  | [] => True
  | e :: rest => kids_ok depth_limit (rest.length + 1) e ∧ stack_kids depth_limit rest

/-- Invariant of the loop for the depth limit: the entries below the top
passed the depth check, the top will meet it before the loop can end. -/
def depth_inv (buf : List Int) (depth_limit : Int) (st : State) : Prop :=
  stack_kids depth_limit st.stack ∧
  (2 ≤ st.stack.length → (st.stack.length : Int) - 1 ≤ depth_limit) ∧
  (∀ top rest, st.stack = top :: rest → is_container top →
    (st.stack.length : Int) ≤ depth_limit ∨ st.start < buf.length) ∧
  nest_ok depth_limit 1 st.ret

/-- The rest of the loop after a step. -/
def continue_with (buf : List Int) (depth_limit : Int) (fuel : Nat) (s : Step) : Outcome :=
  match s with
  | .done o => o
  | .next st => run buf depth_limit fuel st

/-- The capacity of a store after `n` appends to an empty one. -/
def cap_after : Nat → Nat
  | 0 => 0
  | n + 1 => grow n (cap_after n)

mutual
/-- The entry the decoder builds for a tree whose encoding starts at offset `p`. -/
def entry_of : Int → Tree → lazy_entry
  | p, .int n => .int_e (p + 1) (int_text n).length p (p + 1 + (int_text n).length + 1)
  | p, .str s =>
    .string_e (p + (nat_digits s.length).length + 1) s.length p
      (p + (nat_digits s.length).length + 1 + s.length)
  | p, .list xs =>
    .list_e p (some (p + 1 + (encode_list xs).length + 1)) (cap_after xs.length)
      (entries_of (p + 1) xs)
  | p, .dict kvs =>
    .dict_e p (some (p + 1 + (encode_pairs kvs).length + 1)) (cap_after kvs.length)
      (pairs_of (p + 1) kvs)
/-- The entries of the children of a list whose first child starts at `p`. -/
def entries_of : Int → List Tree → List lazy_entry
  | _, [] => []
  | p, x :: xs => entry_of p x :: entries_of (p + (encode x).length) xs
/-- The pairs of a dictionary whose first key starts at `p`. -/
def pairs_of : Int → List (List Int × Tree) → List (Int × lazy_entry)
  | _, [] => []
  | p, (k, v) :: kvs =>
    (p + (nat_digits k.length).length + 1,
      entry_of (p + (nat_digits k.length).length + 1 + k.length) v) ::
    pairs_of (p + (nat_digits k.length).length + 1 + k.length + (encode v).length) kvs
end

mutual
/-- The iterations of the loop a value takes after the one that reads its
token: none for an integer or a string, one per child and one for the closing
`e` of a container. -/
def iters : Tree → Nat
  | .int _ => 0
  | .str _ => 0
  | .list xs => iters_list xs + 1
  | .dict kvs => iters_pairs kvs + 1
/-- Iterations for the children of a list. -/
def iters_list : List Tree → Nat
  | [] => 0
  | x :: xs => 1 + iters x + iters_list xs
/-- Iterations for the pairs of a dictionary. -/
def iters_pairs : List (List Int × Tree) → Nat
  | [] => 0
  | (_, v) :: kvs => 1 + iters v + iters_pairs kvs
end

/-- The first byte of the encoding of a tree, its token. -/
def first_byte : Tree → Int
  | .int _ => 105
  | .str s => (nat_digits s.length).headD 48
  | .list _ => 108
  | .dict _ => 100

/-- What the loop does with a value `v` whose token has just been read, the
pending entry of the value being on top of the stack: after `iters v` more
iterations the entry of `v` has been built and popped, and the cursor is
behind the encoding of `v`. -/
def value_spec (buf : List Int) (depth_limit : Int) (v : Tree) : Prop :=
  ∀ (pre post : List Int) (rest : List lazy_entry) (ret : lazy_entry) (fuel : Nat),
    buf = pre ++ (encode v ++ post) → (rest.length : Int) + v.depth ≤ depth_limit →
    continue_with buf depth_limit (fuel + iters v)
        (interpret buf (first_byte v) ((pre.length : Int) + 1) (.none_e :: rest) ret)
      = run buf depth_limit fuel ⟨(pre.length : Int) + (encode v).length,
          (pop (entry_of pre.length v :: rest) ret).1,
          (pop (entry_of pre.length v :: rest) ret).2⟩

/-- What the loop does with the children `xs` of the list on top of the stack
and its closing `e`, as long as the capacity of the list fits an `int`. -/
def list_spec (buf : List Int) (depth_limit : Int) (xs : List Tree) : Prop :=
  ∀ (pre post : List Int) (b : Int) (items : List lazy_entry) (rest : List lazy_entry)
    (ret : lazy_entry) (fuel : Nat),
    buf = pre ++ (encode_list xs ++ 101 :: post) →
    (rest.length : Int) + 1 + Tree.depth_list xs ≤ depth_limit →
    items.length + xs.length ≤ 1796357632 →
    run buf depth_limit (fuel + iters_list xs + 1)
        ⟨pre.length, .list_e b none (cap_after items.length) items :: rest, ret⟩
      = run buf depth_limit fuel ⟨(pre.length : Int) + (encode_list xs).length + 1,
          (pop (.list_e b (some ((pre.length : Int) + (encode_list xs).length + 1))
            (cap_after (items.length + xs.length)) (items ++ entries_of pre.length xs) :: rest)
            ret).1,
          (pop (.list_e b (some ((pre.length : Int) + (encode_list xs).length + 1))
            (cap_after (items.length + xs.length)) (items ++ entries_of pre.length xs) :: rest)
            ret).2⟩

/-- What the loop does with the pairs `kvs` of the dictionary on top of the
stack and its closing `e`, as long as the capacity of the dictionary fits an
`int`. -/
def pairs_spec (buf : List Int) (depth_limit : Int) (kvs : List (List Int × Tree)) : Prop :=
  ∀ (pre post : List Int) (b : Int) (items : List (Int × lazy_entry))
    (rest : List lazy_entry) (ret : lazy_entry) (fuel : Nat),
    buf = pre ++ (encode_pairs kvs ++ 101 :: post) →
    (rest.length : Int) + 1 + Tree.depth_pairs kvs ≤ depth_limit →
    items.length + kvs.length ≤ 1796357632 →
    run buf depth_limit (fuel + iters_pairs kvs + 1)
        ⟨pre.length, .dict_e b none (cap_after items.length) items :: rest, ret⟩
      = run buf depth_limit fuel ⟨(pre.length : Int) + (encode_pairs kvs).length + 1,
          (pop (.dict_e b (some ((pre.length : Int) + (encode_pairs kvs).length + 1))
            (cap_after (items.length + kvs.length)) (items ++ pairs_of pre.length kvs) :: rest)
            ret).1,
          (pop (.dict_e b (some ((pre.length : Int) + (encode_pairs kvs).length + 1))
            (cap_after (items.length + kvs.length)) (items ++ pairs_of pre.length kvs) :: rest)
            ret).2⟩

/-! ## The typed accessors -/

/-- Embedding of `lazy_entry::data_section()`: `m_begin` and `m_end - m_begin`
(`none` while one of the two pointers is null). -/
def data_section (e : lazy_entry) : Option (Int × Int) :=
  match e with
  | .none_e => none
  | .int_e _ _ b en => some (b, en - b)
  | .string_e _ _ b en => some (b, en - b)
  | .list_e b (some en) _ _ => some (b, en - b)
  | .dict_e b (some en) _ _ => some (b, en - b)
  | .list_e _ none _ _ => none
  | .dict_e _ none _ _ => none

/-- Modelled from the spec: `string_value()` of the missing header, the copy
`std::string(m_data.start, m_size)` of the payload. -/
def string_value (buf : List Int) (e : lazy_entry) : Option (List Int) :=
  match e with
  | .string_e s n _ _ => span buf s n
  | _ => none

/-- Modelled from the spec: `list_at(i)` of the missing header, the
bounds-checked access to the child `i` of a list (`some none`: not found). -/
def list_at (e : lazy_entry) (i : Int) : Option (Option lazy_entry) :=
  match e with
  | .list_e _ _ _ items => some (if 0 ≤ i then items[i.toNat]? else none)
  | _ => none

/-- Embedding of `lazy_entry::dict_find_string_value(name)`. -/
def dict_find_string_value (buf : List Int) (e : lazy_entry) (name : List Int) :
    Option (List Int) :=
  match dict_find buf e name with
  | none => none
  | some none => some []
  | some (some v) => if v.type ≠ .string_t then some [] else string_value buf v

/-- Embedding of `lazy_entry::dict_find_string(name)`. -/
def dict_find_string (buf : List Int) (e : lazy_entry) (name : List Int) :
    Option (Option lazy_entry) :=
  match dict_find buf e name with
  | none => none
  | some none => some none
  | some (some v) => if v.type ≠ .string_t then some none else some (some v)

/-- Embedding of `lazy_entry::dict_find_int_value(name, default_val)`. -/
def dict_find_int_value (buf : List Int) (e : lazy_entry) (name : List Int)
    (default_val : Int) : Option Int :=
  match dict_find buf e name with
  | none => none
  | some none => some default_val
  | some (some v) => if v.type ≠ .int_t then some default_val else int_value buf v

/-- Embedding of `lazy_entry::dict_find_dict(name)`. -/
def dict_find_dict (buf : List Int) (e : lazy_entry) (name : List Int) :
    Option (Option lazy_entry) :=
  match dict_find buf e name with
  | none => none
  | some none => some none
  | some (some v) => if v.type ≠ .dict_t then some none else some (some v)

/-- Embedding of `lazy_entry::dict_find_list(name)`. -/
def dict_find_list (buf : List Int) (e : lazy_entry) (name : List Int) :
    Option (Option lazy_entry) :=
  match dict_find buf e name with
  | none => none
  | some none => some none
  | some (some v) => if v.type ≠ .list_t then some none else some (some v)

/-- Embedding of `lazy_entry::list_string_value_at(i)`. -/
def list_string_value_at (buf : List Int) (e : lazy_entry) (i : Int) : Option (List Int) :=
  match list_at e i with
  | none => none
  | some none => some []
  | some (some v) => if v.type ≠ .string_t then some [] else string_value buf v

/-- Embedding of `lazy_entry::list_int_value_at(i, default_val)`. -/
def list_int_value_at (buf : List Int) (e : lazy_entry) (i : Int) (default_val : Int) :
    Option Int :=
  match list_at e i with
  | none => none
  | some none => some default_val
  | some (some v) => if v.type ≠ .int_t then some default_val else int_value buf v

/-! ## The growable store, array and counters -/

/-- The array behind a list or dictionary: the allocated elements
`m_data.list` / `m_data.dict`, `m_size` and `m_capacity`. -/
structure store (α : Type) where
  slots : List α
  m_size : Nat
  m_capacity : Nat

/-- `std::memcpy(dst, src, sizeof(T) * n)` on arrays. -/
def memcpy {α : Type} (dst src : List α) (n : Nat) : List α :=
  src.take n ++ dst.drop n

/-- The body shared by `list_append` and `dict_append` (lines 186-213 and
306-331) on the array itself: `dflt` is a default-constructed element, the
allocations succeed, `none` when a `TORRENT_ASSERT` fails or the capacity
does not fit an `int`.  The result is the store after `m_size++`; the
returned pointer is the slot `m_size - 1`. -/
def store_append {α : Type} (dflt : α) (s : store α) : Option (store α) :=
  if ¬ (s.m_size ≤ s.m_capacity) then none
  else if ¬ (grow s.m_size s.m_capacity ≤ 2147483647) then none
  else
    let s1 : store α :=
      if s.m_capacity = 0 then
        ⟨List.replicate 5 dflt, s.m_size, 5⟩
      else if s.m_size = s.m_capacity then
        ⟨memcpy (List.replicate (grow_capacity s.m_capacity) dflt) s.slots s.m_size, s.m_size,
          grow_capacity s.m_capacity⟩
      else s
    if ¬ (s1.m_size < s1.m_capacity) then none
    else some ⟨s1.slots, s1.m_size + 1, s1.m_capacity⟩

/-- `list_append()` followed by the construction of the child `v` in the
returned slot. -/
def append_child (s : store lazy_entry) (v : lazy_entry) : Option (store lazy_entry) :=
  (store_append .none_e s).map (fun s1 => ⟨s1.slots.set (s1.m_size - 1) v, s1.m_size, s1.m_capacity⟩)

/-- `dict_append(name)`, which stores `name` in the returned pair, followed
by the construction of the value `v`. -/
def append_pair (s : store (Option Int × lazy_entry)) (name : Int) (v : lazy_entry) :
    Option (store (Option Int × lazy_entry)) :=
  (store_append (none, .none_e) s).map
    (fun s1 => ⟨s1.slots.set (s1.m_size - 1) (some name, v), s1.m_size, s1.m_capacity⟩)

/-- Appending the children `vs` one after the other. -/
def append_children : store lazy_entry → List lazy_entry → Option (store lazy_entry)
  | s, [] => some s
  | s, v :: vs =>
    match append_child s v with
    | none => none
    | some s1 => append_children s1 vs

/-- `n` appends in a row. -/
def append_n {α : Type} (dflt : α) : Nat → store α → Option (store α)
  | 0, s => some s
  | n + 1, s =>
    match store_append dflt s with
    | none => none
    | some s1 => append_n dflt n s1

/-- The sequence `c0 = 5`, `c(k+1) = floor(1.5 * c(k))` in exact arithmetic:
5, 7, 10, 15, 22, ... -/
def cap_seq : Nat → Nat
  | 0 => 5
  | k + 1 => cap_seq k * 3 / 2

/-- The capacities the store goes through: `c0 = 5`,
`c(k+1) = int(c(k) * 1.5f)` in binary32 arithmetic. -/
def grow_seq : Nat → Nat
  | 0 => 5
  | k + 1 => grow_capacity (grow_seq k)

/-- Representation invariant of a store: the array has `m_capacity` elements,
`m_size <= m_capacity`, and a non-empty array has at least two elements. -/
def store_wf {α : Type} (s : store α) : Prop :=
  (s.slots.length = s.m_capacity ∨ s.m_capacity = 0) ∧ s.m_size ≤ s.m_capacity ∧
  (s.m_capacity = 0 ∨ 2 ≤ s.m_capacity)

/-! ## Sorted vectors (`vector_utils.hpp`) -/

/-- The loop of `std::lower_bound` of the C++ standard library, a binary
search: `first` is the start of the range still searched, `len` its length;
the first argument bounds the number of iterations. -/
def lower_bound_loop {α : Type} [LinearOrder α] (cont : List α) (v : α) : Nat → Nat → Nat → Nat
  | 0, first, _ => first
  | fuel + 1, first, len =>
    if len = 0 then first
    else
      match cont[first + len / 2]? with
      | none => first
      | some middle =>
        if middle < v then lower_bound_loop cont v fuel (first + len / 2 + 1) (len - len / 2 - 1)
        else lower_bound_loop cont v fuel first (len / 2)

/-- `std::lower_bound(cont.begin(), cont.end(), v)` as an index into `cont`
(`cont.length` is `cont.end()`). -/
def lower_bound {α : Type} [LinearOrder α] (cont : List α) (v : α) : Nat :=
  lower_bound_loop cont v (cont.length + 1) 0 cont.length

/-- Embedding of `sorted_find(container, v)`: the index of the iterator it
returns, `cont.length` for `container.end()`. -/
def sorted_find {α : Type} [LinearOrder α] (cont : List α) (v : α) : Nat :=
  if lower_bound cont v = cont.length then cont.length
  else
    match cont[lower_bound cont v]? with
    | none => cont.length
    | some x => if x ≠ v then cont.length else lower_bound cont v

/-- Embedding of `sorted_insert(container, v)`: `container.insert(i, v)`
with `i` the lower bound. -/
def sorted_insert {α : Type} [LinearOrder α] (cont : List α) (v : α) : List α :=
  cont.take (lower_bound cont v) ++ v :: cont.drop (lower_bound cont v)

/-! ## The growth factor in binary32 -/

theorem ulp_loop_spec : ∀ (fuel n q : Nat), 0 < q → (q = 1 ∨ q * 8388608 ≤ n) →
    n < q * 16777216 * 2 ^ fuel →
    0 < ulp_loop fuel n q ∧ (ulp_loop fuel n q = 1 ∨ ulp_loop fuel n q * 8388608 ≤ n) ∧
      n < ulp_loop fuel n q * 16777216
  | 0, n, q, hq, hinv, hlt => by
    simp only [ulp_loop]
    exact ⟨hq, hinv, by simpa using hlt⟩
  | fuel + 1, n, q, hq, hinv, hlt => by
    simp only [ulp_loop]
    split
    · rename_i h
      exact ⟨hq, hinv, h⟩
    · rename_i h
      refine ulp_loop_spec fuel n (2 * q) (by omega) (Or.inr (by omega)) ?_
      rw [pow_succ] at hlt
      calc n < q * 16777216 * (2 ^ fuel * 2) := hlt
        _ = 2 * q * 16777216 * 2 ^ fuel := by ring

theorem ulp_spec (n : Nat) :
    0 < ulp n ∧ (ulp n = 1 ∨ ulp n * 8388608 ≤ n) ∧ n < ulp n * 16777216 := by
  unfold ulp
  refine ulp_loop_spec n n 1 (by decide) (Or.inl rfl) ?_
  have : n < 2 ^ n := Nat.lt_two_pow n
  omega

theorem ulp_small {n : Nat} (h : n < 16777216) : ulp n = 1 := by
  rcases (ulp_spec n).2.1 with h1 | h1
  · exact h1
  · have := (ulp_spec n).1
    omega

/-- Rounding to binary32 moves a number by at most half a spacing. -/
theorem round_binary32_bounds (n : Nat) :
    16777215 * n ≤ 16777216 * round_binary32 n
      ∧ 16777216 * round_binary32 n ≤ 16777217 * n := by
  obtain ⟨hq, hinv, -⟩ := ulp_spec n
  have hr : n % ulp n < ulp n := Nat.mod_lt _ hq
  have hle : n % ulp n ≤ n := Nat.mod_le _ _
  unfold round_binary32
  rcases hinv with h1 | h1
  · rw [h1] at hr ⊢
    have : n % 1 = 0 := Nat.mod_one n
    simp only [this]
    simp
    omega
  · split
    · omega
    · split
      · omega
      · split <;> omega

theorem round_binary32_small {n : Nat} (h : n < 16777216) : round_binary32 n = n := by
  unfold round_binary32
  rw [ulp_small h]
  simp [Nat.mod_one]

/-- A growth step makes the capacity larger. -/
theorem grow_capacity_gt {c : Nat} (h : 2 ≤ c) : c < grow_capacity c := by
  unfold grow_capacity
  by_cases hs : c < 5000000
  · rw [round_binary32_small (show c < 16777216 by omega),
      round_binary32_small (show 3 * c < 16777216 by omega)]
    omega
  · have h1 := (round_binary32_bounds c).1
    have h2 := (round_binary32_bounds (3 * round_binary32 c)).1
    omega

theorem grow_seq_ge : ∀ k : Nat, 5 ≤ grow_seq k
  | 0 => by simp [grow_seq]
  | k + 1 => by
    have := grow_seq_ge k
    have := @grow_capacity_gt (grow_seq k) (by omega)
    simp only [grow_seq]
    omega

theorem grow_seq_lt (k : Nat) : grow_seq k < grow_seq (k + 1) := by
  have := grow_seq_ge k
  exact grow_capacity_gt (by omega)

theorem grow_seq_mono {j k : Nat} (h : j ≤ k) : grow_seq j ≤ grow_seq k := by
  induction k with
  | zero =>
    have : j = 0 := by omega
    subst this; exact Nat.le_refl _
  | succ k ih =>
    by_cases hj : j = k + 1
    · subst hj; exact Nat.le_refl _
    · have := ih (by omega)
      have := grow_seq_lt k
      omega

set_option maxRecDepth 1000000 in
theorem grow_seq_49 : grow_seq 49 = 1796357632 := by decide
/-! ## Failure resets the result -/

theorem interpret_returned {buf : List Int} {t start : Int} {stack : List lazy_entry}
    {ret : lazy_entry} {c : Int} {e : lazy_entry}
    (h : interpret buf t start stack ret = .done (.returned c e)) :
    c = -1 ∧ e = .none_e := by
  unfold interpret at h
  repeat' split at h
  all_goals first
    | (simp only [fail_bdecode, Step.done.injEq, Outcome.returned.injEq] at h
       exact ⟨h.1.symm, h.2.symm⟩)
    | simp at h

theorem dict_value_returned {buf : List Int} {name len : Int} {stack : List lazy_entry}
    {c : Int} {e : lazy_entry}
    (h : dict_value buf name len stack = .leave (.returned c e)) : False := by
  unfold dict_value at h
  repeat' split at h
  all_goals simp at h

theorem dict_key_returned {buf : List Int} {t start : Int} {stack : List lazy_entry}
    {c : Int} {e : lazy_entry}
    (h : dict_key buf t start stack = .leave (.returned c e)) :
    c = -1 ∧ e = .none_e := by
  unfold dict_key at h
  repeat' split at h
  all_goals first
    | (simp only [KeyStep.leave.injEq, Outcome.returned.injEq] at h
       exact ⟨h.1.symm, h.2.symm⟩)
    | exact (dict_value_returned h).elim
    | simp at h

theorem body_returned {buf : List Int} {t start : Int} {top : lazy_entry}
    {rest : List lazy_entry} {ret : lazy_entry} {c : Int} {e : lazy_entry}
    (h : body buf t start top rest ret = .done (.returned c e)) :
    c = -1 ∧ e = .none_e := by
  unfold body at h
  repeat' split at h
  all_goals first
    | exact interpret_returned h
    | (simp only [Step.done.injEq] at h
       rename_i h1
       rw [h] at h1
       exact dict_key_returned h1)
    | simp [close_container] at h

theorem step_returned {buf : List Int} {dl : Int} {st : State}
    {c : Int} {e : lazy_entry}
    (h : step buf dl st = .done (.returned c e)) :
    c = 0 ∨ (c = -1 ∧ e = .none_e) := by
  unfold step at h
  repeat' split at h
  all_goals first
    | exact Or.inr (body_returned h)
    | (simp only [fail_bdecode, Step.done.injEq, Outcome.returned.injEq] at h
       first
        | exact Or.inl h.1.symm
        | exact Or.inr ⟨h.1.symm, h.2.symm⟩)
    | simp at h

theorem run_returned {buf : List Int} {dl : Int} :
    ∀ (fuel : Nat) (st : State) (c : Int) (e : lazy_entry),
      run buf dl fuel st = .returned c e → c = 0 ∨ (c = -1 ∧ e = .none_e)
  | 0, _, _, _, h => by simp [run] at h
  | fuel + 1, st, c, e, h => by
    simp only [run] at h
    split at h
    · rename_i o ho
      subst h
      exact step_returned ho
    · exact run_returned fuel _ c e h

/-- C2: whenever `lazy_bdecode` returns a non-zero code, whatever the buffer,
the depth limit and the number of iterations it ran, the entry it hands back
is the `None` entry: its type is `none_t` and its size is 0. -/
theorem lazy_bdecode_failure_is_none (fuel : Nat) (buf : List Int) (depth_limit : Int)
    (code : Int) (ret : lazy_entry)
    (h : lazy_bdecode fuel buf depth_limit = .returned code ret) (hc : code ≠ 0) :
    ret = .none_e ∧ ret.type = .none_t ∧ ret.m_size = 0 := by
  unfold lazy_bdecode at h
  split at h
  · simp only [Outcome.returned.injEq] at h
    exact absurd h.1.symm hc
  · rcases run_returned fuel _ code ret h with h0 | ⟨-, h1⟩
    · exact absurd h0 hc
    · subst h1; exact ⟨rfl, rfl, rfl⟩

/-- Witness of C2 on the truncated string `10:abc`: the call returns -1 and
the entry is the `None` entry. -/
theorem lazy_bdecode_failure_is_none_witness :
    lazy_bdecode 10 (bytes "10:abc") 1000 = .returned (-1) .none_e ∧ (-1 : Int) ≠ 0 ∧
      (lazy_entry.none_e = lazy_entry.none_e ∧ lazy_entry.none_e.type = .none_t ∧
        lazy_entry.none_e.m_size = 0) :=
  ⟨rfl, by decide,
    lazy_bdecode_failure_is_none 10 (bytes "10:abc") 1000 (-1) .none_e rfl (by decide)⟩

/-! ## Inputs on which the decoder departs from its contract -/

/-- C3: on the three bytes `lle` the input is exhausted while the root list is
still open (its `m_end` was never set), and `lazy_bdecode` returns 0. -/
theorem lazy_bdecode_unclosed_list_succeeds :
    lazy_bdecode 10 (bytes "lle") 1000
      = .returned 0 (.list_e 0 none 5 [.list_e 1 (some 3) 0 []]) := by
  rfl

/-- C4: `lazy_bdecode` succeeds on `d/8:abcdefghe`; the token `/` is taken for
a key length of -1, so the only pair has its key pointer at offset 4 and the
`m_begin` of its value at offset 2: the key span has length -2. -/
theorem lazy_bdecode_negative_key_span :
    lazy_bdecode 10 (bytes "d/8:abcdefghe") 1000
        = .returned 0 (.dict_e 0 (some 13) 5 [(4, .string_e 4 8 2 12)])
      ∧ (lazy_entry.string_e 4 8 2 12).m_begin? = some 2
      ∧ ((2 : Int) - 4 < 0)
      ∧ dict_key_bytes (bytes "d/8:abcdefghe") (4, .string_e 4 8 2 12) = none :=
  ⟨rfl, rfl, by decide, rfl⟩

/-- C8: with the root dictionary open, the token `:` is neither `e` nor a
digit, yet `lazy_bdecode` succeeds on `d::0123456789i1ee`: the token is taken
for the key length `':' - '0' = 10`. -/
theorem lazy_bdecode_non_digit_key_succeeds :
    isdigit 58 = false ∧ (58 : Int) ≠ 101 ∧
      lazy_bdecode 10 (bytes "d::0123456789i1ee") 1000
        = .returned 0 (.dict_e 0 (some 17) 5 [(3, .int_e 14 1 13 16)]) :=
  ⟨rfl, by decide, rfl⟩

/-- C9: `d1:a01:xe` decodes to a dictionary whose only key is announced as the
one byte `a`, but `dict_find("a")` returns the null pointer and
`dict_find("a0")` finds the value: the key length is taken from `m_begin` of
the value, which `construct_string` places by the digits of the length 1, not
by the two bytes `01` of the prefix. -/
theorem dict_find_misses_announced_key :
    lazy_bdecode 10 (bytes "d1:a01:xe") 1000
        = .returned 0 (.dict_e 0 (some 9) 5 [(3, .string_e 7 1 5 8)])
      ∧ dict_find (bytes "d1:a01:xe") (.dict_e 0 (some 9) 5 [(3, .string_e 7 1 5 8)])
          (bytes "a") = some none
      ∧ dict_find (bytes "d1:a01:xe") (.dict_e 0 (some 9) 5 [(3, .string_e 7 1 5 8)])
          (bytes "a0") = some (some (.string_e 7 1 5 8)) :=
  ⟨rfl, rfl, rfl⟩

/-! ## The accessor layer: lookups -/

theorem peek_append (pre xs : List Int) :
    peek (pre ++ xs) (pre.length : Int) = xs.head? := by
  unfold peek
  simp only [Int.toNat_ofNat, Int.ofNat_zero_le, if_true]
  rw [List.getElem?_append_right (Nat.le_refl _)]
  simp [List.head?_eq_getElem?]

theorem peek_append_cons (pre : List Int) (x : Int) (post : List Int) :
    peek (pre ++ x :: post) (pre.length : Int) = some x := by
  rw [peek_append]; rfl

theorem peek_at_length (buf : List Int) : peek buf (buf.length : Int) = none := by
  have := peek_append buf []
  simpa using this

theorem int64_id {x : Int} (h1 : -9223372036854775808 ≤ x) (h2 : x < 9223372036854775808) :
    int64 x = x := by
  unfold int64
  rw [Int.emod_eq_of_lt (by omega) (by omega)]
  omega

theorem int32_id {x : Int} (h1 : -2147483648 ≤ x) (h2 : x < 2147483648) :
    int32 x = x := by
  unfold int32
  rw [Int.emod_eq_of_lt (by omega) (by omega)]
  omega

theorem isdigit_iff {c : Int} : isdigit c = true ↔ 48 ≤ c ∧ c ≤ 57 := by
  simp [isdigit]

theorem digits_value_mono : ∀ (ds : List Int) (v : Int),
    (∀ d ∈ ds, isdigit d = true) → 0 ≤ v → v ≤ digits_value v ds
  | [], v, _, _ => by simp [digits_value]
  | d :: ds, v, hd, hv => by
    have h1 := isdigit_iff.mp (hd d (List.mem_cons_self _ _))
    have := digits_value_mono ds (v * 10 + (d - 48))
      (fun x hx => hd x (List.mem_cons_of_mem _ hx)) (by omega)
    simp only [digits_value, List.foldl_cons] at this ⊢
    omega

theorem accumulate_eq : ∀ (ds : List Int) (v : Int),
    (∀ d ∈ ds, isdigit d = true) → 0 ≤ v → digits_value v ds < 9223372036854775808 →
    accumulate v ds = digits_value v ds
  | [], v, _, _, _ => by simp [accumulate, digits_value]
  | d :: ds, v, hd, hv, hlt => by
    have h1 := isdigit_iff.mp (hd d (List.mem_cons_self _ _))
    have hd' : ∀ x ∈ ds, isdigit x = true := fun x hx => hd x (List.mem_cons_of_mem _ hx)
    have hm := digits_value_mono ds (v * 10 + (d - 48)) hd' (by omega)
    have hlt' : digits_value (v * 10 + (d - 48)) ds < 9223372036854775808 := by
      simpa [digits_value] using hlt
    have e1 : int64 (v * 10) = v * 10 := int64_id (by omega) (by omega)
    have e2 : int64 (v * 10 + (d - 48)) = v * 10 + (d - 48) := int64_id (by omega) (by omega)
    have := accumulate_eq ds (v * 10 + (d - 48)) hd' (by omega) hlt'
    simp only [accumulate, digits_value, List.foldl_cons, e1, e2] at this ⊢
    exact this

/-- `parse_int` over a run of digits: the cursor stops behind the run, at the
delimiter or at `end`. -/
theorem parse_int_loop_digits (delim : Int) (hdelim : isdigit delim = false) :
    ∀ (ds pre post : List Int) (n : Nat) (v : Int),
      (∀ d ∈ ds, isdigit d = true) → ds.length ≤ n →
      (ds.length < n → post.head? = some delim) →
      parse_int_loop (pre ++ (ds ++ post)) delim n (pre.length : Int) v
        = some (some ((pre.length : Int) + ds.length), accumulate v ds)
  | [], pre, post, n, v, _, _, hpost => by
    cases n with
    | zero => simp [parse_int_loop, accumulate]
    | succ n =>
      have hp := hpost (by simp)
      simp [parse_int_loop, accumulate, peek_append, hp]
  | d :: ds, pre, post, n, v, hd, hn, hpost => by
    cases n with
    | zero => simp at hn
    | succ n =>
      have h1 := hd d (List.mem_cons_self _ _)
      have hne : d ≠ delim := by
        intro h; rw [h, hdelim] at h1; exact Bool.noConfusion h1
      have ih := parse_int_loop_digits delim hdelim ds (pre ++ [d]) post n
        (int64 (int64 (v * 10) + (d - 48)))
        (fun x hx => hd x (List.mem_cons_of_mem _ hx))
        (by simpa using hn) (fun h => hpost (by simpa using h))
      simp only [List.append_assoc, List.singleton_append, List.length_append,
        List.length_singleton, Nat.cast_add, Nat.cast_one] at ih
      simp only [parse_int_loop, List.cons_append, peek_append_cons, hne, if_false, h1,
        Bool.true_eq_false, ih, accumulate, List.foldl_cons, List.length_cons, Nat.cast_add,
        Nat.cast_one]
      congr 3
      omega

/-! ## A declared length that runs past the buffer end -/


theorem digit_not_token {t : Int} (h : isdigit t = true) :
    t ≠ 100 ∧ t ≠ 108 ∧ t ≠ 105 ∧ t ≠ 101 := by
  have := isdigit_iff.mp h
  omega

/-- `parse_int` of the decoder on a length prefix `t :: ds` followed by `:`. -/
theorem parse_int_of_length (pre : List Int) (t : Int) (ds rest : List Int)
    (ht : isdigit t = true) (hds : ∀ d ∈ ds, isdigit d = true)
    (hN : digits_value 0 (t :: ds) < 9223372036854775808) :
    parse_int (pre ++ t :: (ds ++ 58 :: rest)) ((pre.length : Int) + 1)
        ((pre ++ t :: (ds ++ 58 :: rest)).length : Int) 58 (t - 48)
      = some (some ((pre.length : Int) + 1 + ds.length), digits_value 0 (t :: ds)) := by
  have h := parse_int_loop_digits 58 (by decide) ds (pre ++ [t]) (58 :: rest)
    (ds.length + 1 + rest.length) (t - 48) hds (by omega) (fun _ => rfl)
  have ht' := isdigit_iff.mp ht
  have hv : digits_value 0 (t :: ds) = digits_value (t - 48) ds := by
    simp [digits_value]
  rw [accumulate_eq ds (t - 48) hds (by omega) (by rw [← hv]; exact hN)] at h
  unfold parse_int
  have hlen : ((((pre ++ t :: (ds ++ 58 :: rest)).length : Int)) - ((pre.length : Int) + 1)).toNat
      = ds.length + 1 + rest.length := by
    simp only [List.length_append, List.length_cons, Nat.cast_add, Nat.cast_one]
    omega
  rw [hlen, hv]
  simpa using h



theorem interpret_truncated_string (pre : List Int) (t : Int) (ds rest : List Int)
    (ht : isdigit t = true) (hds : ∀ d ∈ ds, isdigit d = true)
    (hN : digits_value 0 (t :: ds) < 9223372036854775808)
    (hshort : (rest.length : Int) < digits_value 0 (t :: ds))
    (stack : List lazy_entry) (ret : lazy_entry) :
    interpret (pre ++ t :: (ds ++ 58 :: rest)) t ((pre.length : Int) + 1)
      (.none_e :: stack) ret = fail_bdecode := by
  obtain ⟨h1, h2, h3, -⟩ := digit_not_token ht
  unfold interpret
  simp only
  rw [if_neg h1, if_neg h2, if_neg h3, if_neg (by simp [ht])]
  rw [parse_int_of_length pre t ds rest ht hds hN]
  simp only
  rw [if_pos]
  simp only [List.length_append, List.length_cons, Nat.cast_add, Nat.cast_one]
  omega

theorem dict_key_truncated (pre : List Int) (t : Int) (ds rest : List Int)
    (ht : isdigit t = true) (hds : ∀ d ∈ ds, isdigit d = true)
    (hN : digits_value 0 (t :: ds) < 9223372036854775808)
    (hshort : (rest.length : Int) < digits_value 0 (t :: ds))
    (stack : List lazy_entry) :
    dict_key (pre ++ t :: (ds ++ 58 :: rest)) t ((pre.length : Int) + 1) stack
      = .leave (.returned (-1) .none_e) := by
  unfold dict_key
  rw [parse_int_of_length pre t ds rest ht hds hN]
  simp only
  rw [if_pos]
  simp only [List.length_append, List.length_cons, Nat.cast_add, Nat.cast_one]
  omega

theorem step_depth_exceeded (buf : List Int) (dl start : Int) (top : lazy_entry)
    (rest : List lazy_entry) (r : lazy_entry) (hs : start < buf.length)
    (hd : ((top :: rest).length : Int) > dl) :
    step buf dl ⟨start, top :: rest, r⟩ = fail_bdecode := by
  unfold step
  simp only
  rw [if_neg (by omega), if_pos hd]

theorem step_eq_body (buf : List Int) (dl start t : Int) (top : lazy_entry)
    (rest : List lazy_entry) (r : lazy_entry) (hs : start < buf.length)
    (hd : ¬ ((top :: rest).length : Int) > dl) (hp : peek buf start = some t)
    (he : ¬ (start + 1 ≥ buf.length ∧ t ≠ 101)) :
    step buf dl ⟨start, top :: rest, r⟩ = body buf t (start + 1) top rest r := by
  unfold step
  simp only
  rw [if_neg (by omega), if_neg hd, hp]
  simp only
  rw [if_neg he]

theorem step_last_token (buf : List Int) (dl start t : Int) (top : lazy_entry)
    (rest : List lazy_entry) (r : lazy_entry) (hs : start < buf.length)
    (hp : peek buf start = some t) (he : start + 1 ≥ buf.length ∧ t ≠ 101) :
    step buf dl ⟨start, top :: rest, r⟩ = fail_bdecode := by
  unfold step
  simp only
  rw [if_neg (by omega), hp]
  simp only
  rw [if_pos he]
  split <;> rfl

theorem step_truncated_key (pre : List Int) (t : Int) (ds rest : List Int)
    (ht : isdigit t = true) (hds : ∀ d ∈ ds, isdigit d = true)
    (hN : digits_value 0 (t :: ds) < 9223372036854775808)
    (hshort : (rest.length : Int) < digits_value 0 (t :: ds))
    (dl : Int) (b : Int) (en : Option Int) (c : Nat) (items : List (Int × lazy_entry))
    (more : List lazy_entry) (r : lazy_entry) :
    step (pre ++ t :: (ds ++ 58 :: rest)) dl ⟨pre.length, .dict_e b en c items :: more, r⟩
      = fail_bdecode := by
  obtain ⟨-, -, -, h4⟩ := digit_not_token ht
  have hs : (pre.length : Int) < ((pre ++ t :: (ds ++ 58 :: rest)).length : Int) := by
    simp only [List.length_append, List.length_cons]; push_cast; omega
  by_cases hd : (((lazy_entry.dict_e b en c items) :: more).length : Int) > dl
  · exact step_depth_exceeded _ _ _ _ _ _ hs hd
  · rw [step_eq_body _ _ _ t _ _ _ hs hd (peek_append_cons _ _ _)
      (by simp only [List.length_append, List.length_cons]; push_cast; omega)]
    unfold body
    simp only [if_neg h4]
    rw [dict_key_truncated pre t ds rest ht hds hN hshort]
    rfl

theorem step_truncated_string (t : Int) (ds rest : List Int)
    (ht : isdigit t = true) (hds : ∀ d ∈ ds, isdigit d = true)
    (hN : digits_value 0 (t :: ds) < 9223372036854775808)
    (hshort : (rest.length : Int) < digits_value 0 (t :: ds))
    (dl : Int) :
    step (t :: (ds ++ 58 :: rest)) dl ⟨0, [.none_e], .none_e⟩ = fail_bdecode := by
  have hi := interpret_truncated_string [] t ds rest ht hds hN hshort [] .none_e
  have hp := peek_append_cons [] t (ds ++ 58 :: rest)
  simp only [List.nil_append, List.length_nil, Nat.cast_zero, zero_add] at hi hp
  have hs : (0 : Int) < ((t :: (ds ++ 58 :: rest)).length : Int) := by
    simp only [List.length_cons]; push_cast; omega
  by_cases hd : (([lazy_entry.none_e].length : Nat) : Int) > dl
  · exact step_depth_exceeded _ _ _ _ _ _ hs hd
  · rw [step_eq_body _ _ _ t _ _ _ hs hd hp
      (by simp only [List.length_append, List.length_cons]; push_cast; omega)]
    unfold body
    simp only [zero_add]
    exact hi

/-- C7 (amended): a buffer that consists of a decimal length prefix (`t` and
the digits `ds`) whose value is below `2^63`, a `:` and fewer remaining bytes
than that value makes `lazy_bdecode` return -1 with the `None` entry; the
same holds for the loop whenever a dictionary is on top of the stack and the
rest of the buffer is such a key, in particular for the buffer `d` followed
by such a key. -/
theorem truncated_string_fails (t : Int) (ds rest : List Int)
    (ht : isdigit t = true) (hds : ∀ d ∈ ds, isdigit d = true)
    (hN : digits_value 0 (t :: ds) < 9223372036854775808)
    (hshort : (rest.length : Int) < digits_value 0 (t :: ds))
    (fuel : Nat) (depth_limit : Int) :
    lazy_bdecode (fuel + 1) (t :: (ds ++ 58 :: rest)) depth_limit = .returned (-1) .none_e ∧
    (∀ (pre : List Int) (b : Int) (en : Option Int) (c : Nat)
        (items : List (Int × lazy_entry)) (more : List lazy_entry) (r : lazy_entry),
      run (pre ++ t :: (ds ++ 58 :: rest)) depth_limit (fuel + 1)
          ⟨pre.length, .dict_e b en c items :: more, r⟩ = .returned (-1) .none_e) ∧
    lazy_bdecode (fuel + 2) (100 :: t :: (ds ++ 58 :: rest)) depth_limit
      = .returned (-1) .none_e := by
  refine ⟨?_, ?_, ?_⟩
  · unfold lazy_bdecode
    rw [if_neg (by simp)]
    simp only [run, step_truncated_string t ds rest ht hds hN hshort, fail_bdecode]
  · intro pre b en c items more r
    simp only [run, step_truncated_key pre t ds rest ht hds hN hshort, fail_bdecode]
  · unfold lazy_bdecode
    rw [if_neg (by simp)]
    have h2 := step_truncated_key [100] t ds rest ht hds hN hshort depth_limit 0 none 0 [] []
      .none_e
    simp only [List.singleton_append, List.length_singleton, Nat.cast_one] at h2
    have hs : (0 : Int) < ((100 :: t :: (ds ++ 58 :: rest)).length : Int) := by
      simp only [List.length_cons]; push_cast; omega
    by_cases hd : (([lazy_entry.none_e].length : Nat) : Int) > depth_limit
    · simp only [run, step_depth_exceeded _ _ _ _ _ _ hs hd, fail_bdecode]
    · have hp := peek_append_cons [] 100 (t :: (ds ++ 58 :: rest))
      simp only [List.nil_append, List.length_nil, Nat.cast_zero] at hp
      have h1 := step_eq_body _ _ _ 100 _ _ .none_e hs hd hp
        (by simp only [List.length_append, List.length_cons]; push_cast; omega)
      have h3 : body (100 :: t :: (ds ++ 58 :: rest)) 100 (0 + 1) .none_e [] .none_e
          = .next ⟨1, [.dict_e 0 none 0 []], .none_e⟩ := by
        simp [body, interpret, construct_dict]
      rw [h3] at h1
      simp only [run, h1, h2, fail_bdecode]


/-- Witness of C7 on the test input `10:abc`. -/
theorem truncated_string_fails_witness :
    isdigit 49 = true ∧ (∀ d ∈ [(48 : Int)], isdigit d = true) ∧
    digits_value 0 (49 :: [48]) < 9223372036854775808 ∧
    (((bytes "abc").length : Int) < digits_value 0 (49 :: [48])) ∧
    lazy_bdecode 1 (bytes "10:abc") 1000 = .returned (-1) .none_e ∧
    lazy_bdecode 2 (bytes "d10:abc") 1000 = .returned (-1) .none_e :=
  ⟨rfl, by decide, by decide, by decide,
    (truncated_string_fails 49 [48] (bytes "abc") rfl (by decide) (by decide) (by decide)
      0 1000).1,
    (truncated_string_fails 49 [48] (bytes "abc") rfl (by decide) (by decide) (by decide)
      0 1000).2.2⟩

set_option maxRecDepth 100000 in
/-- Counterexample to C7 as stated: the 21 bytes `18446744073709551616:`
declare a length of `2^64` and hold no byte after the `:`, yet `lazy_bdecode`
returns 0, with a string of length 0: the 64-bit accumulator wrapped to 0. -/
theorem overflowing_length_prefix_succeeds :
    digits_value 0 (bytes "18446744073709551616") = 18446744073709551616 ∧
    (([] : List Int).length : Int) < digits_value 0 (bytes "18446744073709551616") ∧
    lazy_bdecode 10 (bytes "18446744073709551616" ++ 58 :: []) 1000
      = .returned 0 (.string_e 21 0 19 21) :=
  ⟨rfl, by rw [show digits_value 0 (bytes "18446744073709551616") = 18446744073709551616 from rfl]; decide, rfl⟩

/-! ## Chains of nested lists and the depth limit -/


theorem set_last_is_list {parent : lazy_entry} (child : lazy_entry) (h : is_list parent) :
    is_list (set_last parent child) := by
  cases parent <;> simp_all [is_list, set_last]

theorem step_close_list (buf : List Int) (dl start : Int) (b : Int) (en : Option Int)
    (c : Nat) (items : List lazy_entry) (rest : List lazy_entry) (r : lazy_entry)
    (hs : start < buf.length) (hd : ¬ (((lazy_entry.list_e b en c items) :: rest).length : Int) > dl)
    (hp : peek buf start = some 101) :
    step buf dl ⟨start, .list_e b en c items :: rest, r⟩
      = .next ⟨start + 1, (pop (.list_e b (some (start + 1)) c items :: rest) r).1,
          (pop (.list_e b (some (start + 1)) c items :: rest) r).2⟩ := by
  rw [step_eq_body _ _ _ 101 _ _ _ hs hd hp (by simp)]
  simp [body, close_container, set_end]

theorem run_at_end (buf : List Int) (dl : Int) (fuel : Nat) (st : State)
    (h : ¬ st.start < buf.length) :
    run buf dl (fuel + 1) st = .returned 0 (collapse st.stack st.ret) := by
  simp only [run, step, h, not_false_eq_true, if_true]

/-- Closing phase: the stack holds lists only and the rest of the buffer is
one `e` for each of them. -/
theorem close_run (dl : Int) : ∀ (S : List lazy_entry) (pre : List Int) (r : lazy_entry)
    (fuel : Nat), (∀ e ∈ S, is_list e) → (S.length : Int) ≤ dl → S ≠ [] →
    ∃ e, run (pre ++ List.replicate S.length 101) dl (fuel + S.length + 1)
      ⟨pre.length, S, r⟩ = .returned 0 e ∧ is_list e
  | [], _, _, _, _, _, h => absurd rfl h
  | [root], pre, r, fuel, hl, hd, _ => by
    have hroot := hl root (List.mem_singleton_self _)
    cases root with
    | list_e b en c items =>
      have hs : (pre.length : Int) < ((pre ++ List.replicate [lazy_entry.list_e b en c items].length 101).length : Int) := by
        simp
      have h1 := step_close_list _ dl _ b en c items [] r hs (by simpa using hd)
        (by simpa using peek_append_cons pre 101 [])
      refine ⟨.list_e b (some (pre.length + 1)) c items, ?_, trivial⟩
      simp only [List.length_singleton] at h1 ⊢
      rw [show fuel + 1 + 1 = (fuel + 1) + 1 from rfl, run, h1]
      simp only [pop]
      rw [run_at_end _ _ _ _ (by simp)]
      rfl
    | _ => exact hroot.elim
  | top :: parent :: rest, pre, r, fuel, hl, hd, _ => by
    have htop := hl top (List.mem_cons_self _ _)
    cases top with
    | list_e b en c items =>
      have hs : (pre.length : Int) <
          ((pre ++ List.replicate (lazy_entry.list_e b en c items :: parent :: rest).length 101).length
            : Int) := by
        simp only [List.length_append, List.length_replicate, List.length_cons]; push_cast; omega
      have h1 := step_close_list _ dl _ b en c items (parent :: rest) r hs
        (by simpa using hd)
        (by simpa [List.replicate_succ] using
          (peek_append_cons pre 101 (List.replicate (parent :: rest).length 101)))
      have hl' : ∀ e ∈ set_last parent (.list_e b (some ((pre.length : Int) + 1)) c items) :: rest,
          is_list e := by
        intro e he
        rcases List.mem_cons.mp he with rfl | he
        · exact set_last_is_list _ (hl parent (by simp))
        · exact hl e (by simp [he])
      obtain ⟨e, he, hle⟩ := close_run dl
        (set_last parent (.list_e b (some ((pre.length : Int) + 1)) c items) :: rest)
        (pre ++ [101]) r fuel hl' (by simp only [List.length_cons] at hd ⊢; push_cast at hd ⊢; omega)
        (by simp)
      refine ⟨e, ?_, hle⟩
      simp only [List.length_cons, List.length_append, List.length_singleton, Nat.cast_add,
        Nat.cast_one, List.append_assoc, List.singleton_append] at he h1 ⊢
      rw [show fuel + (rest.length + 1 + 1) + 1 = (fuel + (rest.length + 1) + 1) + 1 from rfl,
        run, h1]
      simp only [pop]
      rw [show List.replicate (rest.length + 1 + 1) (101 : Int)
        = 101 :: List.replicate (rest.length + 1) 101 from List.replicate_succ _ _]
      exact he
    | _ => exact htop.elim
termination_by S => S.length
decreasing_by simp


theorem step_open_list (buf : List Int) (dl start : Int) (b : Int) (en : Option Int)
    (rest : List lazy_entry) (r : lazy_entry)
    (hs : start + 1 < buf.length)
    (hd : ¬ (((lazy_entry.list_e b en 0 []) :: rest).length : Int) > dl)
    (hp : peek buf start = some 108) :
    step buf dl ⟨start, .list_e b en 0 [] :: rest, r⟩
      = .next ⟨start + 1, .list_e start none 0 [] :: .list_e b en 5 [.none_e] :: rest, r⟩ := by
  rw [step_eq_body _ _ _ 108 _ _ _ (by omega) hd hp (by omega)]
  simp [body, list_append, grow, interpret, construct_list]

/-- Opening phase: a fresh list is on top, `a` more lists are opened and all
are closed; the run succeeds exactly when the depth limit admits them. -/
theorem open_run (dl : Int) : ∀ (a : Nat) (b : Int) (rest : List lazy_entry) (pre : List Int)
    (r : lazy_entry) (fuel : Nat), (∀ e ∈ rest, is_list e) →
    (((rest.length + 1 + a : Nat) : Int) ≤ dl →
      ∃ e, run (pre ++ (List.replicate a 108 ++ List.replicate (rest.length + 1 + a) 101)) dl
        (fuel + 2 * a + (rest.length + 1) + 1) ⟨pre.length, .list_e b none 0 [] :: rest, r⟩
          = .returned 0 e ∧ is_list e) ∧
    (dl < ((rest.length + 1 + a : Nat) : Int) →
      run (pre ++ (List.replicate a 108 ++ List.replicate (rest.length + 1 + a) 101)) dl
        (fuel + 2 * a + (rest.length + 1) + 1) ⟨pre.length, .list_e b none 0 [] :: rest, r⟩
          = .returned (-1) .none_e)
  | 0, b, rest, pre, r, fuel, hl => by
    constructor
    · intro hd
      have := close_run dl (.list_e b none 0 [] :: rest) pre r fuel
        (by intro e he
            rcases List.mem_cons.mp he with rfl | he
            · trivial
            · exact hl e he)
        (by simpa using hd) (by simp)
      simpa using this
    · intro hd
      have hs : (pre.length : Int) <
          ((pre ++ (List.replicate 0 108 ++ List.replicate (rest.length + 1 + 0) 101)).length : Int) := by
        simp only [List.length_append, List.length_replicate]; push_cast; omega
      rw [show fuel + 2 * 0 + (rest.length + 1) + 1 = (fuel + (rest.length + 1)) + 1 from rfl, run,
        step_depth_exceeded _ _ _ _ _ _ hs (by simpa using hd)]
      rfl
  | a + 1, b, rest, pre, r, fuel, hl => by
    have hs : (pre.length : Int) + 1 <
        ((pre ++ (List.replicate (a + 1) 108 ++ List.replicate (rest.length + 1 + (a + 1)) 101)).length
          : Int) := by
      simp only [List.length_append, List.length_replicate]; push_cast; omega
    have hbuf : pre ++ (List.replicate (a + 1) 108 ++ List.replicate (rest.length + 1 + (a + 1)) 101)
        = (pre ++ [108]) ++ (List.replicate a 108 ++
            List.replicate ((lazy_entry.list_e b none 5 [.none_e] :: rest).length + 1 + a) 101) := by
      have e1 : (lazy_entry.list_e b none 5 [.none_e] :: rest).length + 1 + a
          = rest.length + 1 + (a + 1) := by simp only [List.length_cons]; omega
      rw [e1]
      simp only [List.replicate_succ, List.append_assoc, List.singleton_append, List.cons_append,
        List.nil_append]
    have hfuel : fuel + 2 * (a + 1) + (rest.length + 1) + 1
        = (fuel + 2 * a + ((lazy_entry.list_e b none 5 [.none_e] :: rest).length + 1) + 1) + 1 := by
      simp only [List.length_cons]; omega
    have ih := open_run dl a (pre.length : Int) (.list_e b none 5 [.none_e] :: rest) (pre ++ [108])
      r fuel (by intro e he
                 rcases List.mem_cons.mp he with rfl | he
                 · trivial
                 · exact hl e he)
    by_cases hd : (((lazy_entry.list_e b none 0 []) :: rest).length : Int) > dl
    · constructor
      · intro h; simp only [List.length_cons] at hd; push_cast at hd h; omega
      · intro _
        rw [hfuel, run, step_depth_exceeded _ _ _ _ _ _ (by omega) hd]
        rfl
    · have h1 := step_open_list _ dl _ b none rest r hs hd
        (by simpa [List.replicate_succ] using
          (peek_append_cons pre 108 (List.replicate a 108 ++
            List.replicate (rest.length + 1 + (a + 1)) 101)))
      rw [hfuel, run, h1]
      simp only
      rw [hbuf]
      simp only [List.length_append, List.length_singleton, Nat.cast_add, Nat.cast_one] at ih
      constructor
      · intro h
        exact ih.1 (by simp only [List.length_cons]; push_cast at h ⊢; omega)
      · intro h
        exact ih.2 (by simp only [List.length_cons]; push_cast at h ⊢; omega)


/-- An unclosed chain of lists fails whatever the depth limit is. -/
theorem unclosed_run (dl : Int) : ∀ (a : Nat) (b : Int) (rest : List lazy_entry)
    (pre : List Int) (r : lazy_entry) (fuel : Nat),
    run (pre ++ List.replicate (a + 1) 108) dl (fuel + a + 1)
      ⟨pre.length, .list_e b none 0 [] :: rest, r⟩ = .returned (-1) .none_e
  | 0, b, rest, pre, r, fuel => by
    have hs : (pre.length : Int) < ((pre ++ List.replicate (0 + 1) 108).length : Int) := by
      simp
    have hp : peek (pre ++ List.replicate (0 + 1) 108) pre.length = some 108 := by
      simpa using peek_append_cons pre 108 []
    rw [show fuel + 0 + 1 = fuel + 1 from rfl, run,
      step_last_token _ dl _ 108 _ _ _ hs hp (by simp)]
    rfl
  | a + 1, b, rest, pre, r, fuel => by
    have hs : (pre.length : Int) + 1 < ((pre ++ List.replicate (a + 1 + 1) 108).length : Int) := by
      simp only [List.length_append, List.length_replicate]; push_cast; omega
    have ih := unclosed_run dl a (pre.length : Int) (.list_e b none 5 [.none_e] :: rest)
      (pre ++ [108]) r fuel
    by_cases hd : (((lazy_entry.list_e b none 0 []) :: rest).length : Int) > dl
    · rw [show fuel + (a + 1) + 1 = (fuel + a + 1) + 1 from rfl, run,
        step_depth_exceeded _ _ _ _ _ _ (by omega) hd]
      rfl
    · have h1 := step_open_list _ dl _ b none rest r hs hd
        (by simpa [List.replicate_succ] using
          (peek_append_cons pre 108 (List.replicate (a + 1) 108)))
      rw [show fuel + (a + 1) + 1 = (fuel + a + 1) + 1 from rfl, run, h1]
      simp only
      simp only [List.length_append, List.length_singleton, Nat.cast_add, Nat.cast_one,
        List.append_assoc, List.singleton_append] at ih
      rw [show List.replicate (a + 1 + 1) (108 : Int) = 108 :: List.replicate (a + 1) 108 from
        List.replicate_succ _ _]
      exact ih

theorem step_root_list (x : Int) (xs : List Int) (dl : Int) (hd : 1 ≤ dl) :
    step (108 :: x :: xs) dl ⟨0, [.none_e], .none_e⟩
      = .next ⟨1, [.list_e 0 none 0 []], .none_e⟩ := by
  have hp := peek_append_cons [] 108 (x :: xs)
  simp only [List.nil_append, List.length_nil, Nat.cast_zero] at hp
  rw [step_eq_body _ _ _ 108 _ _ _ (by simp only [List.length_cons]; push_cast; omega)
    (by simpa using hd) hp (by simp only [List.length_cons]; push_cast; omega)]
  simp [body, interpret, construct_list]

theorem chain_succ (n : Nat) :
    chain (n + 1) = [108] ++ (List.replicate n 108 ++ List.replicate (0 + 1 + n) 101) := by
  simp [chain, List.replicate_succ, Nat.add_comm]

/-- The chain of `n >= 1` nested lists under the depth limit `dl`. -/
theorem chain_run (dl : Int) (n fuel : Nat) :
    ((((n + 1 : Nat) : Int) ≤ dl) →
      ∃ e, lazy_bdecode (fuel + 2 * (n + 1) + 1) (chain (n + 1)) dl = .returned 0 e ∧ is_list e) ∧
    (dl < ((n + 1 : Nat) : Int) →
      lazy_bdecode (fuel + 2 * (n + 1) + 1) (chain (n + 1)) dl = .returned (-1) .none_e) := by
  have hne : ¬ (chain (n + 1)).length = 0 := by simp [chain]
  have hfuel : fuel + 2 * (n + 1) + 1 = (fuel + 2 * n + (0 + 1) + 1) + 1 := by omega
  unfold lazy_bdecode
  rw [if_neg hne, hfuel, run]
  by_cases hd : 1 ≤ dl
  · have h1 : step (chain (n + 1)) dl ⟨0, [.none_e], .none_e⟩
        = .next ⟨1, [.list_e 0 none 0 []], .none_e⟩ := by
      have : chain (n + 1) = 108 :: ((List.replicate n 108 ++ List.replicate (n + 1) 101)) := by
        simp [chain, List.replicate_succ]
      rw [this]
      cases n with
      | zero => exact step_root_list _ _ dl hd
      | succ n => exact step_root_list _ _ dl hd
    rw [h1]
    simp only
    have h := open_run dl n 0 [] [108] .none_e fuel (by simp)
    rw [chain_succ]
    simp only [List.length_nil, List.length_singleton, Nat.cast_one] at h
    constructor
    · intro hle; exact h.1 (by push_cast at hle ⊢; omega)
    · intro hlt; exact h.2 (by push_cast at hlt ⊢; omega)
  · constructor
    · intro hle; push_cast at hle; omega
    · intro _
      rw [step_depth_exceeded _ _ _ _ _ _ (by simp [chain]) (by simp; omega)]
      rfl


theorem unclosed_chain_fails (dl : Int) (d fuel : Nat) :
    lazy_bdecode (fuel + d + 1) (List.replicate (d + 1) 108) dl = .returned (-1) .none_e := by
  unfold lazy_bdecode
  rw [if_neg (by simp)]
  by_cases hd : 1 ≤ dl
  · cases d with
    | zero =>
      have hp : peek (List.replicate (0 + 1) 108) (0 : Int) = some 108 := rfl
      rw [show fuel + 0 + 1 = fuel + 1 from rfl, run,
        step_last_token _ dl 0 108 _ _ _ (by simp) hp (by simp)]
      rfl
    | succ d =>
      have hb : List.replicate (d + 1 + 1) (108 : Int) = 108 :: 108 :: List.replicate d 108 := by
        simp [List.replicate_succ]
      have h := unclosed_run dl d 0 [] [108] .none_e fuel
      simp only [List.length_singleton, Nat.cast_one, List.singleton_append] at h
      rw [show fuel + (d + 1) + 1 = (fuel + d + 1) + 1 from rfl, run, hb,
        step_root_list _ _ dl hd]
      simp only
      rw [← List.replicate_succ]
      exact h
  · rw [show fuel + d + 1 = (fuel + d) + 1 from rfl, run,
      step_depth_exceeded _ _ _ _ _ _ (by simp) (by simp; omega)]
    rfl

/-- C6: for every depth limit and every `n >= 1`, decoding the chain of `n`
nested lists succeeds if and only if `n <= depth_limit`, and it returns -1
otherwise; in particular the chain of `depth_limit + 1` nested lists fails,
and so does the unclosed input of `depth_limit + 1` times `l`. -/
theorem nested_lists_depth_limit (depth_limit : Int) (n : Nat) (h0 : 0 ≤ depth_limit)
    (hn : 1 ≤ n) (fuel : Nat) :
    ((∃ e, lazy_bdecode (fuel + 2 * n + 1) (chain n) depth_limit = .returned 0 e)
        ↔ (n : Int) ≤ depth_limit) ∧
    (depth_limit < (n : Int) →
      lazy_bdecode (fuel + 2 * n + 1) (chain n) depth_limit = .returned (-1) .none_e) ∧
    lazy_bdecode (fuel + 2 * (depth_limit.toNat + 1) + 1) (chain (depth_limit.toNat + 1))
      depth_limit = .returned (-1) .none_e ∧
    lazy_bdecode (fuel + depth_limit.toNat + 1) (List.replicate (depth_limit.toNat + 1) 108)
      depth_limit = .returned (-1) .none_e := by
  obtain ⟨m, rfl⟩ : ∃ m, n = m + 1 := ⟨n - 1, by omega⟩
  have h := chain_run depth_limit m fuel
  refine ⟨⟨?_, ?_⟩, h.2, ?_, unclosed_chain_fails depth_limit depth_limit.toNat fuel⟩
  · rintro ⟨e, he⟩
    by_contra hlt
    rw [h.2 (by omega)] at he
    simp at he
  · intro hle
    obtain ⟨e, he, -⟩ := h.1 hle
    exact ⟨e, he⟩
  · exact (chain_run depth_limit depth_limit.toNat fuel).2 (by push_cast; omega)

/-- Witness of C6: with depth limit 2, two nested lists decode and three
nested lists, closed or not, fail. -/
theorem nested_lists_depth_limit_witness :
    (0 : Int) ≤ 2 ∧ 1 ≤ 2 ∧
    ((∃ e, lazy_bdecode (0 + 2 * 2 + 1) (chain 2) 2 = .returned 0 e) ↔ ((2 : Nat) : Int) ≤ 2) ∧
    lazy_bdecode 7 (bytes "llleee") 2 = .returned (-1) .none_e ∧
    lazy_bdecode 3 (bytes "lll") 2 = .returned (-1) .none_e :=
  ⟨by decide, by decide, (nested_lists_depth_limit 2 2 (by decide) (by decide) 0).1,
    (nested_lists_depth_limit 2 2 (by decide) (by decide) 0).2.2.1,
    (nested_lists_depth_limit 2 2 (by decide) (by decide) 0).2.2.2⟩

/-! ## The depth limit bounds the nesting -/


theorem nest_ok_iff (dl : Int) (l : Nat) (e : lazy_entry) :
    nest_ok dl l e ↔ (is_container e → (l : Int) ≤ dl) ∧ kids_ok dl l e := by
  cases e <;> simp [nest_ok, kids_ok, is_container]

theorem nest_ok_list_append (dl : Int) (l : Nat) (x : lazy_entry) :
    ∀ xs : List lazy_entry,
      nest_ok_list dl l (xs ++ [x]) ↔ nest_ok_list dl l xs ∧ nest_ok dl l x
  | [] => by simp [nest_ok_list]
  | y :: ys => by simp [nest_ok_list, nest_ok_list_append dl l x ys, and_assoc]

theorem nest_ok_pairs_append (dl : Int) (l : Nat) (k : Int) (x : lazy_entry) :
    ∀ xs : List (Int × lazy_entry),
      nest_ok_pairs dl l (xs ++ [(k, x)]) ↔ nest_ok_pairs dl l xs ∧ nest_ok dl l x
  | [] => by simp [nest_ok_pairs]
  | (_, y) :: ys => by simp [nest_ok_pairs, nest_ok_pairs_append dl l k x ys, and_assoc]

theorem nest_ok_list_dropLast (dl : Int) (l : Nat) :
    ∀ xs : List lazy_entry, nest_ok_list dl l xs → nest_ok_list dl l xs.dropLast
  | [], _ => by simp [nest_ok_list]
  | [_], _ => by simp [nest_ok_list]
  | x :: y :: ys, h => by
    simp only [List.dropLast_cons₂, nest_ok_list] at h ⊢
    exact ⟨h.1, nest_ok_list_dropLast dl l (y :: ys) h.2⟩

theorem nest_ok_pairs_dropLast (dl : Int) (l : Nat) :
    ∀ xs : List (Int × lazy_entry), nest_ok_pairs dl l xs → nest_ok_pairs dl l xs.dropLast
  | [], _ => by simp [nest_ok_pairs]
  | [_], _ => by simp [nest_ok_pairs]
  | (_, x) :: y :: ys, h => by
    simp only [List.dropLast_cons₂, nest_ok_pairs] at h ⊢
    exact ⟨h.1, nest_ok_pairs_dropLast dl l (y :: ys) h.2⟩

theorem kids_ok_set_last (dl : Int) (l : Nat) (parent child : lazy_entry)
    (hp : kids_ok dl l parent) (hc : nest_ok dl (l + 1) child) :
    kids_ok dl l (set_last parent child) := by
  cases parent with
  | list_e b en c items =>
    simp only [set_last, kids_ok] at hp ⊢
    exact (nest_ok_list_append dl _ child _).mpr ⟨nest_ok_list_dropLast dl _ _ hp, hc⟩
  | dict_e b en c items =>
    cases hgl : items.getLast? with
    | none => simpa [set_last, hgl, kids_ok] using hp
    | some p =>
      obtain ⟨name, v⟩ := p
      simp only [set_last, hgl, kids_ok] at hp ⊢
      exact (nest_ok_pairs_append dl _ _ child _).mpr ⟨nest_ok_pairs_dropLast dl _ _ hp, hc⟩
  | _ => simp [set_last, kids_ok]

theorem is_container_set_last (parent child : lazy_entry) :
    is_container (set_last parent child) ↔ is_container parent := by
  cases parent with
  | dict_e b en c items =>
    cases hgl : items.getLast? with
    | none => simp [set_last, hgl, is_container]
    | some p => simp [set_last, hgl, is_container]
  | _ => simp [set_last, is_container]

theorem kids_ok_set_end (dl : Int) (l : Nat) (e : lazy_entry) (x : Int) :
    kids_ok dl l (set_end e x) ↔ kids_ok dl l e := by
  cases e <;> simp [set_end, kids_ok]

theorem kids_ok_list_append (dl : Int) (l : Nat) (e e1 : lazy_entry)
    (h : list_append e = some e1) (hk : kids_ok dl l e) : kids_ok dl l e1 := by
  cases e with
  | list_e b en c items =>
    simp only [list_append] at h
    split at h
    · simp only [Option.some.injEq] at h
      subst h
      simp only [kids_ok] at hk ⊢
      exact (nest_ok_list_append dl _ _ _).mpr ⟨hk, by simp [nest_ok]⟩
    · simp at h
  | _ => simp [list_append] at h

theorem kids_ok_dict_append (dl : Int) (l : Nat) (e e1 : lazy_entry) (name : Int)
    (h : dict_append e name = some e1) (hk : kids_ok dl l e) : kids_ok dl l e1 := by
  cases e with
  | dict_e b en c items =>
    simp only [dict_append] at h
    split at h
    · simp only [Option.some.injEq] at h
      subst h
      simp only [kids_ok] at hk ⊢
      exact (nest_ok_pairs_append dl _ _ _ _).mpr ⟨hk, by simp [nest_ok]⟩
    · simp at h
  | _ => simp [dict_append] at h

theorem reset_root_length : ∀ s : List lazy_entry, (reset_root s).length = s.length
  | [] => rfl
  | e :: rest => by simp [reset_root]

theorem reset_root_cons (e x : lazy_entry) (rest : List lazy_entry) :
    reset_root (e :: x :: rest) = e :: reset_root (x :: rest) := by
  simp [reset_root]

theorem stack_kids_reset_root (dl : Int) :
    ∀ s : List lazy_entry, stack_kids dl s → stack_kids dl (reset_root s)
  | [], _ => by simp [reset_root, stack_kids]
  | [_], _ => by simp [reset_root, stack_kids, kids_ok]
  | e :: x :: rest, h => by
    rw [reset_root_cons]
    simp only [stack_kids] at h ⊢
    have hl := reset_root_length (x :: rest)
    simp only [List.length_cons] at hl
    rw [hl]
    exact ⟨h.1, stack_kids_reset_root dl (x :: rest) h.2⟩

theorem reset_if_length (c : Bool) (s : List lazy_entry) : (reset_if c s).length = s.length := by
  unfold reset_if
  split
  · exact reset_root_length s
  · rfl

theorem stack_kids_reset_if (dl : Int) (c : Bool) (s : List lazy_entry)
    (h : stack_kids dl s) : stack_kids dl (reset_if c s) := by
  unfold reset_if
  split
  · exact stack_kids_reset_root dl s h
  · exact h

/-- After `pop_back` of a finished entry the invariant holds. -/
theorem pop_inv (buf : List Int) (dl start : Int) (child : lazy_entry) (rest : List lazy_entry)
    (ret : lazy_entry) (hk : stack_kids dl rest) (hc : nest_ok dl (rest.length + 1) child)
    (hr : nest_ok dl 1 ret) (hl : 1 ≤ rest.length → (rest.length : Int) ≤ dl) :
    depth_inv buf dl ⟨start, (pop (child :: rest) ret).1, (pop (child :: rest) ret).2⟩ := by
  cases rest with
  | nil =>
    simp only [pop, depth_inv, stack_kids, List.length_nil]
    refine ⟨trivial, by omega, by simp, by simpa using hc⟩
  | cons parent rest' =>
    simp only [pop, depth_inv, stack_kids, List.length_cons] at hk hc hl ⊢
    refine ⟨⟨kids_ok_set_last dl _ parent child hk.1 hc, hk.2⟩, ?_, ?_, hr⟩
    · intro h; have := hl (by omega); push_cast at this ⊢; omega
    · intro top rest'' _ _
      left
      have := hl (by omega); push_cast at this ⊢; omega

theorem interpret_inv (buf : List Int) (dl t start : Int) (rest : List lazy_entry)
    (ret : lazy_entry) (st : State) (hk : stack_kids dl rest)
    (hl : 1 ≤ rest.length → (rest.length : Int) ≤ dl) (hr : nest_ok dl 1 ret)
    (hs : t = 100 ∨ t = 108 → start < buf.length)
    (h : interpret buf t start (.none_e :: rest) ret = .next st) :
    depth_inv buf dl st := by
  unfold interpret at h
  simp only at h
  split at h
  · rename_i ht
    simp only [Step.next.injEq] at h
    subst h
    refine ⟨⟨by simp [construct_dict, kids_ok, nest_ok_pairs], hk⟩, ?_, ?_, hr⟩
    · intro h2
      simp only [List.length_cons] at h2 ⊢
      have := hl (by omega); push_cast; omega
    · intro _ _ _ _
      right; exact hs (Or.inl ht)
  · split at h
    · rename_i ht
      simp only [Step.next.injEq] at h
      subst h
      refine ⟨⟨by simp [construct_list, kids_ok, nest_ok_list], hk⟩, ?_, ?_, hr⟩
      · intro h2
        simp only [List.length_cons] at h2 ⊢
        have := hl (by omega); push_cast; omega
      · intro _ _ _ _
        right; exact hs (Or.inr ht)
    · split at h
      · split at h
        · simp at h
        · split at h
          · simp [fail_bdecode] at h
          · simp only [Step.next.injEq] at h
            subst h
            exact pop_inv buf dl _ _ rest ret hk (by simp [construct_int, nest_ok]) hr hl
      · split at h
        · simp [fail_bdecode] at h
        · split at h
          · simp at h
          · simp [fail_bdecode] at h
          · split at h
            · simp [fail_bdecode] at h
            · split at h
              · simp at h
              · split at h
                · simp [fail_bdecode] at h
                · simp only [Step.next.injEq] at h
                  subst h
                  exact pop_inv buf dl _ _ rest ret hk (by simp [construct_string, nest_ok]) hr hl


theorem dict_value_inv (buf : List Int) (dl name len : Int) (stack : List lazy_entry)
    (t1 start1 : Int) (stack1 : List lazy_entry) (hk : stack_kids dl stack)
    (h : dict_value buf name len stack = .value t1 start1 stack1) :
    ∃ stack2, stack1 = .none_e :: stack2 ∧ stack2.length = stack.length ∧
      stack_kids dl stack2 ∧ start1 = name + len + 1 := by
  unfold dict_value at h
  have hlen := reset_if_length (decide (name = buf.length)) stack
  have hk1 := stack_kids_reset_if dl (decide (name = buf.length)) stack hk
  split at h
  · simp at h
  · rename_i top rest heq
    rw [heq] at hlen hk1
    split at h
    · simp at h
    · rename_i top1 hda
      split at h
      · simp at h
      · simp only [KeyStep.value.injEq] at h
        obtain ⟨-, rfl, rfl⟩ := h
        refine ⟨_, rfl, ?_, ?_, rfl⟩
        · rw [reset_if_length]
          simpa using hlen
        · apply stack_kids_reset_if
          simp only [stack_kids] at hk1 ⊢
          exact ⟨kids_ok_dict_append dl _ top top1 name hda hk1.1, hk1.2⟩

theorem dict_key_inv (buf : List Int) (dl t start : Int) (stack : List lazy_entry)
    (t1 start1 : Int) (stack1 : List lazy_entry) (hk : stack_kids dl stack)
    (h : dict_key buf t start stack = .value t1 start1 stack1) :
    ∃ stack2, stack1 = .none_e :: stack2 ∧ stack2.length = stack.length ∧
      stack_kids dl stack2 ∧ start1 < buf.length := by
  unfold dict_key at h
  split at h
  · simp at h
  · simp at h
  · split at h
    · simp at h
    · rename_i hlen
      split at h
      · simp at h
      · split at h
        · simp at h
        · obtain ⟨stack2, h1, h2, h3, h4⟩ := dict_value_inv buf dl _ _ stack t1 start1 stack1 hk h
          exact ⟨stack2, h1, h2, h3, by omega⟩


theorem close_container_inv (buf : List Int) (dl start : Int) (top : lazy_entry)
    (rest : List lazy_entry) (ret : lazy_entry) (st : State)
    (hk : stack_kids dl (top :: rest)) (hd : ((top :: rest).length : Int) ≤ dl)
    (hr : nest_ok dl 1 ret) (h : close_container start top rest ret = .next st) :
    depth_inv buf dl st := by
  simp only [close_container, Step.next.injEq] at h
  subst h
  simp only [stack_kids, List.length_cons] at hk hd
  push_cast at hd
  refine pop_inv buf dl _ _ rest ret hk.2 ?_ hr (by intro _; omega)
  rw [nest_ok_iff]
  exact ⟨fun _ => by push_cast; omega, (kids_ok_set_end dl _ top start).mpr hk.1⟩

theorem body_inv (buf : List Int) (dl t start : Int) (top : lazy_entry)
    (rest : List lazy_entry) (ret : lazy_entry) (st : State)
    (hk : stack_kids dl (top :: rest)) (hd : ((top :: rest).length : Int) ≤ dl)
    (hr : nest_ok dl 1 ret) (hs : t ≠ 101 → start < buf.length)
    (h : body buf t start top rest ret = .next st) :
    depth_inv buf dl st := by
  have hd' := hd
  simp only [List.length_cons] at hd'
  push_cast at hd'
  cases top with
  | dict_e b en c items =>
    simp only [body] at h
    split at h
    · exact close_container_inv buf dl start _ rest ret st hk hd hr h
    · split at h
      · simp at h
      · rename_i t1 start1 stack1 hkey
        obtain ⟨stack2, rfl, h2, h3, h4⟩ := dict_key_inv buf dl _ _ _ t1 start1 stack1 hk hkey
        refine interpret_inv buf dl t1 start1 stack2 ret st h3 ?_ hr (fun _ => h4) h
        intro _
        rw [h2]
        exact hd
  | list_e b en c items =>
    simp only [body] at h
    split at h
    · exact close_container_inv buf dl start _ rest ret st hk hd hr h
    · rename_i hne
      split at h
      · simp at h
      · rename_i top1 hla
        refine interpret_inv buf dl t start (top1 :: rest) ret st ?_ ?_ hr
          (fun ht => hs (by omega)) h
        · simp only [stack_kids] at hk ⊢
          exact ⟨kids_ok_list_append dl _ _ top1 hla hk.1, hk.2⟩
        · intro _
          simp only [List.length_cons]
          push_cast
          exact hd'
  | none_e =>
    simp only [body] at h
    simp only [stack_kids] at hk
    exact interpret_inv buf dl t start rest ret st hk.2 (by intro _; omega) hr
      (fun ht => hs (by omega)) h
  | int_e _ _ _ _ => simp [body, interpret] at h
  | string_e _ _ _ _ => simp [body, interpret] at h

theorem step_inv (buf : List Int) (dl : Int) (st st1 : State) (hi : depth_inv buf dl st)
    (h : step buf dl st = .next st1) : depth_inv buf dl st1 := by
  obtain ⟨hk, -, -, hr⟩ := hi
  unfold step at h
  split at h
  · simp at h
  · split at h
    · simp at h
    · rename_i top rest heq
      rw [heq] at hk
      split at h
      · simp [fail_bdecode] at h
      · rename_i hd
        split at h
        · simp at h
        · rename_i t hp
          split at h
          · simp [fail_bdecode] at h
          · rename_i he
            exact body_inv buf dl t _ top rest st.ret st1 hk (by omega) hr
              (fun ht => by
                by_contra hcon
                exact he ⟨by omega, ht⟩) h

theorem collapse_ok (dl : Int) (r : lazy_entry) : ∀ (rest : List lazy_entry) (top : lazy_entry),
    stack_kids dl (top :: rest) → (1 ≤ rest.length → (rest.length : Int) ≤ dl) →
    (is_container top → ((rest.length : Int) + 1 ≤ dl)) →
    nest_ok dl 1 (collapse (top :: rest) r)
  | [], top, hk, _, ht => by
    simp only [collapse, List.foldl_nil]
    rw [nest_ok_iff]
    simp only [stack_kids, List.length_nil] at hk
    exact ⟨fun hc => by simpa using ht hc, hk.1⟩
  | parent :: rest, top, hk, hl, ht => by
    have : collapse (top :: parent :: rest) r = collapse (set_last parent top :: rest) r := by
      simp [collapse]
    rw [this]
    have hl' : (rest.length : Int) + 1 ≤ dl := by
      have := hl (by simp)
      simpa using this
    simp only [stack_kids, List.length_cons] at hk ht
    push_cast at ht
    apply collapse_ok dl r rest (set_last parent top)
    · simp only [stack_kids]
      refine ⟨kids_ok_set_last dl _ parent top hk.2.1 ?_, hk.2.2⟩
      rw [nest_ok_iff]
      exact ⟨fun hc => by have := ht hc; push_cast; omega, hk.1⟩
    · intro _; omega
    · intro _; omega

theorem step_done_ok (buf : List Int) (dl : Int) (st : State) (e : lazy_entry)
    (hi : depth_inv buf dl st) (h : step buf dl st = .done (.returned 0 e)) :
    nest_ok dl 1 e := by
  obtain ⟨hk, hl, ht, hr⟩ := hi
  unfold step at h
  split at h
  · rename_i hs
    simp only [Step.done.injEq, Outcome.returned.injEq, true_and] at h
    subst h
    cases hst : st.stack with
    | nil => simpa [collapse] using hr
    | cons top rest =>
      rw [hst] at hk hl
      simp only [List.length_cons] at hl
      push_cast at hl
      refine collapse_ok dl st.ret rest top hk (fun h1 => by have := hl (by omega); omega) ?_
      intro hc
      rcases ht top rest hst hc with h1 | h1
      · rw [hst] at h1; simp only [List.length_cons] at h1; push_cast at h1; exact h1
      · exact absurd h1 hs
  · split at h
    · simp only [Step.done.injEq, Outcome.returned.injEq, true_and] at h
      subst h; exact hr
    · split at h
      · simp [fail_bdecode] at h
      · split at h
        · simp at h
        · split at h
          · simp [fail_bdecode] at h
          · have := body_returned h
            omega

theorem run_ok (buf : List Int) (dl : Int) : ∀ (fuel : Nat) (st : State) (e : lazy_entry),
    depth_inv buf dl st → run buf dl fuel st = .returned 0 e → nest_ok dl 1 e
  | 0, _, _, _, h => by simp [run] at h
  | fuel + 1, st, e, hi, h => by
    simp only [run] at h
    split at h
    · rename_i o ho
      subst h
      exact step_done_ok buf dl st e hi ho
    · rename_i st1 hst
      exact run_ok buf dl fuel st1 e (step_inv buf dl st st1 hi hst) h

theorem depth_inv_init (buf : List Int) (dl : Int) :
    depth_inv buf dl ⟨0, [.none_e], .none_e⟩ := by
  simp [depth_inv, stack_kids, kids_ok, is_container, nest_ok]


theorem state_at_inv (buf : List Int) (dl : Int) : ∀ (n : Nat) (st st1 : State),
    depth_inv buf dl st → state_at buf dl n st = some st1 → depth_inv buf dl st1
  | 0, st, st1, hi, h => by
    simp only [state_at, Option.some.injEq] at h
    subst h; exact hi
  | n + 1, st, st1, hi, h => by
    simp only [state_at] at h
    split at h
    · simp at h
    · rename_i st2 hst
      exact state_at_inv buf dl n st2 st1 (step_inv buf dl st st2 hi hst) h

theorem head_token_read_le (buf : List Int) (dl : Int) (st : State) (r : Int × Nat)
    (h : head_token_read buf dl st = some r) : (r.2 : Int) ≤ dl := by
  unfold head_token_read at h
  split at h
  · simp at h
  · split at h
    · simp at h
    · split at h
      · simp at h
      · rename_i hd
        split at h
        · simp at h
        · simp only [Option.some.injEq] at h
          subst h
          simp only at hd ⊢
          omega

theorem value_token_read_le (buf : List Int) (dl : Int) (st : State) (r : Int × Nat)
    (hi : depth_inv buf dl st) (h : value_token_read buf dl st = some r) :
    (r.2 : Int) ≤ dl + 1 := by
  obtain ⟨hk, -, -, -⟩ := hi
  unfold value_token_read at h
  split at h
  · simp at h
  · split at h
    · simp at h
    · rename_i top rest heq
      rw [heq] at hk
      split at h
      · simp at h
      · rename_i hd
        split at h
        · simp at h
        · split at h
          · simp at h
          · split at h
            · split at h
              · simp at h
              · split at h
                · simp at h
                · rename_i t1 start1 stack1 hkey
                  obtain ⟨stack2, rfl, h2, -, -⟩ :=
                    dict_key_inv buf dl _ _ _ t1 start1 stack1 hk hkey
                  simp only [Option.some.injEq] at h
                  subst h
                  simp only [List.length_cons] at h2 hd ⊢
                  push_cast at hd ⊢
                  omega
            · simp at h

/-- C5 (amended): when `lazy_bdecode` returns 0, no list or dictionary of the
result is nested more than `depth_limit` containers deep (the root counts as
depth 1); every token byte read at the head of the loop body is read with at
most `depth_limit` entries on the stack, and the token of a dictionary value,
read after its pending entry was pushed, with at most `depth_limit + 1`. -/
theorem depth_limit_bounds_nesting (fuel : Nat) (buf : List Int) (depth_limit : Int)
    (ret : lazy_entry) (h : lazy_bdecode fuel buf depth_limit = .returned 0 ret) :
    nest_ok depth_limit 1 ret ∧
    ∀ n st, state_at buf depth_limit n ⟨0, [.none_e], .none_e⟩ = some st →
      (∀ r, head_token_read buf depth_limit st = some r → (r.2 : Int) ≤ depth_limit) ∧
      (∀ r, value_token_read buf depth_limit st = some r → (r.2 : Int) ≤ depth_limit + 1) := by
  constructor
  · unfold lazy_bdecode at h
    split at h
    · simp only [Outcome.returned.injEq, true_and] at h
      subst h
      simp [nest_ok]
    · exact run_ok buf depth_limit fuel _ ret (depth_inv_init buf depth_limit) h
  · intro n st hst
    have hi := state_at_inv buf depth_limit n _ st (depth_inv_init buf depth_limit) hst
    exact ⟨fun r hr => head_token_read_le buf depth_limit st r hr,
      fun r hr => value_token_read_le buf depth_limit st r hi hr⟩

/-- Witness of C5 on `d1:ai1ee` with depth limit 1. -/
theorem depth_limit_bounds_nesting_witness :
    lazy_bdecode 10 (bytes "d1:ai1ee") 1
        = .returned 0 (.dict_e 0 (some 8) 5 [(3, .int_e 5 1 4 7)]) ∧
    nest_ok 1 1 (.dict_e 0 (some 8) 5 [(3, .int_e 5 1 4 7)]) :=
  ⟨rfl, (depth_limit_bounds_nesting 10 (bytes "d1:ai1ee") 1
    (.dict_e 0 (some 8) 5 [(3, .int_e 5 1 4 7)]) rfl).1⟩

/-- Counterexample to C5 as stated: `d1:ai1ee` decodes with depth limit 1,
and in the second iteration the token `i` of the value, at offset 4, is read
with 2 entries on the stack. -/
theorem value_token_read_above_depth_limit :
    lazy_bdecode 10 (bytes "d1:ai1ee") 1
        = .returned 0 (.dict_e 0 (some 8) 5 [(3, .int_e 5 1 4 7)]) ∧
    state_at (bytes "d1:ai1ee") 1 1 ⟨0, [.none_e], .none_e⟩
        = some ⟨1, [.dict_e 0 none 0 []], .none_e⟩ ∧
    token_reads (bytes "d1:ai1ee") 1 ⟨1, [.dict_e 0 none 0 []], .none_e⟩ = [(1, 1), (4, 2)] ∧
    ¬ (((2 : Nat) : Int) ≤ 1) :=
  ⟨rfl, rfl, rfl, by decide⟩

/-! ## Decimal texts -/


theorem int64_congr (a b : Int) (h : a % 18446744073709551616 = b % 18446744073709551616) :
    int64 a = int64 b := by
  unfold int64; omega

theorem int64_step (v d : Int) :
    int64 (int64 (int64 v * 10) + (d - 48)) = int64 (v * 10 + (d - 48)) := by
  unfold int64; omega

theorem int64_neg (v : Int) : int64 (-(int64 v)) = int64 (-v) := by
  unfold int64; omega

theorem accumulate_int64 : ∀ (ds : List Int) (v : Int),
    accumulate (int64 v) ds = int64 (digits_value v ds)
  | [], v => by simp [accumulate, digits_value]
  | d :: ds, v => by
    have ih := accumulate_int64 ds (v * 10 + (d - 48))
    simp only [accumulate, digits_value, List.foldl_cons] at ih ⊢
    rw [int64_step]
    exact ih

theorem digits_value_append (v : Int) (xs : List Int) (d : Int) :
    digits_value v (xs ++ [d]) = digits_value v xs * 10 + (d - 48) := by
  simp [digits_value, List.foldl_append]

theorem nat_digits_aux_spec : ∀ (f n : Nat), n ≤ f →
    (∀ d ∈ nat_digits_aux f n, isdigit d = true) ∧ nat_digits_aux f n ≠ [] ∧
    digits_value 0 (nat_digits_aux f n) = n
  | 0, n, h => by
    have : n = 0 := by omega
    subst this
    simp [nat_digits_aux, isdigit, digits_value]
  | f + 1, n, h => by
    unfold nat_digits_aux
    split
    · rename_i hlt
      refine ⟨?_, by simp, by simp [digits_value]⟩
      intro d hd
      simp only [List.mem_singleton] at hd
      subst hd
      rw [isdigit_iff]; omega
    · rename_i hge
      obtain ⟨h1, h2, h3⟩ := nat_digits_aux_spec f (n / 10) (by omega)
      refine ⟨?_, by simp, ?_⟩
      · intro d hd
        rcases List.mem_append.mp hd with hd | hd
        · exact h1 d hd
        · simp only [List.mem_singleton] at hd
          subst hd
          rw [isdigit_iff]; omega
      · rw [digits_value_append, h3]
        push_cast
        omega

theorem nat_digits_spec (n : Nat) :
    (∀ d ∈ nat_digits n, isdigit d = true) ∧ nat_digits n ≠ [] ∧
    digits_value 0 (nat_digits n) = n :=
  nat_digits_aux_spec n n (Nat.le_refl n)

theorem num_digits_loop_spec : ∀ (f n k : Nat) (ret : Int), n ≤ f → n < 10 ^ k →
    num_digits_loop k (n : Int) ret = ret + ((nat_digits_aux f n).length - 1 : Nat)
  | 0, n, k, ret, h, _ => by
    have : n = 0 := by omega
    subst this
    cases k <;> simp [num_digits_loop, nat_digits_aux]
  | f + 1, n, k, ret, h, hk => by
    unfold nat_digits_aux
    split
    · rename_i hlt
      cases k with
      | zero => simp [num_digits_loop]
      | succ k =>
        simp only [num_digits_loop]
        rw [if_neg (by omega)]
        simp
    · rename_i hge
      cases k with
      | zero => simp at hk; omega
      | succ k =>
        simp only [num_digits_loop]
        rw [if_pos (by omega)]
        have hdiv : ((n : Int) / 10) = ((n / 10 : Nat) : Int) := by simp
        rw [hdiv, num_digits_loop_spec f (n / 10) k (ret + 1) (by omega)
          (by rw [Nat.div_lt_iff_lt_mul (by decide)]; rw [pow_succ] at hk; exact hk)]
        have hne := (nat_digits_aux_spec f (n / 10) (by omega)).2.1
        have hpos : 0 < (nat_digits_aux f (n / 10)).length := List.length_pos.mpr hne
        simp only [List.length_append, List.length_singleton]
        push_cast
        omega

theorem num_digits_nat_digits (n : Nat) (h : n < 2147483648) :
    num_digits (n : Int) = ((nat_digits n).length : Int) := by
  unfold num_digits nat_digits
  rw [num_digits_loop_spec n n 10 1 (Nat.le_refl n) (by omega)]
  have hne := (nat_digits_aux_spec n n (Nat.le_refl n)).2.1
  have hpos : 0 < (nat_digits_aux n n).length := List.length_pos.mpr hne
  omega

/-! ## Round trip: the decoder on a canonical encoding -/


theorem run_succ (buf : List Int) (dl : Int) (fuel : Nat) (st : State) :
    run buf dl (fuel + 1) st = continue_with buf dl fuel (step buf dl st) := by
  simp only [run, continue_with]

theorem find_char_loop_skip (delim : Int) : ∀ (xs pre post : List Int) (n : Nat),
    (∀ x ∈ xs, x ≠ delim) → xs.length < n →
    find_char_loop (pre ++ (xs ++ delim :: post)) delim n (pre.length : Int)
      = some ((pre.length : Int) + xs.length)
  | [], pre, post, n, _, hn => by
    cases n with
    | zero => simp at hn
    | succ n => simp [find_char_loop, peek_append_cons]
  | x :: xs, pre, post, n, hx, hn => by
    cases n with
    | zero => simp at hn
    | succ n =>
      have hne : x ≠ delim := hx x (List.mem_cons_self _ _)
      have ih := find_char_loop_skip delim xs (pre ++ [x]) post n
        (fun y hy => hx y (List.mem_cons_of_mem _ hy)) (by simpa using hn)
      simp only [List.append_assoc, List.singleton_append, List.length_append,
        List.length_singleton, Nat.cast_add, Nat.cast_one] at ih
      simp only [find_char_loop, List.cons_append, peek_append_cons, hne, if_false, ih,
        List.length_cons, Nat.cast_add, Nat.cast_one]
      congr 1
      omega

theorem int_text_no_e (n : Int) : ∀ x ∈ int_text n, x ≠ 101 := by
  intro x hx
  unfold int_text at hx
  rcases List.mem_append.mp hx with h | h
  · split at h
    · simp only [List.mem_singleton] at h; omega
    · simp at h
  · have := isdigit_iff.mp ((nat_digits_spec n.natAbs).1 x h)
    omega

theorem cap_after_spec : ∀ n : Nat,
    n ≤ cap_after n ∧ (cap_after n = 0 ∨ 5 ≤ cap_after n)
  | 0 => by simp [cap_after]
  | n + 1 => by
    obtain ⟨h1, h2⟩ := cap_after_spec n
    simp only [cap_after, grow]
    split
    · omega
    · split
      · have := @grow_capacity_gt (cap_after n) (by omega)
        omega
      · omega

theorem grow_spec (n : Nat) : n ≤ cap_after n ∧ n < grow n (cap_after n) := by
  have h := cap_after_spec (n + 1)
  have h0 := cap_after_spec n
  simp only [cap_after] at h
  exact ⟨h0.1, by omega⟩

/-! ## parse_int -/


/-- `parse_int` over a run of digits none of which is the delimiter. -/
theorem parse_int_loop_run (delim : Int) :
    ∀ (ds pre post : List Int) (n : Nat) (v : Int),
      (∀ d ∈ ds, isdigit d = true ∧ d ≠ delim) → ds.length ≤ n →
      (ds.length < n → post.head? = some delim) →
      parse_int_loop (pre ++ (ds ++ post)) delim n (pre.length : Int) v
        = some (some ((pre.length : Int) + ds.length), accumulate v ds)
  | [], pre, post, n, v, _, _, hpost => by
    cases n with
    | zero => simp [parse_int_loop, accumulate]
    | succ n =>
      have hp := hpost (by simp)
      simp [parse_int_loop, accumulate, peek_append, hp]
  | d :: ds, pre, post, n, v, hd, hn, hpost => by
    cases n with
    | zero => simp at hn
    | succ n =>
      obtain ⟨h1, hne⟩ := hd d (List.mem_cons_self _ _)
      have ih := parse_int_loop_run delim ds (pre ++ [d]) post n
        (int64 (int64 (v * 10) + (d - 48)))
        (fun x hx => hd x (List.mem_cons_of_mem _ hx))
        (by simpa using hn) (fun h => hpost (by simpa using h))
      simp only [List.append_assoc, List.singleton_append, List.length_append,
        List.length_singleton, Nat.cast_add, Nat.cast_one] at ih
      simp only [parse_int_loop, List.cons_append, peek_append_cons, hne, if_false, h1,
        Bool.true_eq_false, ih, accumulate, List.foldl_cons, List.length_cons, Nat.cast_add,
        Nat.cast_one]
      congr 3
      omega

/-- `parse_int` stops with the null pointer at a byte that is neither a digit
nor the delimiter. -/
theorem parse_int_loop_bad (delim : Int) :
    ∀ (ds pre post : List Int) (x : Int) (n : Nat) (v : Int),
      (∀ d ∈ ds, isdigit d = true ∧ d ≠ delim) → isdigit x = false → x ≠ delim →
      ds.length < n →
      parse_int_loop (pre ++ (ds ++ x :: post)) delim n (pre.length : Int) v
        = some (none, accumulate v ds)
  | [], pre, post, x, n, v, _, hx, hxd, hn => by
    cases n with
    | zero => simp at hn
    | succ n => simp [parse_int_loop, accumulate, peek_append_cons, hx, hxd]
  | d :: ds, pre, post, x, n, v, hd, hx, hxd, hn => by
    cases n with
    | zero => simp at hn
    | succ n =>
      obtain ⟨h1, hne⟩ := hd d (List.mem_cons_self _ _)
      have ih := parse_int_loop_bad delim ds (pre ++ [d]) post x n
        (int64 (int64 (v * 10) + (d - 48)))
        (fun y hy => hd y (List.mem_cons_of_mem _ hy)) hx hxd (by simpa using hn)
      simp only [List.append_assoc, List.singleton_append, List.length_append,
        List.length_singleton, Nat.cast_add, Nat.cast_one] at ih
      simp only [parse_int_loop, List.cons_append, peek_append_cons, hne, if_false, h1,
        Bool.true_eq_false, ih, accumulate, List.foldl_cons]

theorem digits_value_shift : ∀ (ds : List Int) (v : Int),
    digits_value v ds = v * 10 ^ ds.length + digits_value 0 ds
  | [], v => by simp [digits_value]
  | d :: ds, v => by
    have h1 := digits_value_shift ds (v * 10 + (d - 48))
    have h2 := digits_value_shift ds (0 * 10 + (d - 48))
    simp only [digits_value, List.foldl_cons, List.length_cons] at h1 h2 ⊢
    rw [h1, h2, pow_succ]
    ring


/-- C16: on a range whose bytes before the first delimiter are the decimal
digits `ds`, `parse_int` returns the cursor at the delimiter and leaves
`val = val0 * 10^k + (value of ds)` reduced to 64 bits, without any overflow
check; when a byte `x` that is neither a digit nor the delimiter comes before
the first delimiter, it returns the null pointer. -/
theorem parse_int_accumulates (pre ds post : List Int) (delimiter val0 end_ : Int)
    (hds : ∀ d ∈ ds, isdigit d = true ∧ d ≠ delimiter) (hval : int64 val0 = val0)
    (hend : (pre.length : Int) + ds.length < end_) :
    parse_int (pre ++ (ds ++ delimiter :: post)) pre.length end_ delimiter val0
      = some (some ((pre.length : Int) + ds.length),
          int64 (val0 * 10 ^ ds.length + digits_value 0 ds)) ∧
    (0 ≤ val0 → val0 * 10 ^ ds.length + digits_value 0 ds < 9223372036854775808 →
      int64 (val0 * 10 ^ ds.length + digits_value 0 ds)
        = val0 * 10 ^ ds.length + digits_value 0 ds) ∧
    (∀ x, isdigit x = false → x ≠ delimiter →
      parse_int (pre ++ (ds ++ x :: post)) pre.length end_ delimiter val0
        = some (none, int64 (val0 * 10 ^ ds.length + digits_value 0 ds))) := by
  have hn : ds.length < (end_ - (pre.length : Int)).toNat := by omega
  have hacc : accumulate val0 ds = int64 (val0 * 10 ^ ds.length + digits_value 0 ds) := by
    rw [← digits_value_shift, ← accumulate_int64, hval]
  refine ⟨?_, ?_, ?_⟩
  · unfold parse_int
    rw [parse_int_loop_run delimiter ds pre (delimiter :: post) _ val0 hds (by omega)
      (fun _ => rfl), hacc]
  · intro h0 hlt
    have hd : ∀ d ∈ ds, isdigit d = true := fun d hd => (hds d hd).1
    have hm := digits_value_mono ds val0 hd h0
    rw [digits_value_shift] at hm
    exact int64_id (by omega) hlt
  · intro x hx hxd
    unfold parse_int
    rw [parse_int_loop_bad delimiter ds pre post x _ val0 hds hx hxd hn, hacc]

/-- Witness of C16 on `123:x` and on `12a:`. -/
theorem parse_int_accumulates_witness :
    (∀ d ∈ bytes "123", isdigit d = true ∧ d ≠ 58) ∧ int64 0 = 0 ∧
    ((([] : List Int).length : Int) + (bytes "123").length < 5) ∧
    parse_int (bytes "123:x") 0 5 58 0 = some (some 3, 123) ∧
    parse_int (bytes "123a:") 0 5 58 0 = some (none, 123) :=
  ⟨by decide, rfl, by decide,
    (parse_int_accumulates [] (bytes "123") (bytes "x") 58 0 5 (by decide) rfl (by decide)).1,
    (parse_int_accumulates [] (bytes "123") (bytes ":") 58 0 5 (by decide) rfl
      (by decide)).2.2 97 rfl (by decide)⟩

/-- C17: on the two bytes `12` with delimiter `:` the loop of `parse_int` ends
because `start` reaches `end`; the function returns the non-null cursor 2,
which is `end` itself: it is not inside `[0, 2)` and no delimiter is there. -/
theorem parse_int_returns_end :
    parse_int (bytes "12") 0 2 58 0 = some (some 2, 12) ∧
    ¬ ((2 : Int) < ((bytes "12").length : Int)) ∧
    peek (bytes "12") 2 = none :=
  ⟨rfl, by decide, rfl⟩

/-! ## The zero-digit integer and the data section of a string -/


/-- C18: the two bytes `ie` decode, under every depth limit of at least 1, to
an integer entry whose digit span is empty (`m_size = 0`), and `int_value()`
of that entry is 0. -/
theorem zero_digit_integer (depth_limit : Int) (h : 1 ≤ depth_limit) (fuel : Nat) :
    lazy_bdecode (fuel + 2) (bytes "ie") depth_limit = .returned 0 (.int_e 1 0 0 2) ∧
    (lazy_entry.int_e 1 0 0 2).type = .int_t ∧
    (lazy_entry.int_e 1 0 0 2).m_size = 0 ∧
    int_value (bytes "ie") (.int_e 1 0 0 2) = some 0 := by
  refine ⟨?_, rfl, rfl, rfl⟩
  have hb : bytes "ie" = [105, 101] := rfl
  rw [hb]
  unfold lazy_bdecode
  rw [if_neg (by simp)]
  have h1 : step [105, 101] depth_limit ⟨0, [.none_e], .none_e⟩
      = .next ⟨2, [], .int_e 1 0 0 2⟩ := by
    rw [step_eq_body [105, 101] depth_limit 0 105 .none_e [] .none_e (by decide)
      (by simpa using h) rfl (by decide)]
    rfl
  rw [show fuel + 2 = (fuel + 1) + 1 from rfl, run, h1]
  simp only
  rw [run_at_end _ _ _ _ (by decide)]
  rfl

/-- Witness of C18 with depth limit 1. -/
theorem zero_digit_integer_witness :
    (1 : Int) ≤ 1 ∧ lazy_bdecode 2 (bytes "ie") 1 = .returned 0 (.int_e 1 0 0 2) ∧
    int_value (bytes "ie") (.int_e 1 0 0 2) = some 0 :=
  ⟨by decide, (zero_digit_integer 1 (by decide) 0).1, (zero_digit_integer 1 (by decide) 0).2.2.2⟩

/-- C19: the four bytes `01:x` decode to a string entry with payload span
`[3, 4)`; its `data_section()` is offset 1, length 3, while the encoded form
starts at offset 0 with the two prefix bytes `01` and is 4 bytes long:
`construct_string` places `m_begin` by `num_digits(1) = 1`. -/
theorem data_section_misses_leading_zero :
    lazy_bdecode 10 (bytes "01:x") 1000 = .returned 0 (.string_e 3 1 1 4) ∧
    data_section (.string_e 3 1 1 4) = some (1, 3) ∧
    ((1 : Int) ≠ 0 ∧ (3 : Int) ≠ 2 + 1 + 1) :=
  ⟨rfl, rfl, by decide, by decide⟩

/-! ## The typed accessors -/


/-- C12: the typed accessors substitute defaults.  Whenever `dict_find(name)`
is defined with result `r` (`none`: not found), `dict_find_int_value` is
`int_value()` of the entry found when that entry is an integer and the
default otherwise; `dict_find_string`, `dict_find_dict` and `dict_find_list`
return the entry found exactly when it has the requested type and the null
pointer otherwise; `dict_find_string_value` returns the empty string when
the entry is absent or not a string; and `list_string_value_at` /
`list_int_value_at` return the empty string / the default when `list_at(i)`
finds no entry or one of another type. -/
theorem typed_accessors_default (buf : List Int) (e : lazy_entry) (name : List Int)
    (d : Int) (r : Option lazy_entry) (h : dict_find buf e name = some r) :
    (∀ v, r = some v → v.type = .int_t →
      dict_find_int_value buf e name d = int_value buf v) ∧
    ((r = none ∨ ∃ v, r = some v ∧ v.type ≠ .int_t) →
      dict_find_int_value buf e name d = some d) ∧
    (dict_find_string buf e name
      = some (r.bind (fun v => if v.type = .string_t then some v else none))) ∧
    (dict_find_dict buf e name
      = some (r.bind (fun v => if v.type = .dict_t then some v else none))) ∧
    (dict_find_list buf e name
      = some (r.bind (fun v => if v.type = .list_t then some v else none))) ∧
    (∀ v, r = some v → v.type = .string_t →
      dict_find_string_value buf e name = string_value buf v) ∧
    ((r = none ∨ ∃ v, r = some v ∧ v.type ≠ .string_t) →
      dict_find_string_value buf e name = some []) ∧
    (∀ (l : lazy_entry) (i : Int) (q : Option lazy_entry), list_at l i = some q →
      (∀ v, q = some v → v.type = .string_t →
        list_string_value_at buf l i = string_value buf v) ∧
      ((q = none ∨ ∃ v, q = some v ∧ v.type ≠ .string_t) →
        list_string_value_at buf l i = some []) ∧
      (∀ v, q = some v → v.type = .int_t →
        list_int_value_at buf l i d = int_value buf v) ∧
      ((q = none ∨ ∃ v, q = some v ∧ v.type ≠ .int_t) →
        list_int_value_at buf l i d = some d)) := by
  refine ⟨?_, ?_, ?_, ?_, ?_, ?_, ?_, ?_⟩
  · rintro v rfl hv
    simp [dict_find_int_value, h, hv]
  · rintro (rfl | ⟨v, rfl, hv⟩)
    · simp [dict_find_int_value, h]
    · simp [dict_find_int_value, h, hv]
  · cases r with
    | none => simp [dict_find_string, h]
    | some v => by_cases hv : v.type = .string_t <;> simp [dict_find_string, h, hv]
  · cases r with
    | none => simp [dict_find_dict, h]
    | some v => by_cases hv : v.type = .dict_t <;> simp [dict_find_dict, h, hv]
  · cases r with
    | none => simp [dict_find_list, h]
    | some v => by_cases hv : v.type = .list_t <;> simp [dict_find_list, h, hv]
  · rintro v rfl hv
    simp [dict_find_string_value, h, hv]
  · rintro (rfl | ⟨v, rfl, hv⟩)
    · simp [dict_find_string_value, h]
    · simp [dict_find_string_value, h, hv]
  · intro l i q hq
    refine ⟨?_, ?_, ?_, ?_⟩
    · rintro v rfl hv
      simp [list_string_value_at, hq, hv]
    · rintro (rfl | ⟨v, rfl, hv⟩)
      · simp [list_string_value_at, hq]
      · simp [list_string_value_at, hq, hv]
    · rintro v rfl hv
      simp [list_int_value_at, hq, hv]
    · rintro (rfl | ⟨v, rfl, hv⟩)
      · simp [list_int_value_at, hq]
      · simp [list_int_value_at, hq, hv]

/-- Witness of C12 on the dictionary of `d1:ai7e1:b2:xye`: `a` is an integer,
`b` a string, `c` is absent. -/
theorem typed_accessors_default_witness :
    dict_find (bytes "d1:ai7e1:b2:xye")
        (.dict_e 0 (some 15) 5 [(3, .int_e 5 1 4 7), (9, .string_e 12 2 10 14)]) (bytes "a")
      = some (some (.int_e 5 1 4 7)) ∧
    dict_find_int_value (bytes "d1:ai7e1:b2:xye")
        (.dict_e 0 (some 15) 5 [(3, .int_e 5 1 4 7), (9, .string_e 12 2 10 14)]) (bytes "a") 42
      = some 7 ∧
    dict_find_string (bytes "d1:ai7e1:b2:xye")
        (.dict_e 0 (some 15) 5 [(3, .int_e 5 1 4 7), (9, .string_e 12 2 10 14)]) (bytes "a")
      = some none :=
  ⟨rfl,
    (typed_accessors_default (bytes "d1:ai7e1:b2:xye")
      (.dict_e 0 (some 15) 5 [(3, .int_e 5 1 4 7), (9, .string_e 12 2 10 14)]) (bytes "a") 42
      (some (.int_e 5 1 4 7)) rfl).1 _ rfl rfl,
    (typed_accessors_default (bytes "d1:ai7e1:b2:xye")
      (.dict_e 0 (some 15) 5 [(3, .int_e 5 1 4 7), (9, .string_e 12 2 10 14)]) (bytes "a") 42
      (some (.int_e 5 1 4 7)) rfl).2.2.1⟩

/-! ## The growable store -/


/-- Frame property of one append on the array: the size grows by one, the
capacity is `grow`, the array has `m_capacity` elements and the elements below
the old size are unchanged. -/
theorem store_append_frame {α : Type} (dflt : α) (s s1 : store α)
    (hwf : s.slots.length = s.m_capacity ∨ s.m_capacity = 0)
    (h : store_append dflt s = some s1) :
    s1.m_size = s.m_size + 1 ∧ s1.m_capacity = grow s.m_size s.m_capacity ∧
    s1.slots.length = s1.m_capacity ∧ s.m_size ≤ s.m_capacity ∧ s1.m_size ≤ s1.m_capacity ∧
    (∀ i, i < s.m_size → s1.slots[i]? = s.slots[i]?) ∧
    (s.m_capacity ≠ 0 → s.m_size = s.m_capacity → s.m_capacity < s1.m_capacity) := by
  obtain ⟨slots, size, cap⟩ := s
  simp only at hwf
  unfold store_append at h
  simp only at h
  split at h
  · simp at h
  · rename_i hle
    simp only [not_not] at hle
    rw [if_neg (by intro hcon; rw [if_pos hcon] at h; simp at h)] at h
    by_cases hc0 : cap = 0
    · subst hc0
      simp only [if_true] at h
      split at h
      · simp at h
      · rename_i hlt
        simp only [Option.some.injEq] at h
        subst h
        refine ⟨rfl, by simp [grow], by simp, hle, by simp only; omega, ?_, ?_⟩
        · intro i hi; simp only at hi; omega
        · intro h0; exact absurd rfl h0
    · simp only [hc0, if_false] at h
      have hlen : slots.length = cap := by
        rcases hwf with h1 | h1
        · exact h1
        · exact absurd h1 hc0
      by_cases hfull : size = cap
      · subst hfull
        simp only [if_true] at h
        split at h
        · simp at h
        · rename_i hlt
          simp only [not_not] at hlt
          simp only [Option.some.injEq] at h
          subst h
          refine ⟨rfl, by simp [grow, hc0], ?_, hle, by simp only; omega, ?_, ?_⟩
          · simp only [memcpy, List.length_append, List.length_take, List.length_drop,
              List.length_replicate]
            omega
          · intro i hi
            simp only at hi
            simp only [memcpy]
            rw [List.getElem?_append_left (by simp; omega)]
            rw [List.getElem?_take_of_lt (by omega)]
          · intro _ _; exact hlt
      · simp only [hfull, if_false] at h
        split at h
        · simp at h
        · rename_i hlt
          simp only [not_not] at hlt
          simp only [Option.some.injEq] at h
          subst h
          refine ⟨rfl, by simp [grow, hc0, hfull], hlen, hle, by simp only; omega,
            fun i _ => rfl, ?_⟩
          intro _ h1; exact absurd h1 hfull


theorem store_append_cap_le {α : Type} (dflt : α) (s s1 : store α)
    (h : store_append dflt s = some s1) : grow s.m_size s.m_capacity ≤ 2147483647 := by
  unfold store_append at h
  by_contra hcon
  rw [if_pos hcon] at h
  split at h <;> simp at h

theorem grow_ge_two {size cap : Nat} (h : cap = 0 ∨ 2 ≤ cap) : 2 ≤ grow size cap := by
  unfold grow
  split
  · omega
  · split
    · have := @grow_capacity_gt cap (by omega)
      omega
    · omega

theorem grow_gt_size {size cap : Nat} (h1 : size ≤ cap) (h : cap = 0 ∨ 2 ≤ cap) :
    size < grow size cap := by
  unfold grow
  split
  · omega
  · split
    · have := @grow_capacity_gt cap (by omega)
      omega
    · omega

theorem store_append_wf {α : Type} (dflt : α) (s s1 : store α) (hwf : store_wf s)
    (h : store_append dflt s = some s1) : store_wf s1 := by
  obtain ⟨h1, h2, h3⟩ := hwf
  obtain ⟨f1, f2, f3, f4, f5, -, -⟩ := store_append_frame dflt s s1 h1 h
  refine ⟨Or.inl f3, f5, Or.inr ?_⟩
  rw [f2]
  exact grow_ge_two h3

theorem store_append_succeeds {α : Type} (dflt : α) (s : store α) (hwf : store_wf s)
    (hcap : grow s.m_size s.m_capacity ≤ 2147483647) :
    ∃ s1, store_append dflt s = some s1 ∧ store_wf s1 := by
  obtain ⟨h1, h2, h3⟩ := hwf
  have hgt := grow_gt_size h2 h3
  have hsome : ∃ s1, store_append dflt s = some s1 := by
    unfold store_append
    rw [if_neg (by simpa using h2), if_neg (by simpa using hcap)]
    unfold grow at hgt
    by_cases hc0 : s.m_capacity = 0
    · simp only [hc0, if_true]
      rw [if_neg (by omega)]
      exact ⟨_, rfl⟩
    · by_cases hfull : s.m_size = s.m_capacity
      · simp only [hc0, if_false, hfull, if_true] at hgt ⊢
        rw [if_neg (by omega)]
        exact ⟨_, rfl⟩
      · simp only [hc0, if_false, hfull]
        rw [if_neg (by omega)]
        exact ⟨_, rfl⟩
  obtain ⟨s1, hs1⟩ := hsome
  exact ⟨s1, hs1, store_append_wf dflt s s1 ⟨h1, h2, h3⟩ hs1⟩

theorem append_child_frame (s s1 : store lazy_entry) (v : lazy_entry) (hwf : store_wf s)
    (h : append_child s v = some s1) :
    s1.m_size = s.m_size + 1 ∧ (∀ i, i < s.m_size → s1.slots[i]? = s.slots[i]?) ∧
    s1.slots[s.m_size]? = some v ∧ store_wf s1 ∧
    s1.m_capacity = grow s.m_size s.m_capacity := by
  obtain ⟨s2, hs2⟩ : ∃ s2, store_append .none_e s = some s2 := by
    cases hs : store_append .none_e s with
    | none => simp [append_child, hs] at h
    | some s2 => exact ⟨s2, rfl⟩
  have hwf2 := store_append_wf .none_e s s2 hwf hs2
  obtain ⟨f1, f2, f3, f4, f5, f6, -⟩ := store_append_frame .none_e s s2 hwf.1 hs2
  simp only [append_child, hs2, Option.map_some', Option.some.injEq] at h
  subst h
  simp only
  refine ⟨f1, ?_, ?_, ?_, f2⟩
  · intro i hi
    rw [List.getElem?_set_ne (by omega)]
    exact f6 i hi
  · rw [f1, Nat.add_sub_cancel, List.getElem?_set_eq_of_lt _ (by omega)]
  · refine ⟨Or.inl ?_, hwf2.2.1, hwf2.2.2⟩
    simp only [List.length_set]
    exact f3

theorem append_pair_frame (s s1 : store (Option Int × lazy_entry)) (name : Int)
    (v : lazy_entry) (hwf : store_wf s) (h : append_pair s name v = some s1) :
    s1.m_size = s.m_size + 1 ∧ (∀ i, i < s.m_size → s1.slots[i]? = s.slots[i]?) ∧
    s1.slots[s.m_size]? = some (some name, v) ∧ store_wf s1 := by
  obtain ⟨s2, hs2⟩ : ∃ s2, store_append (none, .none_e) s = some s2 := by
    cases hs : store_append (none, .none_e) s with
    | none => simp [append_pair, hs] at h
    | some s2 => exact ⟨s2, rfl⟩
  have hwf2 := store_append_wf (none, .none_e) s s2 hwf hs2
  obtain ⟨f1, f2, f3, f4, f5, f6, -⟩ := store_append_frame (none, .none_e) s s2 hwf.1 hs2
  simp only [append_pair, hs2, Option.map_some', Option.some.injEq] at h
  subst h
  simp only
  refine ⟨f1, ?_, ?_, ?_⟩
  · intro i hi
    rw [List.getElem?_set_ne (by omega)]
    exact f6 i hi
  · rw [f1, Nat.add_sub_cancel, List.getElem?_set_eq_of_lt _ (by omega)]
  · refine ⟨Or.inl ?_, hwf2.2.1, hwf2.2.2⟩
    simp only [List.length_set]
    exact f3

theorem cap_seq_ge : ∀ k : Nat, 5 ≤ cap_seq k
  | 0 => by simp [cap_seq]
  | k + 1 => by
    have := cap_seq_ge k
    simp only [cap_seq]
    omega

theorem cap_seq_lt (k : Nat) : cap_seq k < cap_seq (k + 1) := by
  have := cap_seq_ge k
  simp only [cap_seq]
  omega

theorem cap_seq_mono {j k : Nat} (h : j ≤ k) : cap_seq j ≤ cap_seq k := by
  induction k with
  | zero =>
    have : j = 0 := by omega
    subst this; exact Nat.le_refl _
  | succ k ih =>
    by_cases hj : j = k + 1
    · subst hj; exact Nat.le_refl _
    · have := ih (by omega)
      have := cap_seq_lt k
      omega

/-- The capacity after `n >= 1` appends is the first term of `grow_seq` that
is at least `n`. -/
theorem cap_after_first_term : ∀ n : Nat, 1 ≤ n →
    ∃ k, cap_after n = grow_seq k ∧ n ≤ grow_seq k ∧ (k = 0 ∨ grow_seq (k - 1) < n)
  | 0, h => absurd h (by decide)
  | 1, _ => ⟨0, rfl, by decide, Or.inl rfl⟩
  | n + 2, _ => by
    obtain ⟨k, h1, h2, h3⟩ := cap_after_first_term (n + 1) (by omega)
    have hge := grow_seq_ge k
    have hlt := grow_seq_lt k
    rw [show cap_after (n + 2) = grow (n + 1) (cap_after (n + 1)) from rfl, h1]
    unfold grow
    rw [if_neg (by omega)]
    by_cases hfull : n + 1 = grow_seq k
    · rw [if_pos hfull]
      refine ⟨k + 1, rfl, by omega, Or.inr ?_⟩
      simp only [Nat.add_sub_cancel]; omega
    · rw [if_neg hfull]
      refine ⟨k, rfl, by omega, ?_⟩
      rcases h3 with h3 | h3
      · exact Or.inl h3
      · exact Or.inr (by omega)

/-- Up to 1796357632 children the capacity fits an `int`. -/
theorem cap_after_le {n : Nat} (h : n ≤ 1796357632) : cap_after n ≤ 2147483647 := by
  cases n with
  | zero => simp [cap_after]
  | succ n =>
    obtain ⟨k, h1, -, h3⟩ := cap_after_first_term (n + 1) (by omega)
    have hk : k ≤ 49 := by
      by_contra hcon
      rcases h3 with h3 | h3
      · omega
      · have := @grow_seq_mono 49 (k - 1) (by omega)
        rw [grow_seq_49] at this
        omega
    have := grow_seq_mono hk
    rw [grow_seq_49] at this
    omega

theorem append_children_spec : ∀ (vs : List lazy_entry) (s : store lazy_entry), store_wf s →
    s.m_capacity = cap_after s.m_size → s.m_size + vs.length ≤ 1796357632 →
    ∃ s1, append_children s vs = some s1 ∧ s1.m_size = s.m_size + vs.length ∧
      (∀ i, i < s.m_size → s1.slots[i]? = s.slots[i]?) ∧
      (∀ j, j < vs.length → s1.slots[s.m_size + j]? = vs[j]?) ∧ store_wf s1 ∧
      s1.m_capacity = cap_after s1.m_size
  | [], s, hwf, hc, _ => ⟨s, rfl, by simp, fun _ _ => rfl, by simp, hwf, hc⟩
  | v :: vs, s, hwf, hc, hmax => by
    simp only [List.length_cons] at hmax
    have hcap : grow s.m_size s.m_capacity ≤ 2147483647 := by
      rw [hc]
      exact @cap_after_le (s.m_size + 1) (by omega)
    obtain ⟨s2, hs2, -⟩ := store_append_succeeds .none_e s hwf hcap
    have hc : ∃ s3, append_child s v = some s3 := by
      simp [append_child, hs2]
    obtain ⟨s3, hs3⟩ := hc
    obtain ⟨g1, g2, g3, g4, g5⟩ := append_child_frame s s3 v hwf hs3
    have hc3 : s3.m_capacity = cap_after s3.m_size := by
      rw [g5, g1, hc]; rfl
    obtain ⟨s1, h1, h2, h3, h4, h5, h6⟩ := append_children_spec vs s3 g4 hc3 (by omega)
    refine ⟨s1, by simp [append_children, hs3, h1], by simp [h2, g1]; omega, ?_, ?_, h5, h6⟩
    · intro i hi
      rw [h3 i (by omega), g2 i hi]
    · intro j hj
      cases j with
      | zero =>
        rw [Nat.add_zero, h3 _ (by omega), g3]
        simp
      | succ j =>
        have := h4 j (by simpa using hj)
        rw [g1] at this
        rw [show s.m_size + (j + 1) = s.m_size + 1 + j by omega, this]
        simp


theorem store_wf_empty {α : Type} : store_wf (⟨[], 0, 0⟩ : store α) := by
  simp [store_wf]

/-- C13: a successful `list_append` (`dict_append`) on a store with
`m_size <= m_capacity` increases the size by exactly one and leaves every
child (every pair, key and value) below the old size unchanged, whether or
not the call reallocates; the new child (the new key) is in the slot of the
old size.  Hence after appending 20 children to an empty list, which
reallocates (capacity 22 in the end), child `i` is the `i`-th child appended
for every `i < 20`. -/
theorem append_keeps_children (s s1 : store lazy_entry) (v : lazy_entry) (hwf : store_wf s)
    (h : append_child s v = some s1) :
    (s1.m_size = s.m_size + 1 ∧ (∀ i, i < s.m_size → s1.slots[i]? = s.slots[i]?) ∧
      s1.slots[s.m_size]? = some v) ∧
    (∀ (d d1 : store (Option Int × lazy_entry)) (name : Int) (w : lazy_entry), store_wf d →
      append_pair d name w = some d1 →
      d1.m_size = d.m_size + 1 ∧ (∀ i, i < d.m_size → d1.slots[i]? = d.slots[i]?) ∧
      d1.slots[d.m_size]? = some (some name, w)) ∧
    (∀ vs : List lazy_entry, vs.length = 20 →
      ∃ s20, append_children ⟨[], 0, 0⟩ vs = some s20 ∧ s20.m_size = 20 ∧
        s20.m_capacity = 22 ∧ ∀ i, i < 20 → s20.slots[i]? = vs[i]?) := by
  obtain ⟨g1, g2, g3, -, -⟩ := append_child_frame s s1 v hwf h
  refine ⟨⟨g1, g2, g3⟩, ?_, ?_⟩
  · intro d d1 name w hd hd1
    obtain ⟨f1, f2, f3, -⟩ := append_pair_frame d d1 name w hd hd1
    exact ⟨f1, f2, f3⟩
  · intro vs hvs
    obtain ⟨s20, h1, h2, -, h4, -, h6⟩ := append_children_spec vs ⟨[], 0, 0⟩ store_wf_empty
      rfl (by simp only [hvs]; omega)
    have hsize : s20.m_size = 20 := by simpa [hvs] using h2
    refine ⟨s20, h1, hsize, ?_, ?_⟩
    · rw [h6, hsize]; decide
    · intro i hi
      have := h4 i (by omega)
      simpa using this


/-- Witness of C13: appending to a full store of capacity 5 reallocates to
capacity 7 and keeps the five children. -/
theorem append_keeps_children_witness :
    store_wf (⟨[.int_e 1 1 0 3, .int_e 4 1 3 6, .int_e 7 1 6 9, .int_e 10 1 9 12,
        .int_e 13 2 12 16], 5, 5⟩ : store lazy_entry) ∧
    append_child ⟨[.int_e 1 1 0 3, .int_e 4 1 3 6, .int_e 7 1 6 9, .int_e 10 1 9 12,
        .int_e 13 2 12 16], 5, 5⟩ (.int_e 17 1 16 19)
      = some ⟨[.int_e 1 1 0 3, .int_e 4 1 3 6, .int_e 7 1 6 9, .int_e 10 1 9 12,
        .int_e 13 2 12 16, .int_e 17 1 16 19, .none_e], 6, 7⟩ ∧
    (6 = 5 + 1 ∧
      (∀ i, i < 5 →
        [lazy_entry.int_e 1 1 0 3, .int_e 4 1 3 6, .int_e 7 1 6 9, .int_e 10 1 9 12,
          .int_e 13 2 12 16, .int_e 17 1 16 19, .none_e][i]?
        = [lazy_entry.int_e 1 1 0 3, .int_e 4 1 3 6, .int_e 7 1 6 9, .int_e 10 1 9 12,
          .int_e 13 2 12 16][i]?) ∧
      [lazy_entry.int_e 1 1 0 3, .int_e 4 1 3 6, .int_e 7 1 6 9, .int_e 10 1 9 12,
          .int_e 13 2 12 16, .int_e 17 1 16 19, .none_e][5]? = some (.int_e 17 1 16 19)) :=
  ⟨by simp [store_wf], rfl,
    (append_keeps_children
      ⟨[.int_e 1 1 0 3, .int_e 4 1 3 6, .int_e 7 1 6 9, .int_e 10 1 9 12, .int_e 13 2 12 16],
        5, 5⟩
      ⟨[.int_e 1 1 0 3, .int_e 4 1 3 6, .int_e 7 1 6 9, .int_e 10 1 9 12, .int_e 13 2 12 16,
        .int_e 17 1 16 19, .none_e], 6, 7⟩
      (.int_e 17 1 16 19) (by simp [store_wf]) rfl).1⟩

theorem append_n_spec {α : Type} (dflt : α) : ∀ (n : Nat) (s : store α), store_wf s →
    s.m_capacity = cap_after s.m_size → s.m_size + n ≤ 1796357632 →
    ∃ s1, append_n dflt n s = some s1 ∧ s1.m_size = s.m_size + n ∧
      s1.m_capacity = cap_after s1.m_size ∧ store_wf s1
  | 0, s, hwf, hc, _ => ⟨s, rfl, rfl, hc, hwf⟩
  | n + 1, s, hwf, hc, hmax => by
    have hcap : grow s.m_size s.m_capacity ≤ 2147483647 := by
      rw [hc]
      exact @cap_after_le (s.m_size + 1) (by omega)
    obtain ⟨s2, hs2, hwf2⟩ := store_append_succeeds dflt s hwf hcap
    obtain ⟨f1, f2, -⟩ := store_append_frame dflt s s2 hwf.1 hs2
    have hc2 : s2.m_capacity = cap_after s2.m_size := by
      rw [f2, f1, hc]; rfl
    obtain ⟨s1, h1, h2, h3, h4⟩ := append_n_spec dflt n s2 hwf2 hc2 (by omega)
    exact ⟨s1, by simp [append_n, hs2, h1], by omega, h3, h4⟩

set_option maxRecDepth 1000000 in
/-- Up to the term 13845150 the capacities are those of the exact sequence. -/
theorem grow_seq_eq_cap_seq : ∀ k : Nat, k ≤ 37 → grow_seq k = cap_seq k := by
  decide

/-- C20 (amended): starting from the empty store (size 0, capacity 0), `n`
appends with `1 <= n <= 1796357632` succeed (no assertion fails, every
capacity fits an `int`), the size is `n` and the capacity is the first term at
least `n` of the sequence `c0 = 5`, `c(k+1) = int(c(k) * 1.5f)` computed in
binary32, which is 5, 7, 10, 15, 22, ... and agrees with `floor(1.5 c(k))` up
to the term 13845150; `m_size <= m_capacity` holds after every append; every
term of the sequence is smaller than the next, so each growth strictly
increases the capacity; and below 1796357632 a further append succeeds: the
assertion `m_size < m_capacity` holds. -/
theorem store_bookkeeping {α : Type} (dflt : α) (n : Nat) (hn : 1 ≤ n)
    (hmax : n ≤ 1796357632) :
    ∃ s, append_n dflt n ⟨[], 0, 0⟩ = some s ∧ s.m_size = n ∧
      (∃ k, s.m_capacity = grow_seq k ∧ n ≤ grow_seq k ∧ (k = 0 ∨ grow_seq (k - 1) < n)) ∧
      s.m_size ≤ s.m_capacity ∧
      (∀ k, grow_seq k < grow_seq (k + 1)) ∧
      (∀ k, k ≤ 37 → grow_seq k = cap_seq k) ∧
      (n < 1796357632 →
        ∃ s1, store_append dflt s = some s1 ∧ s.m_size < s1.m_capacity ∧
          (s.m_size = s.m_capacity → s.m_capacity < s1.m_capacity)) := by
  obtain ⟨s, h1, h2, h3, h4⟩ := append_n_spec dflt n ⟨[], 0, 0⟩ store_wf_empty rfl
    (by simp only; omega)
  simp only [Nat.zero_add] at h2
  rw [h2] at h3
  obtain ⟨k, k1, k2, k3⟩ := cap_after_first_term n hn
  refine ⟨s, h1, h2, ⟨k, by rw [h3, k1], k2, k3⟩, h4.2.1, grow_seq_lt, grow_seq_eq_cap_seq, ?_⟩
  intro hlt
  have hcap : grow s.m_size s.m_capacity ≤ 2147483647 := by
    rw [h3, h2]
    exact @cap_after_le (n + 1) (by omega)
  obtain ⟨s1, g1, g2⟩ := store_append_succeeds dflt s h4 hcap
  obtain ⟨f1, f2, f3, f4, f5, f6, f7⟩ := store_append_frame dflt s s1 h4.1 g1
  refine ⟨s1, g1, by omega, ?_⟩
  intro hfull
  have hge := grow_seq_ge k
  exact f7 (by rw [h3, k1]; omega) hfull

/-- Witness of C20 for 6 appends: the capacity is 7. -/
theorem store_bookkeeping_witness :
    1 ≤ 6 ∧ 6 ≤ 1796357632 ∧ append_n lazy_entry.none_e 6 ⟨[], 0, 0⟩
      = some ⟨[.none_e, .none_e, .none_e, .none_e, .none_e, .none_e, .none_e], 6, 7⟩ ∧
    (∃ s, append_n lazy_entry.none_e 6 ⟨[], 0, 0⟩ = some s ∧ s.m_size = 6 ∧
      (∃ k, s.m_capacity = grow_seq k ∧ 6 ≤ grow_seq k ∧ (k = 0 ∨ grow_seq (k - 1) < 6)) ∧
      s.m_size ≤ s.m_capacity ∧
      (∀ k, grow_seq k < grow_seq (k + 1)) ∧
      (∀ k, k ≤ 37 → grow_seq k = cap_seq k) ∧
      (6 < 1796357632 →
        ∃ s1, store_append lazy_entry.none_e s = some s1 ∧ s.m_size < s1.m_capacity ∧
          (s.m_size = s.m_capacity → s.m_capacity < s1.m_capacity))) :=
  ⟨by decide, by decide, rfl, store_bookkeeping lazy_entry.none_e 6 (by decide) (by decide)⟩

set_option maxRecDepth 1000000 in
/-- C20 as stated fails from 13845151 appends on: the store then has capacity
20767724, the binary32 value of `13845150 * 1.5f`, which is no term of the
exact sequence: that one goes from 13845150 to
`floor(1.5 * 13845150) = 20767725`.  And an append to a full store of capacity
1796357632 is not defined, because the product 2694536448 does not fit an
`int`. -/
theorem capacity_is_rounded_in_binary32 :
    (∃ s, append_n lazy_entry.none_e 13845151 ⟨[], 0, 0⟩ = some s ∧ s.m_size = 13845151
        ∧ s.m_capacity = 20767724)
      ∧ cap_seq 37 = 13845150 ∧ cap_seq 38 = 20767725
      ∧ (∀ k, cap_seq k ≠ 20767724)
      ∧ grow_capacity 1796357632 = 2694536448
      ∧ ∀ slots : List lazy_entry,
          store_append lazy_entry.none_e ⟨slots, 1796357632, 1796357632⟩ = none := by
  have c37 : cap_seq 37 = 13845150 := by decide
  have c38 : cap_seq 38 = 20767725 := by decide
  refine ⟨?_, c37, c38, ?_, by decide, ?_⟩
  rotate_left
  · intro k hk
    by_cases h : k ≤ 37
    · have := cap_seq_mono h
      omega
    · have := @cap_seq_mono 38 k (by omega)
      omega
  rotate_left
  · obtain ⟨s, h1, h2, h3, -⟩ := append_n_spec lazy_entry.none_e 13845151 ⟨[], 0, 0⟩
      store_wf_empty rfl (by decide)
    simp only [Nat.zero_add] at h2
    refine ⟨s, h1, h2, ?_⟩
    obtain ⟨k, k1, k2, k3⟩ := cap_after_first_term 13845151 (by decide)
    rw [h3, h2, k1]
    have h37 : grow_seq 37 = 13845150 := by decide
    have h38 : grow_seq 38 = 20767724 := by decide
    have hk : k = 38 := by
      by_contra hne
      rcases Nat.lt_or_gt_of_ne hne with hlt | hgt
      · have := @grow_seq_mono k 37 (by omega)
        omega
      · rcases k3 with k3 | k3
        · omega
        · have := @grow_seq_mono 38 (k - 1) (by omega)
          omega
    rw [hk, h38]
  · intro slots
    have hg : grow_capacity 1796357632 = 2694536448 := by decide
    unfold store_append
    simp only [grow, hg]
    simp

/-- The entries of the decoder are the store seen through its first `m_size`
elements: `list_append` of the decoder is `store_append` on the array, as long
as the unused elements of the array are default-constructed. -/
theorem list_append_refines (b : Int) (en : Option Int) (s s1 : store lazy_entry)
    (hwf : store_wf s)
    (hfresh : ∀ i, s.m_size ≤ i → i < s.slots.length → s.slots[i]? = some .none_e)
    (h : store_append .none_e s = some s1) :
    list_append (.list_e b en s.m_capacity (s.slots.take s.m_size))
      = some (.list_e b en s1.m_capacity (s1.slots.take s1.m_size)) := by
  obtain ⟨f1, f2, f3, f4, f5, f6, f7⟩ := store_append_frame .none_e s s1 hwf.1 h
  obtain ⟨w1, w2, w3⟩ := hwf
  have hlen : (s.slots.take s.m_size).length = s.m_size := by
    rw [List.length_take]
    rcases w1 with w1 | w1
    · omega
    · omega
  have hnew : s1.slots[s.m_size]? = some .none_e := by
    obtain ⟨slots, size, cap⟩ := s
    simp only at *
    have hcap := store_append_cap_le lazy_entry.none_e _ _ h
    simp only at hcap
    unfold store_append at h
    simp only at h
    rw [if_neg (by omega), if_neg (by omega)] at h
    by_cases hc0 : cap = 0
    · subst hc0
      simp only [if_true] at h
      split at h
      · simp at h
      · simp only [Option.some.injEq] at h
        subst h
        have : size = 0 := by omega
        subst this
        rfl
    · simp only [hc0, if_false] at h
      by_cases hfull : size = cap
      · subst hfull
        simp only [if_true] at h
        split at h
        · simp at h
        · rename_i hlt
          simp only [not_not] at hlt
          simp only [Option.some.injEq] at h
          subst h
          simp only [memcpy]
          rw [List.getElem?_append_right (by simp)]
          simp only [List.length_take, List.getElem?_drop]
          rw [List.getElem?_replicate]
          simp
          omega
      · simp only [hfull, if_false] at h
        split at h
        · simp at h
        · simp only [Option.some.injEq] at h
          subst h
          simp only
          exact hfresh size (Nat.le_refl _) (by omega)
  have htake : s1.slots.take s1.m_size = s.slots.take s.m_size ++ [.none_e] := by
    rw [f1]
    apply List.ext_getElem?
    intro i
    by_cases hi : i < s.m_size
    · rw [List.getElem?_take_of_lt (by omega), f6 i hi,
        List.getElem?_append_left (by omega), List.getElem?_take_of_lt hi]
    · by_cases hi2 : i = s.m_size
      · subst hi2
        rw [List.getElem?_take_of_lt (by omega), hnew,
          List.getElem?_append_right (by omega), hlen]
        simp
      · rw [List.getElem?_eq_none (by simp; omega), List.getElem?_eq_none (by simp; omega)]
  have hcap := store_append_cap_le lazy_entry.none_e _ _ h
  unfold list_append
  simp only [hlen]
  rw [if_pos ⟨f4, hcap, by rw [← f2]; omega⟩, htake, f2]

/-! ## Sorted vectors -/


theorem sorted_get {α : Type} [LinearOrder α] {cont : List α} (hs : cont.Pairwise (· ≤ ·))
    {i j : Nat} {x y : α} (hij : i ≤ j) (hx : cont[i]? = some x) (hy : cont[j]? = some y) :
    x ≤ y := by
  rcases Nat.eq_or_lt_of_le hij with h | h
  · subst h
    rw [hx] at hy
    exact le_of_eq (Option.some.inj hy)
  · obtain ⟨hi, rfl⟩ := List.getElem?_eq_some.mp hx
    obtain ⟨hj, rfl⟩ := List.getElem?_eq_some.mp hy
    exact List.pairwise_iff_getElem.mp hs i j hi hj h

theorem lower_bound_loop_spec {α : Type} [LinearOrder α] (cont : List α) (v : α)
    (hs : cont.Pairwise (· ≤ ·)) :
    ∀ (fuel first len : Nat), len < fuel → first + len ≤ cont.length →
      (∀ i, i < first → ∀ x, cont[i]? = some x → x < v) →
      (∀ i, first + len ≤ i → ∀ x, cont[i]? = some x → ¬ x < v) →
      lower_bound_loop cont v fuel first len ≤ cont.length ∧
      (∀ i, i < lower_bound_loop cont v fuel first len → ∀ x, cont[i]? = some x → x < v) ∧
      (∀ i, lower_bound_loop cont v fuel first len ≤ i → ∀ x, cont[i]? = some x → ¬ x < v)
  | 0, _, _, h, _, _, _ => absurd h (Nat.not_lt_zero _)
  | fuel + 1, first, len, hf, hle, hlo, hhi => by
    unfold lower_bound_loop
    split
    · rename_i h0
      subst h0
      exact ⟨by omega, hlo, fun i hi => hhi i (by omega)⟩
    · rename_i h0
      have hmid : first + len / 2 < cont.length := by omega
      split
      · rename_i hnone
        rw [List.getElem?_eq_none_iff] at hnone
        omega
      · rename_i middle hm
        split
        · rename_i hlt
          apply lower_bound_loop_spec cont v hs fuel _ _ (by omega) (by omega)
          · intro i hi x hx
            exact lt_of_le_of_lt (sorted_get hs (by omega) hx hm) hlt
          · intro i hi x hx
            exact hhi i (by omega) x hx
        · rename_i hge
          apply lower_bound_loop_spec cont v hs fuel _ _ (by omega) (by omega) hlo
          intro i hi x hx hxv
          exact hge (lt_of_le_of_lt (sorted_get hs (by omega) hm hx) hxv)

/-- On an ascending vector `lower_bound` is the position of the first
element that is not less than `v`. -/
theorem lower_bound_spec {α : Type} [LinearOrder α] (cont : List α) (v : α)
    (hs : cont.Pairwise (· ≤ ·)) :
    lower_bound cont v ≤ cont.length ∧
    (∀ i, i < lower_bound cont v → ∀ x, cont[i]? = some x → x < v) ∧
    (∀ i, lower_bound cont v ≤ i → ∀ x, cont[i]? = some x → ¬ x < v) := by
  apply lower_bound_loop_spec cont v hs (cont.length + 1) 0 cont.length (by omega) (by omega)
  · intro i hi; omega
  · intro i hi x hx
    rw [List.getElem?_eq_none (by omega)] at hx
    exact Option.noConfusion hx

theorem mem_take_lt {α : Type} [LinearOrder α] {cont : List α} {v a : α}
    (hs : cont.Pairwise (· ≤ ·)) (h : a ∈ cont.take (lower_bound cont v)) : a < v := by
  obtain ⟨i, hi⟩ := List.mem_iff_getElem?.mp h
  rw [List.getElem?_take] at hi
  split at hi
  · rename_i hlt
    exact (lower_bound_spec cont v hs).2.1 i hlt a hi
  · exact Option.noConfusion hi

theorem mem_drop_ge {α : Type} [LinearOrder α] {cont : List α} {v a : α}
    (hs : cont.Pairwise (· ≤ ·)) (h : a ∈ cont.drop (lower_bound cont v)) : v ≤ a := by
  obtain ⟨i, hi⟩ := List.mem_iff_getElem?.mp h
  rw [List.getElem?_drop] at hi
  exact not_lt.mp ((lower_bound_spec cont v hs).2.2 _ (by omega) a hi)

/-- C14: for an ascending vector, `sorted_insert` yields an ascending vector
that is one element longer and a permutation of the old elements plus `v`;
`v` sits at the lower bound, behind the elements less than `v` and before the
first element not less than `v`. -/
theorem sorted_insert_sorted {α : Type} [LinearOrder α] (cont : List α) (v : α)
    (hs : cont.Pairwise (· ≤ ·)) :
    (sorted_insert cont v).Pairwise (· ≤ ·) ∧
    (sorted_insert cont v).length = cont.length + 1 ∧
    List.Perm (sorted_insert cont v) (v :: cont) ∧
    (sorted_insert cont v)[lower_bound cont v]? = some v ∧
    (∀ i, i < lower_bound cont v → ∀ x, cont[i]? = some x → x < v) ∧
    (∀ i, lower_bound cont v ≤ i → ∀ x, cont[i]? = some x → ¬ x < v) := by
  obtain ⟨h1, h2, h3⟩ := lower_bound_spec cont v hs
  refine ⟨?_, ?_, ?_, ?_, h2, h3⟩
  · unfold sorted_insert
    rw [List.pairwise_append]
    refine ⟨hs.sublist (List.take_sublist _ _), ?_, ?_⟩
    · rw [List.pairwise_cons]
      exact ⟨fun a ha => mem_drop_ge hs ha, hs.sublist (List.drop_sublist _ _)⟩
    · intro a ha b hb
      have hav := mem_take_lt hs ha
      rcases List.mem_cons.mp hb with rfl | hb
      · exact le_of_lt hav
      · exact le_trans (le_of_lt hav) (mem_drop_ge hs hb)
  · unfold sorted_insert
    simp only [List.length_append, List.length_cons, List.length_take, List.length_drop]
    omega
  · unfold sorted_insert
    have := @List.perm_middle α v (cont.take (lower_bound cont v))
      (cont.drop (lower_bound cont v))
    rwa [List.take_append_drop] at this
  · unfold sorted_insert
    rw [List.getElem?_append_right (by simp)]
    simp [List.length_take, Nat.min_eq_left h1]

/-- Witness of C14: inserting 5 into `[1, 3, 5, 7]`. -/
theorem sorted_insert_sorted_witness :
    ([1, 3, 5, 7] : List Int).Pairwise (· ≤ ·) ∧
    sorted_insert ([1, 3, 5, 7] : List Int) 5 = [1, 3, 5, 5, 7] ∧
    (sorted_insert ([1, 3, 5, 7] : List Int) 5).Pairwise (· ≤ ·) :=
  ⟨by decide, by decide, (sorted_insert_sorted ([1, 3, 5, 7] : List Int) 5 (by decide)).1⟩

/-- C15: on an ascending vector, `sorted_find` returns the first position
holding `v` when `v` occurs, and `end` if and only if `v` does not occur; in
particular it finds `v` after `sorted_insert`. -/
theorem sorted_find_correct {α : Type} [LinearOrder α] (cont : List α) (v : α)
    (hs : cont.Pairwise (· ≤ ·)) :
    (v ∈ cont → sorted_find cont v < cont.length ∧ cont[sorted_find cont v]? = some v ∧
      ∀ j, j < sorted_find cont v → cont[j]? ≠ some v) ∧
    (sorted_find cont v = cont.length ↔ v ∉ cont) ∧
    (sorted_find (sorted_insert cont v) v < (sorted_insert cont v).length ∧
      (sorted_insert cont v)[sorted_find (sorted_insert cont v) v]? = some v) := by
  have key : ∀ (l : List α), l.Pairwise (· ≤ ·) →
      (v ∈ l → sorted_find l v < l.length ∧ l[sorted_find l v]? = some v ∧
        ∀ j, j < sorted_find l v → l[j]? ≠ some v) ∧ (v ∉ l → sorted_find l v = l.length) := by
    intro l hl
    obtain ⟨h1, h2, h3⟩ := lower_bound_spec l v hl
    constructor
    · intro hv
      obtain ⟨k, hk⟩ := List.mem_iff_getElem?.mp hv
      have hpk : lower_bound l v ≤ k := by
        by_contra hcon
        exact lt_irrefl v (h2 k (by omega) v hk)
      have hklt : k < l.length := (List.getElem?_eq_some.mp hk).1
      have hplt : lower_bound l v < l.length := by omega
      obtain ⟨x, hx⟩ : ∃ x, l[lower_bound l v]? = some x :=
        ⟨l[lower_bound l v], List.getElem?_eq_getElem hplt⟩
      have hxv : x = v :=
        le_antisymm (sorted_get hl hpk hx hk) (not_lt.mp (h3 _ (Nat.le_refl _) x hx))
      subst hxv
      have hsf : sorted_find l x = lower_bound l x := by
        unfold sorted_find
        rw [if_neg (by omega), hx]
        simp
      rw [hsf]
      refine ⟨hplt, hx, ?_⟩
      intro j hj hjv
      exact lt_irrefl x (h2 j hj x hjv)
    · intro hv
      unfold sorted_find
      split
      · rfl
      · split
        · rfl
        · rename_i x hx
          have hxv : x ≠ v := by
            intro h
            subst h
            exact hv (List.mem_iff_getElem?.mpr ⟨_, hx⟩)
          rw [if_pos hxv]
  obtain ⟨k1, k2⟩ := key cont hs
  refine ⟨k1, ⟨?_, k2⟩, ?_⟩
  · intro h hv
    have := (k1 hv).1
    omega
  · obtain ⟨s1, -, s3, -⟩ := sorted_insert_sorted cont v hs
    have hv : v ∈ sorted_insert cont v := s3.mem_iff.mpr (List.mem_cons_self _ _)
    obtain ⟨a, b, -⟩ := (key _ s1).1 hv
    exact ⟨a, b⟩

/-- Witness of C15 on `[1, 3, 5, 5, 7]`. -/
theorem sorted_find_correct_witness :
    ([1, 3, 5, 5, 7] : List Int).Pairwise (· ≤ ·) ∧
    sorted_find ([1, 3, 5, 5, 7] : List Int) 5 = 2 ∧
    sorted_find ([1, 3, 5, 5, 7] : List Int) 4 = 5 ∧
    (sorted_find ([1, 3, 5, 5, 7] : List Int) 4 = ([1, 3, 5, 5, 7] : List Int).length
      ↔ (4 : Int) ∉ ([1, 3, 5, 5, 7] : List Int)) :=
  ⟨by decide, by decide, by decide,
    (sorted_find_correct ([1, 3, 5, 5, 7] : List Int) 4 (by decide)).2.1⟩

theorem interpret_int (buf : List Int) (start p : Int) (rest : List lazy_entry)
    (ret : lazy_entry) (hf : find_char buf start buf.length 101 = some p)
    (hp : p ≠ buf.length) :
    interpret buf 105 start (.none_e :: rest) ret
      = .next ⟨p + 1, (pop (construct_int start (p - start) :: rest) ret).1,
          (pop (construct_int start (p - start) :: rest) ret).2⟩ := by
  simp [interpret, hf, hp]

theorem interpret_string (buf : List Int) (t start p len : Int) (rest : List lazy_entry)
    (ret : lazy_entry) (ht : isdigit t = true)
    (hparse : parse_int buf start buf.length 58 (t - 48) = some (some p, len))
    (hlen : ¬ p + len + 1 > buf.length) (hc : peek buf p = some 58) :
    interpret buf t start (.none_e :: rest) ret
      = .next ⟨p + 1 + len, (pop (construct_string (p + 1) (int32 len) :: rest) ret).1,
          (pop (construct_string (p + 1) (int32 len) :: rest) ret).2⟩ := by
  obtain ⟨h1, h2, h3, -⟩ := digit_not_token ht
  unfold interpret
  simp only
  rw [if_neg h1, if_neg h2, if_neg h3, if_neg (by simp [ht]), hparse]
  simp only
  rw [if_neg hlen, hc]
  simp

theorem value_spec_int (buf : List Int) (dl : Int) (n : Int) : value_spec buf dl (.int n) := by
  intro pre post rest ret fuel hbuf _
  have hlen : (buf.length : Int) = pre.length + 1 + (int_text n).length + 1 + post.length := by
    rw [hbuf]; simp only [encode, List.length_append, List.length_cons, List.length_nil]
    push_cast; omega
  have hf : find_char buf ((pre.length : Int) + 1) buf.length 101
      = some ((pre.length : Int) + 1 + (int_text n).length) := by
    unfold find_char
    have h := find_char_loop_skip 101 (int_text n) (pre ++ [105]) post
      ((int_text n).length + 1 + post.length) (int_text_no_e n) (by omega)
    have hb : buf = (pre ++ [105]) ++ (int_text n ++ 101 :: post) := by
      rw [hbuf]; simp [encode]
    rw [← hb] at h
    have hn : ((buf.length : Int) - ((pre.length : Int) + 1)).toNat
        = (int_text n).length + 1 + post.length := by omega
    simp only [List.length_append, List.length_singleton, Nat.cast_add, Nat.cast_one] at h
    rw [hn, h]
  simp only [first_byte, iters, Nat.add_zero]
  rw [interpret_int buf _ _ rest ret hf (by omega)]
  simp only [continue_with]
  have he : construct_int ((pre.length : Int) + 1)
      ((pre.length : Int) + 1 + (int_text n).length - ((pre.length : Int) + 1))
      = entry_of pre.length (.int n) := by
    simp only [construct_int, entry_of]
    congr 1 <;> omega
  have hs : (pre.length : Int) + 1 + (int_text n).length + 1
      = (pre.length : Int) + (encode (.int n)).length := by
    simp only [encode, List.length_append, List.length_cons, List.length_nil]
    push_cast; omega
  rw [he, hs]

theorem nat_digits_cons (n : Nat) :
    ∃ d ds, nat_digits n = d :: ds ∧ isdigit d = true ∧ (∀ x ∈ ds, isdigit x = true) := by
  obtain ⟨h1, h2, -⟩ := nat_digits_spec n
  cases h : nat_digits n with
  | nil => exact absurd h h2
  | cons d ds =>
    rw [h] at h1
    exact ⟨d, ds, rfl, h1 d (List.mem_cons_self _ _),
      fun x hx => h1 x (List.mem_cons_of_mem _ hx)⟩

theorem encode_first (v : Tree) :
    ∃ tl, encode v = first_byte v :: tl ∧ tl ≠ [] ∧ first_byte v ≠ 101 := by
  cases v with
  | int n => exact ⟨int_text n ++ [101], by simp [encode, first_byte], by simp, by simp [first_byte]⟩
  | str s =>
    obtain ⟨d, ds, h, hd, -⟩ := nat_digits_cons s.length
    refine ⟨ds ++ 58 :: s, by simp [encode, first_byte, h], by simp, ?_⟩
    simp only [first_byte, h, List.headD_cons]
    exact (digit_not_token hd).2.2.2
  | list xs => exact ⟨encode_list xs ++ [101], by simp [encode, first_byte], by simp, by simp [first_byte]⟩
  | dict kvs => exact ⟨encode_pairs kvs ++ [101], by simp [encode, first_byte], by simp, by simp [first_byte]⟩

/-- The loop on a buffer that starts with the encoding of `v`: the first
iteration reads the token of `v` with the root on the stack. -/
theorem root_run (buf : List Int) (dl : Int) (v : Tree) (post : List Int) (fuel : Nat)
    (hv : value_spec buf dl v) (hbuf : buf = encode v ++ post) (hdl : 1 ≤ dl)
    (hdepth : (v.depth : Int) ≤ dl) :
    run buf dl (fuel + iters v + 1) ⟨0, [.none_e], .none_e⟩
      = run buf dl fuel ⟨((encode v).length : Int), [], entry_of 0 v⟩ := by
  obtain ⟨tl, htl, hne, hfe⟩ := encode_first v
  have hlen : 2 ≤ buf.length := by
    rw [hbuf, htl]
    have : 0 < tl.length := List.length_pos.mpr hne
    simp only [List.length_append, List.length_cons]
    omega
  have hp : peek buf 0 = some (first_byte v) := by
    rw [hbuf, htl]
    simpa using peek_append_cons [] (first_byte v) (tl ++ post)
  rw [run_succ, step_eq_body buf dl 0 (first_byte v) .none_e [] .none_e (by omega)
    (by simp; omega) hp (by omega)]
  have hb : body buf (first_byte v) (0 + 1) .none_e [] .none_e
      = interpret buf (first_byte v) (0 + 1) [.none_e] .none_e := rfl
  rw [hb]
  have h := hv [] post [] .none_e fuel (by simpa using hbuf) (by simpa using hdepth)
  simp only [List.length_nil, Nat.cast_zero, pop, zero_add] at h
  simp only [zero_add]
  exact h

theorem int64_of_range {n : Int} (h1 : -9223372036854775808 ≤ n)
    (h2 : n ≤ 9223372036854775807) : int64 n = n :=
  int64_id h1 (by omega)

theorem int_value_entry (buf pre post : List Int) (n : Int)
    (h1 : -9223372036854775808 ≤ n) (h2 : n ≤ 9223372036854775807)
    (hbuf : buf = pre ++ (encode (.int n) ++ post)) :
    int_value buf (entry_of pre.length (.int n)) = some n := by
  obtain ⟨hd, -, hval⟩ := nat_digits_spec n.natAbs
  obtain ⟨d, ds, hcons, hdd, -⟩ := nat_digits_cons n.natAbs
  have hacc : accumulate 0 (nat_digits n.natAbs) = int64 (n.natAbs : Int) := by
    have := accumulate_int64 (nat_digits n.natAbs) 0
    rw [hval] at this
    rw [← this]
    rfl
  simp only [entry_of, int_value]
  by_cases hneg : n < 0
  · have htext : int_text n = 45 :: nat_digits n.natAbs := by simp [int_text, hneg]
    have hb1 : buf = (pre ++ [105]) ++ (45 :: (nat_digits n.natAbs ++ 101 :: post)) := by
      rw [hbuf]; simp [encode, htext]
    have hb2 : buf = (pre ++ [105, 45]) ++ (nat_digits n.natAbs ++ 101 :: post) := by
      rw [hbuf]; simp [encode, htext]
    have hp : peek buf ((pre.length : Int) + 1) = some 45 := by
      have := peek_append_cons (pre ++ [105]) 45 (nat_digits n.natAbs ++ 101 :: post)
      rw [← hb1] at this
      simpa using this
    rw [hp]
    simp only [decide_True, if_true]
    have hl := parse_int_loop_digits 101 (by decide) (nat_digits n.natAbs) (pre ++ [105, 45])
      (101 :: post) (nat_digits n.natAbs).length 0 hd (Nat.le_refl _)
      (fun h => absurd h (Nat.lt_irrefl _))
    rw [← hb2] at hl
    simp only [List.length_append, List.length_cons, List.length_nil, Nat.cast_add,
      Nat.cast_one] at hl
    have hcnt : ((pre.length : Int) + 1 + ((int_text n).length : Nat) - ((pre.length : Int) + 1 + 1)).toNat
        = (nat_digits n.natAbs).length := by
      rw [htext]; simp only [List.length_cons]; push_cast; omega
    unfold parse_int
    rw [hcnt]
    rw [show (pre.length : Int) + 1 + 1 = (pre.length : Int) + ((0 : Nat) + 1 + 1 : Int) by
      push_cast; omega, hl]
    simp only [hacc, int64_neg]
    rw [show -((n.natAbs : Nat) : Int) = n by omega, int64_of_range h1 h2]
  · have htext : int_text n = nat_digits n.natAbs := by simp [int_text, hneg]
    have hb1 : buf = (pre ++ [105]) ++ (d :: (ds ++ 101 :: post)) := by
      rw [hbuf]; simp [encode, htext, hcons]
    have hb2 : buf = (pre ++ [105]) ++ (nat_digits n.natAbs ++ 101 :: post) := by
      rw [hbuf]; simp [encode, htext]
    have hp : peek buf ((pre.length : Int) + 1) = some d := by
      have := peek_append_cons (pre ++ [105]) d (ds ++ 101 :: post)
      rw [← hb1] at this
      simpa using this
    have hd45 : d ≠ 45 := by
      have := isdigit_iff.mp hdd
      omega
    rw [hp]
    simp only [hd45, decide_False, if_false, Bool.false_eq_true]
    have hl := parse_int_loop_digits 101 (by decide) (nat_digits n.natAbs) (pre ++ [105])
      (101 :: post) (nat_digits n.natAbs).length 0 hd (Nat.le_refl _)
      (fun h => absurd h (Nat.lt_irrefl _))
    rw [← hb2] at hl
    simp only [List.length_append, List.length_cons, List.length_nil, Nat.cast_add,
      Nat.cast_one] at hl
    have hcnt : ((pre.length : Int) + 1 + ((int_text n).length : Nat) - ((pre.length : Int) + 1)).toNat
        = (nat_digits n.natAbs).length := by
      rw [htext]; omega
    unfold parse_int
    rw [hcnt]
    rw [show (pre.length : Int) + 1 = (pre.length : Int) + ((0 : Nat) + 1 : Int) by
      push_cast; omega, hl]
    simp only [hacc]
    rw [show ((n.natAbs : Nat) : Int) = n by omega, int64_of_range h1 h2]

/-! ## Integers -/


/-- C11: for every signed 64-bit integer `n`, the buffer `i`, the decimal
text of `n` (with a leading `-` when negative), `e` decodes under every depth
limit of at least 1 to an integer entry over the span of the text, and
`int_value()` of that entry is `n`; `i4e` gives 4 and `i-4e` gives -4. -/
theorem integer_round_trip (n : Int) (h1 : -9223372036854775808 ≤ n)
    (h2 : n ≤ 9223372036854775807) (depth_limit : Int) (hdl : 1 ≤ depth_limit) (fuel : Nat) :
    lazy_bdecode (fuel + 2) (encode (.int n)) depth_limit
      = .returned 0 (.int_e 1 (int_text n).length 0 (1 + (int_text n).length + 1)) ∧
    encode (.int n) = 105 :: (int_text n ++ [101]) ∧
    (lazy_entry.int_e 1 (int_text n).length 0 (1 + (int_text n).length + 1)).type = .int_t ∧
    int_value (encode (.int n))
      (.int_e 1 (int_text n).length 0 (1 + (int_text n).length + 1)) = some n ∧
    (encode (.int 4) = bytes "i4e" ∧ encode (.int (-4)) = bytes "i-4e") := by
  have he : entry_of 0 (.int n)
      = .int_e 1 (int_text n).length 0 (1 + (int_text n).length + 1) := by
    simp [entry_of]
  refine ⟨?_, by simp [encode], rfl, ?_, rfl, rfl⟩
  · unfold lazy_bdecode
    rw [if_neg (by simp [encode])]
    have h := root_run (encode (.int n)) depth_limit (.int n) [] (fuel + 1)
      (value_spec_int _ _ n) (by simp) hdl (by simp [Tree.depth]; omega)
    simp only [iters, Nat.add_zero] at h
    rw [show fuel + 2 = fuel + 1 + 1 from rfl, h, run_at_end _ _ _ _ (by simp), he]
    rfl
  · have := int_value_entry (encode (.int n)) [] [] n h1 h2 (by simp)
    simp only [List.length_nil, Nat.cast_zero] at this
    rw [he] at this
    exact this

/-- Witness of C11 on -4, the test input `i-4e`. -/
theorem integer_round_trip_witness :
    (-9223372036854775808 : Int) ≤ -4 ∧ (-4 : Int) ≤ 9223372036854775807 ∧ (1 : Int) ≤ 1 ∧
    encode (.int (-4)) = bytes "i-4e" ∧
    lazy_bdecode (0 + 2) (encode (.int (-4))) 1
      = .returned 0 (.int_e 1 (int_text (-4)).length 0 (1 + (int_text (-4)).length + 1)) ∧
    int_value (encode (.int (-4)))
      (.int_e 1 (int_text (-4)).length 0 (1 + (int_text (-4)).length + 1)) = some (-4) :=
  ⟨by decide, by decide, by decide, rfl,
    (integer_round_trip (-4) (by decide) (by decide) 1 (by decide) 0).1,
    (integer_round_trip (-4) (by decide) (by decide) 1 (by decide) 0).2.2.2.1⟩

theorem value_spec_str (buf : List Int) (dl : Int) (s : List Int)
    (hsize : buf.length < 2147483648) : value_spec buf dl (.str s) := by
  intro pre post rest ret fuel hbuf _
  obtain ⟨hd, -, hval⟩ := nat_digits_spec s.length
  obtain ⟨d, ds, hcons, hdd, hds⟩ := nat_digits_cons s.length
  have hb : buf = pre ++ d :: (ds ++ 58 :: (s ++ post)) := by
    rw [hbuf]; simp [encode, hcons]
  have hlen : (buf.length : Int) = pre.length + 1 + ds.length + 1 + s.length + post.length := by
    rw [hb]; simp only [List.length_append, List.length_cons]; push_cast; omega
  have hslen : (s.length : Int) < 2147483648 := by omega
  have hv : digits_value 0 (d :: ds) = (s.length : Int) := by rw [← hcons, hval]
  have hparse := parse_int_of_length pre d ds (s ++ post) hdd hds (by rw [hv]; omega)
  rw [← hb, hv] at hparse
  have hpk : peek buf ((pre.length : Int) + 1 + ds.length) = some 58 := by
    have := peek_append_cons (pre ++ d :: ds) 58 (s ++ post)
    rw [show (pre ++ d :: ds) ++ 58 :: (s ++ post) = buf by rw [hb]; simp] at this
    rw [show (pre.length : Int) + 1 + ds.length = ((pre ++ d :: ds).length : Int) by
      simp only [List.length_append, List.length_cons]; push_cast; omega]
    exact this
  simp only [first_byte, hcons, List.headD_cons, iters, Nat.add_zero]
  rw [interpret_string buf d _ _ _ rest ret hdd hparse (by omega) hpk]
  simp only [continue_with]
  have hnd : num_digits (s.length : Int) = (ds.length : Int) + 1 := by
    rw [num_digits_nat_digits s.length (by omega), hcons]
    simp
  have he : construct_string ((pre.length : Int) + 1 + ds.length + 1) (int32 (s.length : Int))
      = entry_of pre.length (.str s) := by
    rw [int32_id (by omega) hslen]
    simp only [construct_string, entry_of, hnd, hcons, List.length_cons]
    congr 1 <;> (push_cast; omega)
  have hs : (pre.length : Int) + 1 + ds.length + 1 + s.length
      = (pre.length : Int) + (encode (.str s)).length := by
    simp only [encode, hcons, List.length_append, List.length_cons]
    push_cast; omega
  rw [he, hs]

theorem list_spec_nil (buf : List Int) (dl : Int) : list_spec buf dl [] := by
  intro pre post b items rest ret fuel hbuf hdepth _
  simp only [encode_list, List.nil_append, Tree.depth_list, Nat.cast_zero, add_zero] at hbuf hdepth
  have hs : (pre.length : Int) < buf.length := by
    rw [hbuf]; simp only [List.length_append, List.length_cons]; push_cast; omega
  have hp : peek buf pre.length = some 101 := by rw [hbuf]; exact peek_append_cons _ _ _
  have h1 := step_close_list buf dl pre.length b none (cap_after items.length) items rest ret hs
    (by simp only [List.length_cons]; push_cast; omega) hp
  simp only [iters_list, encode_list, List.length_nil, Nat.cast_zero, add_zero, Nat.add_zero,
    entries_of, List.append_nil]
  rw [run_succ, h1]
  rfl

theorem set_last_list_placeholder (b : Int) (en : Option Int) (c : Nat)
    (items : List lazy_entry) (child : lazy_entry) :
    set_last (.list_e b en c (items ++ [.none_e])) child = .list_e b en c (items ++ [child]) := by
  simp [set_last]

theorem depth_list_cons (x : Tree) (xs : List Tree) :
    Tree.depth x ≤ Tree.depth_list (x :: xs) ∧ Tree.depth_list xs ≤ Tree.depth_list (x :: xs) := by
  simp only [Tree.depth_list]
  omega

theorem list_spec_cons (buf : List Int) (dl : Int) (x : Tree) (xs : List Tree)
    (hx : value_spec buf dl x) (hxs : list_spec buf dl xs) : list_spec buf dl (x :: xs) := by
  intro pre post b items rest ret fuel hbuf hdepth hn
  simp only [List.length_cons] at hn
  obtain ⟨tl, htl, hne, hfe⟩ := encode_first x
  obtain ⟨hdx, hdxs⟩ := depth_list_cons x xs
  have htlpos : 0 < tl.length := List.length_pos.mpr hne
  have hb1 : buf = pre ++ (encode x ++ (encode_list xs ++ 101 :: post)) := by
    rw [hbuf]; simp [encode_list]
  have hb2 : buf = (pre ++ encode x) ++ (encode_list xs ++ 101 :: post) := by
    rw [hb1]; simp
  have hs : (pre.length : Int) + 1 < buf.length := by
    rw [hb1, htl]; simp only [List.length_append, List.length_cons]; push_cast; omega
  have hp : peek buf pre.length = some (first_byte x) := by
    rw [hb1, htl]; exact peek_append_cons _ _ _
  obtain ⟨g1, g2⟩ := grow_spec items.length
  have g3 : grow items.length (cap_after items.length) ≤ 2147483647 :=
    @cap_after_le (items.length + 1) (by omega)
  have hla : list_append (.list_e b none (cap_after items.length) items)
      = some (.list_e b none (cap_after (items.length + 1)) (items ++ [.none_e])) := by
    simp only [list_append]
    rw [if_pos ⟨g1, g3, g2⟩]
    rfl
  have hbody : body buf (first_byte x) ((pre.length : Int) + 1)
      (.list_e b none (cap_after items.length) items) rest ret
      = interpret buf (first_byte x) ((pre.length : Int) + 1)
          (.none_e :: .list_e b none (cap_after (items.length + 1)) (items ++ [.none_e]) :: rest)
          ret := by
    simp only [body, if_neg hfe, hla]
  have hfuel : fuel + iters_list (x :: xs) + 1 = (fuel + iters_list xs + 1 + iters x) + 1 := by
    simp only [iters_list]; omega
  rw [hfuel, run_succ, step_eq_body buf dl pre.length (first_byte x) _ rest ret (by omega)
    (by simp only [List.length_cons]; push_cast; omega) hp (by omega), hbody]
  rw [hx pre (encode_list xs ++ 101 :: post)
    (lazy_entry.list_e b none (cap_after (items.length + 1)) (items ++ [lazy_entry.none_e]) :: rest)
    ret (fuel + iters_list xs + 1) hb1 (by simp only [List.length_cons]; push_cast; omega)]
  simp only [pop, set_last_list_placeholder]
  have h := hxs (pre ++ encode x) post b (items ++ [entry_of pre.length x]) rest ret fuel hb2
    (by omega) (by simp only [List.length_append, List.length_singleton]; omega)
  simp only [List.length_append, List.length_singleton, Nat.cast_add] at h
  rw [h]
  simp only [encode_list, entries_of, List.length_append, List.length_cons, Nat.cast_add,
    List.append_assoc, List.singleton_append]
  have e1 : ((pre.length : Int) + ((encode x).length : Int) + ((encode_list xs).length : Int))
      = (pre.length : Int) + (((encode x).length : Int) + ((encode_list xs).length : Int)) := by
    omega
  have e2 : items.length + 1 + xs.length = items.length + (xs.length + 1) := by omega
  rw [e1, e2]
  rfl

theorem encode_length_ge (v : Tree) : 2 ≤ (encode v).length := by
  obtain ⟨tl, htl, hne, -⟩ := encode_first v
  have : 0 < tl.length := List.length_pos.mpr hne
  rw [htl]
  simp only [List.length_cons]
  omega

theorem encode_list_length : ∀ xs : List Tree, 2 * xs.length ≤ (encode_list xs).length
  | [] => by simp
  | x :: xs => by
    have := encode_length_ge x
    have := encode_list_length xs
    simp only [encode_list, List.length_append, List.length_cons]
    omega

theorem encode_pairs_length :
    ∀ kvs : List (List Int × Tree), 2 * kvs.length ≤ (encode_pairs kvs).length
  | [] => by simp
  | (k, v) :: kvs => by
    have := encode_length_ge v
    have := encode_pairs_length kvs
    simp only [encode_pairs, List.length_append, List.length_cons]
    omega

theorem value_spec_list (buf : List Int) (dl : Int) (xs : List Tree)
    (hsize : buf.length < 2147483648)
    (hxs : list_spec buf dl xs) : value_spec buf dl (.list xs) := by
  intro pre post rest ret fuel hbuf hdepth
  have hcount : ([] : List lazy_entry).length + xs.length ≤ 1796357632 := by
    have := encode_list_length xs
    have hl : (encode_list xs).length ≤ buf.length := by
      rw [hbuf]; simp only [encode, List.length_append, List.length_cons]; omega
    simp only [List.length_nil]
    omega
  have hb : buf = (pre ++ [108]) ++ (encode_list xs ++ 101 :: post) := by
    rw [hbuf]; simp [encode]
  have hi : interpret buf 108 ((pre.length : Int) + 1) (.none_e :: rest) ret
      = .next ⟨(pre.length : Int) + 1, .list_e pre.length none (cap_after 0) [] :: rest, ret⟩ := by
    simp [interpret, construct_list, cap_after]
  simp only [first_byte, iters]
  rw [hi]
  simp only [continue_with]
  have h := hxs (pre ++ [108]) post pre.length [] rest ret fuel hb
    (by simp only [Tree.depth] at hdepth; push_cast at hdepth; omega) hcount
  simp only [List.length_append, List.length_singleton, Nat.cast_add, Nat.cast_one,
    List.length_nil, Nat.zero_add, List.nil_append] at h
  rw [← Nat.add_assoc, h]
  have e1 : (pre.length : Int) + 1 + ((encode_list xs).length : Int) + 1
      = (pre.length : Int) + ((encode (.list xs)).length : Int) := by
    simp only [encode, List.length_append, List.length_cons, List.length_nil]
    push_cast; omega
  simp only [entry_of]
  rw [← e1]

theorem pairs_spec_nil (buf : List Int) (dl : Int) : pairs_spec buf dl [] := by
  intro pre post b items rest ret fuel hbuf hdepth _
  simp only [encode_pairs, List.nil_append, Tree.depth_pairs, Nat.cast_zero, add_zero]
    at hbuf hdepth
  have hs : (pre.length : Int) < buf.length := by
    rw [hbuf]; simp only [List.length_append, List.length_cons]; push_cast; omega
  have hp : peek buf pre.length = some 101 := by rw [hbuf]; exact peek_append_cons _ _ _
  have h1 : step buf dl ⟨pre.length, .dict_e b none (cap_after items.length) items :: rest, ret⟩
      = .next ⟨(pre.length : Int) + 1,
          (pop (.dict_e b (some ((pre.length : Int) + 1)) (cap_after items.length) items :: rest)
            ret).1,
          (pop (.dict_e b (some ((pre.length : Int) + 1)) (cap_after items.length) items :: rest)
            ret).2⟩ := by
    rw [step_eq_body _ _ _ 101 _ _ _ hs (by simp only [List.length_cons]; push_cast; omega) hp
      (by simp)]
    simp [body, close_container, set_end]
  simp only [iters_pairs, encode_pairs, List.length_nil, Nat.cast_zero, add_zero, Nat.add_zero,
    pairs_of, List.append_nil]
  rw [run_succ, h1]
  rfl

/-- The dictionary branch on a key with a canonical length prefix `d :: ds`,
followed by the token `t1` of the value and at least one more byte. -/
theorem dict_key_canonical (buf pre : List Int) (d : Int) (ds k : List Int) (t1 : Int)
    (more : List Int) (b : Int) (items : List (Int × lazy_entry)) (rest : List lazy_entry)
    (hbuf : buf = pre ++ d :: (ds ++ 58 :: (k ++ t1 :: more)))
    (hd : isdigit d = true) (hds : ∀ x ∈ ds, isdigit x = true)
    (hv : digits_value 0 (d :: ds) = (k.length : Int)) (hmore : more ≠ [])
    (hsize : buf.length < 2147483648) (hitems : items.length < 1796357632) :
    dict_key buf d ((pre.length : Int) + 1)
        (.dict_e b none (cap_after items.length) items :: rest)
      = .value t1 ((pre.length : Int) + 1 + ds.length + 1 + k.length + 1)
          (.none_e :: .dict_e b none (cap_after (items.length + 1))
            (items ++ [((pre.length : Int) + 1 + ds.length + 1, .none_e)]) :: rest) := by
  have hmpos : 0 < more.length := List.length_pos.mpr hmore
  have hlen : (buf.length : Int)
      = pre.length + 1 + ds.length + 1 + k.length + 1 + more.length := by
    rw [hbuf]; simp only [List.length_append, List.length_cons]; push_cast; omega
  have hparse := parse_int_of_length pre d ds (k ++ t1 :: more) hd hds (by rw [hv]; omega)
  rw [← hbuf, hv] at hparse
  have hpk : peek buf ((pre.length : Int) + 1 + ds.length) = some 58 := by
    have := peek_append_cons (pre ++ d :: ds) 58 (k ++ t1 :: more)
    rw [show (pre ++ d :: ds) ++ 58 :: (k ++ t1 :: more) = buf by rw [hbuf]; simp] at this
    rw [show (pre.length : Int) + 1 + ds.length = ((pre ++ d :: ds).length : Int) by
      simp only [List.length_append, List.length_cons]; push_cast; omega]
    exact this
  have hpt : peek buf ((pre.length : Int) + 1 + ds.length + 1 + k.length) = some t1 := by
    have := peek_append_cons (pre ++ d :: (ds ++ 58 :: k)) t1 more
    rw [show (pre ++ d :: (ds ++ 58 :: k)) ++ t1 :: more = buf by rw [hbuf]; simp] at this
    rw [show (pre.length : Int) + 1 + ds.length + 1 + k.length
        = ((pre ++ d :: (ds ++ 58 :: k)).length : Int) by
      simp only [List.length_append, List.length_cons]; push_cast; omega]
    exact this
  obtain ⟨g1, g2⟩ := grow_spec items.length
  have g3 : grow items.length (cap_after items.length) ≤ 2147483647 :=
    @cap_after_le (items.length + 1) (by omega)
  have hda : dict_append (.dict_e b none (cap_after items.length) items)
        ((pre.length : Int) + 1 + ds.length + 1)
      = some (.dict_e b none (cap_after (items.length + 1))
          (items ++ [((pre.length : Int) + 1 + ds.length + 1, .none_e)])) := by
    simp only [dict_append]
    rw [if_pos ⟨g1, g3, g2⟩]
    rfl
  unfold dict_key
  rw [hparse]
  simp only
  rw [if_neg (by omega), hpk]
  simp only [ne_eq, not_true_eq_false, if_false]
  unfold dict_value
  have hr1 : reset_if (decide ((pre.length : Int) + 1 + ds.length + 1 = buf.length))
      (.dict_e b none (cap_after items.length) items :: rest)
      = .dict_e b none (cap_after items.length) items :: rest := by
    simp only [reset_if]
    rw [if_neg (by simp; omega)]
  rw [hr1]
  simp only
  rw [hda]
  simp only
  rw [hpt]
  simp only [reset_if]
  rw [if_neg (by simp; omega)]

theorem set_last_dict_placeholder (b : Int) (en : Option Int) (c : Nat)
    (items : List (Int × lazy_entry)) (name : Int) (child : lazy_entry) :
    set_last (.dict_e b en c (items ++ [(name, .none_e)])) child
      = .dict_e b en c (items ++ [(name, child)]) := by
  simp [set_last]

theorem depth_pairs_cons (k : List Int) (v : Tree) (kvs : List (List Int × Tree)) :
    Tree.depth v ≤ Tree.depth_pairs ((k, v) :: kvs) ∧
    Tree.depth_pairs kvs ≤ Tree.depth_pairs ((k, v) :: kvs) := by
  simp only [Tree.depth_pairs]
  omega

theorem pairs_spec_cons (buf : List Int) (dl : Int) (k : List Int) (v : Tree)
    (kvs : List (List Int × Tree)) (hsize : buf.length < 2147483648)
    (hv : value_spec buf dl v) (hkvs : pairs_spec buf dl kvs) :
    pairs_spec buf dl ((k, v) :: kvs) := by
  intro pre post b items rest ret fuel hbuf hdepth hn
  simp only [List.length_cons] at hn
  obtain ⟨tl, htl, hne, hfe⟩ := encode_first v
  obtain ⟨hdv, hdkvs⟩ := depth_pairs_cons k v kvs
  obtain ⟨-, -, hval⟩ := nat_digits_spec k.length
  obtain ⟨d, ds, hcons, hdd, hds⟩ := nat_digits_cons k.length
  have htlpos : 0 < tl.length := List.length_pos.mpr hne
  have hd101 : d ≠ 101 := (digit_not_token hdd).2.2.2
  have hb0 : buf = pre ++ d :: (ds ++ 58 :: (k ++ first_byte v ::
      (tl ++ (encode_pairs kvs ++ 101 :: post)))) := by
    rw [hbuf]; simp [encode_pairs, hcons, htl]
  have hb1 : buf = (pre ++ (nat_digits k.length ++ 58 :: k)) ++
      (encode v ++ (encode_pairs kvs ++ 101 :: post)) := by
    rw [hbuf]; simp [encode_pairs]
  have hb2 : buf = (pre ++ (nat_digits k.length ++ 58 :: k) ++ encode v) ++
      (encode_pairs kvs ++ 101 :: post) := by
    rw [hb1]; simp
  have hs : (pre.length : Int) + 1 < buf.length := by
    rw [hb0]; simp only [List.length_append, List.length_cons]; push_cast; omega
  have hp : peek buf pre.length = some d := by
    rw [hb0]; exact peek_append_cons _ _ _
  have hkey := dict_key_canonical buf pre d ds k (first_byte v)
    (tl ++ (encode_pairs kvs ++ 101 :: post)) b items rest hb0 hdd hds
    (by rw [← hcons, hval]) (by simp) hsize (by omega)
  have hbody : body buf d ((pre.length : Int) + 1)
      (.dict_e b none (cap_after items.length) items) rest ret
      = interpret buf (first_byte v) ((pre.length : Int) + 1 + ds.length + 1 + k.length + 1)
          (.none_e :: .dict_e b none (cap_after (items.length + 1))
            (items ++ [((pre.length : Int) + 1 + ds.length + 1, lazy_entry.none_e)]) :: rest)
          ret := by
    simp only [body, if_neg hd101, hkey]
  have hfuel : fuel + iters_pairs ((k, v) :: kvs) + 1
      = (fuel + iters_pairs kvs + 1 + iters v) + 1 := by
    simp only [iters_pairs]; omega
  have hq : (pre.length : Int) + 1 + ds.length + 1 + k.length
      = ((pre ++ (nat_digits k.length ++ 58 :: k)).length : Int) := by
    simp only [hcons, List.length_append, List.length_cons]; push_cast; omega
  rw [hfuel, run_succ, step_eq_body buf dl pre.length d _ rest ret (by omega)
    (by simp only [List.length_cons]; push_cast; omega) hp (by omega), hbody, hq]
  rw [hv (pre ++ (nat_digits k.length ++ 58 :: k)) (encode_pairs kvs ++ 101 :: post)
    (lazy_entry.dict_e b none (cap_after (items.length + 1))
      (items ++ [((pre.length : Int) + 1 + ds.length + 1, lazy_entry.none_e)]) :: rest)
    ret (fuel + iters_pairs kvs + 1) hb1 (by simp only [List.length_cons]; push_cast; omega)]
  simp only [pop, set_last_dict_placeholder]
  have h := hkvs (pre ++ (nat_digits k.length ++ 58 :: k) ++ encode v) post b
    (items ++ [((pre.length : Int) + 1 + ds.length + 1,
      entry_of ((pre ++ (nat_digits k.length ++ 58 :: k)).length : Int) v)]) rest ret fuel hb2
    (by omega) (by simp only [List.length_append, List.length_singleton]; omega)
  rw [show ((pre ++ (nat_digits k.length ++ 58 :: k) ++ encode v).length : Int)
      = ((pre ++ (nat_digits k.length ++ 58 :: k)).length : Int) + (encode v).length by
    simp only [List.length_append]; push_cast; omega] at h
  simp only [@List.length_append _ items, List.length_singleton] at h
  rw [h]
  have e0 : ((pre ++ (nat_digits k.length ++ 58 :: k)).length : Int)
      = (pre.length : Int) + (nat_digits k.length).length + 1 + k.length := by
    simp only [List.length_append, List.length_cons]; push_cast; omega
  have e1 : ((encode_pairs ((k, v) :: kvs)).length : Int)
      = (nat_digits k.length).length + 1 + k.length + (encode v).length
        + (encode_pairs kvs).length := by
    simp only [encode_pairs, List.length_append, List.length_cons]; push_cast; omega
  have e2 : (pre.length : Int) + 1 + ds.length + 1
      = (pre.length : Int) + (nat_digits k.length).length + 1 := by
    rw [hcons]; simp only [List.length_cons]; push_cast; omega
  have e3 : items.length + 1 + kvs.length = items.length + ((k, v) :: kvs).length := by
    simp only [List.length_cons]; omega
  have e4 : (pre.length : Int) + (nat_digits k.length).length + 1 + k.length + (encode v).length
        + (encode_pairs kvs).length + 1
      = (pre.length : Int) + (encode_pairs ((k, v) :: kvs)).length + 1 := by
    rw [e1]; omega
  simp only [pairs_of, List.append_assoc, List.singleton_append]
  rw [e0, e2, e3, e4]
  rfl

theorem value_spec_dict (buf : List Int) (dl : Int) (kvs : List (List Int × Tree))
    (hsize : buf.length < 2147483648)
    (hkvs : pairs_spec buf dl kvs) : value_spec buf dl (.dict kvs) := by
  intro pre post rest ret fuel hbuf hdepth
  have hcount : ([] : List (Int × lazy_entry)).length + kvs.length ≤ 1796357632 := by
    have := encode_pairs_length kvs
    have hl : (encode_pairs kvs).length ≤ buf.length := by
      rw [hbuf]; simp only [encode, List.length_append, List.length_cons]; omega
    simp only [List.length_nil]
    omega
  have hb : buf = (pre ++ [100]) ++ (encode_pairs kvs ++ 101 :: post) := by
    rw [hbuf]; simp [encode]
  have hi : interpret buf 100 ((pre.length : Int) + 1) (.none_e :: rest) ret
      = .next ⟨(pre.length : Int) + 1, .dict_e pre.length none (cap_after 0) [] :: rest, ret⟩ := by
    simp [interpret, construct_dict, cap_after]
  simp only [first_byte, iters]
  rw [hi]
  simp only [continue_with]
  have h := hkvs (pre ++ [100]) post pre.length [] rest ret fuel hb
    (by simp only [Tree.depth] at hdepth; push_cast at hdepth; omega) hcount
  simp only [List.length_append, List.length_singleton, Nat.cast_add, Nat.cast_one,
    List.length_nil, Nat.zero_add, List.nil_append] at h
  rw [← Nat.add_assoc, h]
  have e1 : (pre.length : Int) + 1 + ((encode_pairs kvs).length : Int) + 1
      = (pre.length : Int) + ((encode (.dict kvs)).length : Int) := by
    simp only [encode, List.length_append, List.length_cons, List.length_nil]
    push_cast; omega
  simp only [entry_of]
  rw [← e1]

mutual
theorem value_spec_all (buf : List Int) (dl : Int) (hsize : buf.length < 2147483648) :
    ∀ v : Tree, value_spec buf dl v
  | .int n => value_spec_int buf dl n
  | .str s => value_spec_str buf dl s hsize
  | .list xs => value_spec_list buf dl xs hsize (list_spec_all buf dl hsize xs)
  | .dict kvs => value_spec_dict buf dl kvs hsize (pairs_spec_all buf dl hsize kvs)
theorem list_spec_all (buf : List Int) (dl : Int) (hsize : buf.length < 2147483648) :
    ∀ xs : List Tree, list_spec buf dl xs
  | [] => list_spec_nil buf dl
  | x :: xs =>
    list_spec_cons buf dl x xs (value_spec_all buf dl hsize x) (list_spec_all buf dl hsize xs)
theorem pairs_spec_all (buf : List Int) (dl : Int) (hsize : buf.length < 2147483648) :
    ∀ kvs : List (List Int × Tree), pairs_spec buf dl kvs
  | [] => pairs_spec_nil buf dl
  | (k, v) :: kvs =>
    pairs_spec_cons buf dl k v kvs hsize (value_spec_all buf dl hsize v)
      (pairs_spec_all buf dl hsize kvs)
end

/-- The decoder on the canonical encoding of a tree: it returns 0 and the
entry of the tree at offset 0. -/
theorem decode_encode (v : Tree) (dl : Int) (fuel : Nat) (hdl : 1 ≤ dl)
    (hdepth : (v.depth : Int) ≤ dl) (hsize : (encode v).length < 2147483648) :
    lazy_bdecode (fuel + iters v + 2) (encode v) dl = .returned 0 (entry_of 0 v) := by
  obtain ⟨tl, htl, -, -⟩ := encode_first v
  unfold lazy_bdecode
  rw [if_neg (by rw [htl]; simp)]
  have h := root_run (encode v) dl v [] (fuel + 1) (value_spec_all _ dl hsize v) (by simp) hdl
    hdepth
  rw [show fuel + iters v + 2 = fuel + 1 + iters v + 1 by omega, h,
    run_at_end _ _ _ _ (by simp)]
  rfl

/-! ## Reading the decoded tree back -/


theorem span_append (a s c : List Int) :
    span (a ++ (s ++ c)) (a.length : Int) (s.length : Int) = some s := by
  unfold span
  rw [if_pos ⟨by omega, by omega, by simp only [List.length_append]; push_cast; omega⟩]
  simp

theorem m_begin_entry_of (q : Int) (v : Tree) : (entry_of q v).m_begin? = some q := by
  cases v <;> simp [entry_of, lazy_entry.m_begin?]

mutual
theorem readback_entry (buf : List Int) : ∀ (v : Tree) (pre post : List Int),
    buf = pre ++ (encode v ++ post) → Tree.ints_ok v →
    readback buf (entry_of pre.length v) = some v
  | .int n, pre, post, hbuf, hok => by
    simp only [Tree.ints_ok] at hok
    have h := int_value_entry buf pre post n hok.1 hok.2 hbuf
    simp only [entry_of] at h ⊢
    simp only [readback, h, Option.map_some']
  | .str s, pre, post, hbuf, _ => by
    have hb : buf = (pre ++ (nat_digits s.length ++ [58])) ++ (s ++ post) := by
      rw [hbuf]; simp [encode]
    have h := span_append (pre ++ (nat_digits s.length ++ [58])) s post
    rw [← hb] at h
    simp only [List.length_append, List.length_singleton, Nat.cast_add, Nat.cast_one] at h
    simp only [entry_of, readback]
    rw [show (pre.length : Int) + ((nat_digits s.length).length : Int) + 1
      = (pre.length : Int) + (((nat_digits s.length).length : Int) + 1) by omega, h]
    rfl
  | .list xs, pre, post, hbuf, hok => by
    simp only [Tree.ints_ok] at hok
    have hb : buf = (pre ++ [108]) ++ (encode_list xs ++ (101 :: post)) := by
      rw [hbuf]; simp [encode]
    have h := readback_entries buf xs (pre ++ [108]) (101 :: post) hb hok
    simp only [List.length_append, List.length_singleton, Nat.cast_add, Nat.cast_one] at h
    simp only [entry_of, readback, h, Option.map_some']
  | .dict kvs, pre, post, hbuf, hok => by
    simp only [Tree.ints_ok] at hok
    have hb : buf = (pre ++ [100]) ++ (encode_pairs kvs ++ (101 :: post)) := by
      rw [hbuf]; simp [encode]
    have h := readback_pairs_of buf kvs (pre ++ [100]) (101 :: post) hb hok
    simp only [List.length_append, List.length_singleton, Nat.cast_add, Nat.cast_one] at h
    simp only [entry_of, readback, h, Option.map_some']
theorem readback_entries (buf : List Int) : ∀ (xs : List Tree) (pre post : List Int),
    buf = pre ++ (encode_list xs ++ post) → Tree.ints_ok_list xs →
    readback_list buf (entries_of pre.length xs) = some xs
  | [], _, _, _, _ => by simp [entries_of, readback_list]
  | x :: xs, pre, post, hbuf, hok => by
    simp only [Tree.ints_ok_list] at hok
    have hb1 : buf = pre ++ (encode x ++ (encode_list xs ++ post)) := by
      rw [hbuf]; simp [encode_list]
    have hb2 : buf = (pre ++ encode x) ++ (encode_list xs ++ post) := by
      rw [hb1]; simp
    have h1 := readback_entry buf x pre (encode_list xs ++ post) hb1 hok.1
    have h2 := readback_entries buf xs (pre ++ encode x) post hb2 hok.2
    simp only [List.length_append, Nat.cast_add] at h2
    simp only [entries_of, readback_list, h1, h2]
theorem readback_pairs_of (buf : List Int) : ∀ (kvs : List (List Int × Tree))
    (pre post : List Int),
    buf = pre ++ (encode_pairs kvs ++ post) → Tree.ints_ok_pairs kvs →
    readback_pairs buf (pairs_of pre.length kvs) = some kvs
  | [], _, _, _, _ => by simp [pairs_of, readback_pairs]
  | (k, v) :: kvs, pre, post, hbuf, hok => by
    simp only [Tree.ints_ok_pairs] at hok
    have hb0 : buf = (pre ++ (nat_digits k.length ++ [58])) ++
        (k ++ (encode v ++ (encode_pairs kvs ++ post))) := by
      rw [hbuf]; simp [encode_pairs]
    have hb1 : buf = (pre ++ (nat_digits k.length ++ 58 :: k)) ++
        (encode v ++ (encode_pairs kvs ++ post)) := by
      rw [hbuf]; simp [encode_pairs]
    have hb2 : buf = (pre ++ (nat_digits k.length ++ 58 :: k) ++ encode v) ++
        (encode_pairs kvs ++ post) := by
      rw [hb1]; simp
    have h0 := span_append (pre ++ (nat_digits k.length ++ [58])) k
      (encode v ++ (encode_pairs kvs ++ post))
    rw [← hb0] at h0
    have h1 := readback_entry buf v (pre ++ (nat_digits k.length ++ 58 :: k))
      (encode_pairs kvs ++ post) hb1 hok.1
    have h2 := readback_pairs_of buf kvs (pre ++ (nat_digits k.length ++ 58 :: k) ++ encode v)
      post hb2 hok.2
    have e1 : ((pre ++ (nat_digits k.length ++ [58])).length : Int)
        = (pre.length : Int) + (nat_digits k.length).length + 1 := by
      simp only [List.length_append, List.length_singleton]; push_cast; omega
    have e2 : ((pre ++ (nat_digits k.length ++ 58 :: k)).length : Int)
        = (pre.length : Int) + (nat_digits k.length).length + 1 + k.length := by
      simp only [List.length_append, List.length_cons]; push_cast; omega
    have e3 : ((pre ++ (nat_digits k.length ++ 58 :: k) ++ encode v).length : Int)
        = (pre.length : Int) + (nat_digits k.length).length + 1 + k.length
          + (encode v).length := by
      simp only [List.length_append, List.length_cons]; push_cast; omega
    rw [e1] at h0
    rw [e2] at h1
    rw [e3] at h2
    have hk : dict_key_bytes buf
        ((pre.length : Int) + (nat_digits k.length).length + 1,
          entry_of ((pre.length : Int) + (nat_digits k.length).length + 1 + k.length) v)
        = some k := by
      simp only [dict_key_bytes, m_begin_entry_of]
      rw [show (pre.length : Int) + (nat_digits k.length).length + 1 + k.length
          - ((pre.length : Int) + (nat_digits k.length).length + 1) = (k.length : Int) by omega]
      exact h0
    simp only [pairs_of, readback_pairs, hk, h1, h2]
end

/-! ## Round trip -/




/-- C1 (amended): for every tree of integers in the signed 64-bit range, byte
strings, lists and dictionaries whose containers nest at most `depth_limit`
deep, with `depth_limit >= 1` and a canonical encoding shorter than 2^31
bytes, `lazy_bdecode` on the canonical encoding returns 0 as soon as the
iteration budget reaches `iters t + 2`, the result is the tree of entries
`entry_of 0 t`, and reading that result back through the entry types,
`int_value()`, the string spans, the list order and the dictionary
(key, value) order gives the original tree. -/
theorem canonical_round_trip (t : Tree) (depth_limit : Int) (fuel : Nat)
    (hdl : 1 ≤ depth_limit) (hdepth : (t.depth : Int) ≤ depth_limit)
    (hints : t.ints_ok) (hsize : (encode t).length < 2147483648) :
    lazy_bdecode (fuel + iters t + 2) (encode t) depth_limit
        = .returned 0 (entry_of 0 t)
      ∧ readback (encode t) (entry_of 0 t) = some t := by
  refine ⟨decode_encode t depth_limit fuel hdl hdepth hsize, ?_⟩
  have h := readback_entry (encode t) t [] [] (by simp) hints
  simpa using h

/-- Witness of C1 on the dictionary `d1:ali4e2:xyee` with `depth_limit = 2`:
the call returns 0 and the result reads back as the original tree. -/
theorem canonical_round_trip_witness :
    (1 : Int) ≤ 2
      ∧ ((Tree.dict [([97], .list [.int 4, .str [120, 121]])]).depth : Int) ≤ 2
      ∧ (Tree.dict [([97], .list [.int 4, .str [120, 121]])]).ints_ok
      ∧ (encode (.dict [([97], .list [.int 4, .str [120, 121]])])).length < 2147483648
      ∧ encode (.dict [([97], .list [.int 4, .str [120, 121]])]) = bytes "d1:ali4e2:xyee"
      ∧ (lazy_bdecode (0 + iters (.dict [([97], .list [.int 4, .str [120, 121]])]) + 2)
            (encode (.dict [([97], .list [.int 4, .str [120, 121]])])) 2
          = .returned 0 (entry_of 0 (.dict [([97], .list [.int 4, .str [120, 121]])]))
        ∧ readback (encode (.dict [([97], .list [.int 4, .str [120, 121]])]))
            (entry_of 0 (.dict [([97], .list [.int 4, .str [120, 121]])]))
          = some (.dict [([97], .list [.int 4, .str [120, 121]])])) :=
  ⟨by decide, by decide, by simp [Tree.ints_ok, Tree.ints_ok_pairs, Tree.ints_ok_list],
    by decide, by rfl,
    canonical_round_trip (.dict [([97], .list [.int 4, .str [120, 121]])]) 2 0
      (by decide) (by decide)
      (by simp [Tree.ints_ok, Tree.ints_ok_pairs, Tree.ints_ok_list]) (by decide)⟩

/-- C1 as stated fails with `depth_limit = 0`: the tree `4` has no container,
its integer is in range and its canonical encoding is `i4e`, yet the call
returns -1 with the `None` entry whatever the iteration budget, because the
stack holds the root entry when the depth check of line 91 runs. -/
theorem scalar_fails_at_depth_limit_zero :
    ((Tree.int 4).depth : Int) ≤ 0 ∧ (Tree.int 4).ints_ok
      ∧ encode (.int 4) = bytes "i4e"
      ∧ ∀ fuel : Nat, lazy_bdecode (fuel + 1) (encode (.int 4)) 0
          = .returned (-1) .none_e := by
  refine ⟨by decide, by simp [Tree.ints_ok], by rfl, ?_⟩
  intro fuel
  have he : encode (.int 4) = [105, 52, 101] := by rfl
  rw [he]
  unfold lazy_bdecode
  rw [if_neg (by simp), run_succ, step_depth_exceeded _ _ _ _ _ _ (by simp) (by simp)]
  rfl

/-! ## Bytes after the root value -/


theorem run_of_state_at (buf : List Int) (dl : Int) (k : Nat) :
    ∀ (n : Nat) (st0 st : State), state_at buf dl n st0 = some st →
      run buf dl (n + k) st0 = run buf dl k st
  | 0, st0, st, h => by
    simp only [state_at, Option.some.injEq] at h
    subst h; simp
  | n + 1, st0, st, h => by
    simp only [state_at] at h
    rw [show n + 1 + k = (n + k) + 1 by omega, run_succ]
    split at h
    · simp at h
    · rename_i st2 hst
      rw [hst]
      exact run_of_state_at buf dl k n st2 st h

theorem run_empty_stack (buf : List Int) (dl : Int) (k : Nat) (st : State)
    (h : st.stack = []) : run buf dl (k + 1) st = .returned 0 st.ret := by
  have hs : step buf dl st = .done (.returned 0 st.ret) := by
    simp only [step, h, collapse]
    split <;> rfl
  rw [run_succ, hs]
  rfl

set_option maxRecDepth 100000 in
/-- C21: the buffer `d1:ad1:b7:i1eei7e/0:` ends in a dictionary key whose
length prefix evaluates to -10 and whose `:` is the last byte.  Line 111
calls `fail_bdecode(ret)` without returning, the cursor goes back to offset
10, and after six iterations the stack is empty with the integer `7` in
`ret`: the call returns 0.  With one more byte `x` behind the buffer line 111
does not fire and the call returns -1 with the `None` entry.  Both results
hold for every iteration budget of at least 7. -/
theorem trailing_byte_changes_result :
    state_at (bytes "d1:ad1:b7:i1eei7e/0:") 1000 6 ⟨0, [.none_e], .none_e⟩
        = some ⟨17, [], .int_e 15 1 14 17⟩
      ∧ (∀ fuel : Nat, lazy_bdecode (fuel + 7) (bytes "d1:ad1:b7:i1eei7e/0:") 1000
          = .returned 0 (.int_e 15 1 14 17))
      ∧ (∀ fuel : Nat,
          lazy_bdecode (fuel + 7) (bytes "d1:ad1:b7:i1eei7e/0:" ++ bytes "x") 1000
            = .returned (-1) .none_e) := by
  have h6 : state_at (bytes "d1:ad1:b7:i1eei7e/0:") 1000 6 ⟨0, [.none_e], .none_e⟩
      = some ⟨17, [], .int_e 15 1 14 17⟩ := by rfl
  have h5 : state_at (bytes "d1:ad1:b7:i1eei7e/0:" ++ bytes "x") 1000 5
      ⟨0, [.none_e], .none_e⟩
      = some ⟨14, [.dict_e 0 none 5 [(3, .dict_e 4 (some 14) 5
          [(7, .string_e 10 7 8 17), (20, .int_e 11 1 10 13)])]], .none_e⟩ := by rfl
  refine ⟨h6, ?_, ?_⟩
  · intro fuel
    unfold lazy_bdecode
    rw [if_neg (by decide), show fuel + 7 = 6 + (fuel + 1) by omega,
      run_of_state_at _ _ _ _ _ _ h6, run_empty_stack _ _ _ _ rfl]
  · intro fuel
    unfold lazy_bdecode
    rw [if_neg (by decide), show fuel + 7 = 5 + (fuel + 2) by omega,
      run_of_state_at _ _ _ _ _ _ h5, run_succ]
    rfl

theorem peek_some_lt {buf : List Int} {p c : Int} (h : peek buf p = some c) :
    0 ≤ p ∧ p < buf.length := by
  unfold peek at h
  split at h
  · rename_i hp
    have := (List.getElem?_eq_some_iff.mp h).1
    omega
  · simp at h

theorem peek_append_left {b : List Int} (t : List Int) {p c : Int}
    (h : peek b p = some c) : peek (b ++ t) p = some c := by
  have hp := peek_some_lt h
  unfold peek at h ⊢
  rw [if_pos hp.1] at h ⊢
  rw [List.getElem?_append_left (by omega)]
  exact h

theorem parse_int_loop_append (b t : List Int) (d : Int) :
    ∀ (n m : Nat) (start val p len : Int), n ≤ m →
      parse_int_loop b d n start val = some (some p, len) → peek b p = some d →
      parse_int_loop (b ++ t) d m start val = some (some p, len)
  | 0, m, start, val, p, len, _, h, hp => by
    simp only [parse_int_loop, Option.some.injEq, Prod.mk.injEq] at h
    obtain ⟨h1, h2⟩ := h
    subst h1; subst h2
    cases m with
    | zero => rfl
    | succ m => simp only [parse_int_loop, peek_append_left t hp, if_true]
  | n + 1, m, start, val, p, len, hnm, h, hp => by
    obtain ⟨m, rfl⟩ : ∃ m1, m = m1 + 1 := ⟨m - 1, by omega⟩
    simp only [parse_int_loop] at h ⊢
    cases hc : peek b start with
    | none => rw [hc] at h; simp at h
    | some c =>
      rw [hc] at h
      rw [peek_append_left t hc]
      simp only at h ⊢
      by_cases hd : c = d
      · rw [if_pos hd] at h ⊢; exact h
      · rw [if_neg hd] at h ⊢
        by_cases hdig : isdigit c = false
        · rw [if_pos hdig] at h; simp at h
        · rw [if_neg hdig] at h ⊢
          exact parse_int_loop_append b t d n m _ _ p len (by omega) h hp

theorem find_char_loop_append (b t : List Int) (d : Int) :
    ∀ (n m : Nat) (start p : Int), n ≤ m →
      find_char_loop b d n start = some p → peek b p = some d →
      find_char_loop (b ++ t) d m start = some p
  | 0, m, start, p, _, h, hp => by
    simp only [find_char_loop, Option.some.injEq] at h
    subst h
    cases m with
    | zero => rfl
    | succ m => simp only [find_char_loop, peek_append_left t hp, if_true]
  | n + 1, m, start, p, hnm, h, hp => by
    obtain ⟨m, rfl⟩ : ∃ m1, m = m1 + 1 := ⟨m - 1, by omega⟩
    simp only [find_char_loop] at h ⊢
    cases hc : peek b start with
    | none => rw [hc] at h; simp at h
    | some c =>
      rw [hc] at h
      rw [peek_append_left t hc]
      simp only at h ⊢
      by_cases hd : c = d
      · rw [if_pos hd] at h ⊢; exact h
      · rw [if_neg hd] at h ⊢
        exact find_char_loop_append b t d n m _ p (by omega) h hp

/-- The loop of `find_char` stops at the delimiter or after `n` bytes. -/
theorem find_char_loop_stop (b : List Int) (d : Int) :
    ∀ (n : Nat) (start p : Int), find_char_loop b d n start = some p →
      p = start + n ∨ peek b p = some d
  | 0, start, p, h => by
    simp only [find_char_loop, Option.some.injEq] at h
    left; simp [h]
  | n + 1, start, p, h => by
    simp only [find_char_loop] at h
    cases hc : peek b start with
    | none => rw [hc] at h; simp at h
    | some c =>
      rw [hc] at h
      simp only at h
      by_cases hd : c = d
      · rw [if_pos hd] at h
        simp only [Option.some.injEq] at h
        subst h; subst hd
        right; exact hc
      · rw [if_neg hd] at h
        rcases find_char_loop_stop b d n _ p h with h1 | h1
        · left; push_cast; omega
        · right; exact h1

theorem parse_int_append (b t : List Int) (start val p len : Int)
    (h : parse_int b start b.length 58 val = some (some p, len))
    (hp : peek b p = some 58) :
    parse_int (b ++ t) start (b ++ t).length 58 val = some (some p, len) := by
  unfold parse_int at h ⊢
  refine parse_int_loop_append b t 58 _ _ start val p len ?_ h hp
  simp only [List.length_append]; push_cast; omega

theorem find_char_append (b t : List Int) (start p : Int) (hs : start ≤ b.length)
    (h : find_char b start b.length 101 = some p) (hp : p ≠ b.length) :
    find_char (b ++ t) start (b ++ t).length 101 = some p
      ∧ p ≠ ((b ++ t).length : Int) := by
  unfold find_char at h ⊢
  have hd : peek b p = some 101 := by
    rcases find_char_loop_stop b 101 _ start p h with h1 | h1
    · exfalso; omega
    · exact h1
  refine ⟨find_char_loop_append b t 101 _ _ start p ?_ h hd, ?_⟩
  · simp only [List.length_append]; push_cast; omega
  · have := peek_some_lt hd
    simp only [List.length_append]; push_cast; omega

theorem interpret_append (b t : List Int) (tok start : Int) (stack : List lazy_entry)
    (ret : lazy_entry) (st1 : State) (hs : start ≤ b.length)
    (h : interpret b tok start stack ret = .next st1) :
    interpret (b ++ t) tok start stack ret = .next st1 := by
  unfold interpret at h ⊢
  split
  · rename_i rest
    simp only at h
    by_cases h1 : tok = 100
    · rw [if_pos h1] at h ⊢; exact h
    rw [if_neg h1] at h ⊢
    by_cases h2 : tok = 108
    · rw [if_pos h2] at h ⊢; exact h
    rw [if_neg h2] at h ⊢
    by_cases h3 : tok = 105
    · rw [if_pos h3] at h ⊢
      cases hf : find_char b start b.length 101 with
      | none => rw [hf] at h; simp at h
      | some p =>
        rw [hf] at h
        simp only at h
        by_cases hpe : p = b.length
        · rw [if_pos hpe] at h; simp [fail_bdecode] at h
        · rw [if_neg hpe] at h
          obtain ⟨hf2, hpe2⟩ := find_char_append b t start p hs hf hpe
          rw [hf2]
          simp only
          rw [if_neg hpe2]
          exact h
    rw [if_neg h3] at h ⊢
    by_cases h4 : isdigit tok = false
    · rw [if_pos h4] at h; simp [fail_bdecode] at h
    rw [if_neg h4] at h ⊢
    cases hq : parse_int b start b.length 58 (tok - 48) with
    | none => rw [hq] at h; simp at h
    | some r =>
      obtain ⟨op, len⟩ := r
      cases op with
      | none => rw [hq] at h; simp [fail_bdecode] at h
      | some p =>
        rw [hq] at h
        simp only at h
        by_cases h5 : p + len + 1 > b.length
        · rw [if_pos h5] at h; simp [fail_bdecode] at h
        rw [if_neg h5] at h
        cases hc : peek b p with
        | none => rw [hc] at h; simp at h
        | some c =>
          rw [hc] at h
          simp only at h
          by_cases h6 : c ≠ 58
          · rw [if_pos h6] at h; simp [fail_bdecode] at h
          rw [if_neg h6] at h
          have hc58 : c = 58 := by simpa using h6
          subst hc58
          rw [parse_int_append b t start _ p len hq hc]
          simp only
          rw [if_neg (by simp only [List.length_append]; push_cast; omega),
            peek_append_left t hc]
          simp only
          rw [if_neg h6]
          exact h
  · rename_i hne
    split at h
    · rename_i rest
      exact (hne rest rfl).elim
    · simp at h

theorem dict_value_append (b t : List Int) (name len : Int) (stack : List lazy_entry)
    (t1 start1 : Int) (stack1 : List lazy_entry) (hname : name < b.length)
    (h : dict_value b name len stack = .value t1 start1 stack1) :
    dict_value (b ++ t) name len stack = .value t1 start1 stack1
      ∧ start1 ≤ b.length := by
  unfold dict_value at h ⊢
  have e1 : decide (name = (b.length : Int)) = false := by
    simp only [decide_eq_false_iff_not]; omega
  have e2 : decide (name = ((b ++ t).length : Int)) = false := by
    simp only [decide_eq_false_iff_not, List.length_append]; push_cast; omega
  rw [e1] at h
  rw [e2]
  simp only [reset_if] at h ⊢
  cases stack with
  | nil => simp at h
  | cons top rest =>
    simp only [Bool.false_eq_true, if_false] at h ⊢
    cases hd : dict_append top name with
    | none => rw [hd] at h; simp at h
    | some top1 =>
      rw [hd] at h
      simp only at h ⊢
      cases hc : peek b (name + len) with
      | none => rw [hc] at h; simp at h
      | some c =>
        have hlt := peek_some_lt hc
        rw [hc] at h
        rw [peek_append_left t hc]
        simp only at h ⊢
        have e3 : decide (name + len ≥ (b.length : Int)) = false := by
          simp only [decide_eq_false_iff_not]; omega
        have e4 : decide (name + len ≥ ((b ++ t).length : Int)) = false := by
          simp only [decide_eq_false_iff_not, List.length_append]; push_cast; omega
        rw [e3] at h
        rw [e4]
        refine ⟨h, ?_⟩
        simp only [KeyStep.value.injEq] at h
        omega

theorem dict_key_append (b t : List Int) (tok start : Int) (stack : List lazy_entry)
    (t1 start1 : Int) (stack1 : List lazy_entry)
    (hlast : peek b ((b.length : Int) - 1) ≠ some 58)
    (h : dict_key b tok start stack = .value t1 start1 stack1) :
    dict_key (b ++ t) tok start stack = .value t1 start1 stack1
      ∧ start1 ≤ b.length := by
  unfold dict_key at h ⊢
  cases hq : parse_int b start b.length 58 (tok - 48) with
  | none => rw [hq] at h; simp at h
  | some r =>
    obtain ⟨op, len⟩ := r
    cases op with
    | none => rw [hq] at h; simp at h
    | some p =>
      rw [hq] at h
      simp only at h
      by_cases h5 : p + len + 3 > b.length
      · rw [if_pos h5] at h; simp at h
      rw [if_neg h5] at h
      cases hc : peek b p with
      | none => rw [hc] at h; simp at h
      | some c =>
        rw [hc] at h
        simp only at h
        by_cases h6 : c ≠ 58
        · rw [if_pos h6] at h; simp at h
        rw [if_neg h6] at h
        have hc58 : c = 58 := by simpa using h6
        subst hc58
        have hlt := peek_some_lt hc
        have hname : p + 1 < (b.length : Int) := by
          by_contra hcon
          have hp : p = (b.length : Int) - 1 := by omega
          rw [hp] at hc
          exact hlast hc
        rw [parse_int_append b t start _ p len hq hc]
        simp only
        rw [if_neg (by simp only [List.length_append]; push_cast; omega),
          peek_append_left t hc]
        simp only
        rw [if_neg h6]
        exact dict_value_append b t (p + 1) len stack t1 start1 stack1 hname h

theorem body_append (b t : List Int) (tok start : Int) (top : lazy_entry)
    (rest : List lazy_entry) (ret : lazy_entry) (st1 : State)
    (hlast : peek b ((b.length : Int) - 1) ≠ some 58) (hs : start ≤ b.length)
    (h : body b tok start top rest ret = .next st1) :
    body (b ++ t) tok start top rest ret = .next st1 := by
  unfold body at h ⊢
  split
  · simp only at h
    by_cases he : tok = 101
    · rw [if_pos he] at h ⊢; exact h
    rw [if_neg he] at h ⊢
    cases hk : dict_key b tok start (_ :: rest) with
    | leave o => rw [hk] at h; simp at h
    | value t1 start1 stack1 =>
      rw [hk] at h
      obtain ⟨hk2, hs1⟩ := dict_key_append b t tok start _ t1 start1 stack1 hlast hk
      rw [hk2]
      simp only at h ⊢
      exact interpret_append b t t1 start1 stack1 ret st1 hs1 h
  · simp only at h
    by_cases he : tok = 101
    · rw [if_pos he] at h ⊢; exact h
    rw [if_neg he] at h ⊢
    cases hl : list_append _ with
    | none => rw [hl] at h; simp at h
    | some top1 =>
      rw [hl] at h
      simp only at h ⊢
      exact interpret_append b t tok start _ ret st1 hs h
  · simp only at h
    exact interpret_append b t tok start _ ret st1 hs h

theorem step_append (b t : List Int) (dl : Int) (st st1 : State)
    (hlast : peek b ((b.length : Int) - 1) ≠ some 58)
    (h : step b dl st = .next st1) : step (b ++ t) dl st = .next st1 := by
  unfold step at h ⊢
  by_cases h0 : ¬ (st.start < b.length)
  · rw [if_pos h0] at h; simp at h
  rw [if_neg h0] at h
  have h0t : ¬ ¬ (st.start < ((b ++ t).length : Int)) := by
    simp only [List.length_append]; push_cast; omega
  rw [if_neg h0t]
  cases hst : st.stack with
  | nil => rw [hst] at h; simp at h
  | cons top rest =>
    rw [hst] at h
    simp only at h ⊢
    by_cases hd : ((top :: rest).length : Int) > dl
    · rw [if_pos hd] at h; simp [fail_bdecode] at h
    rw [if_neg hd] at h ⊢
    cases hc : peek b st.start with
    | none => rw [hc] at h; simp at h
    | some c =>
      rw [hc] at h
      rw [peek_append_left t hc]
      simp only at h ⊢
      by_cases h1 : st.start + 1 ≥ b.length ∧ c ≠ 101
      · rw [if_pos h1] at h; simp [fail_bdecode] at h
      rw [if_neg h1] at h
      have h1t : ¬ (st.start + 1 ≥ ((b ++ t).length : Int) ∧ c ≠ 101) := by
        simp only [List.length_append]; push_cast
        intro hcon
        exact h1 ⟨by omega, hcon.2⟩
      rw [if_neg h1t]
      exact body_append b t c (st.start + 1) top rest st.ret st1 hlast (by omega) h

theorem state_at_append (b t : List Int) (dl : Int)
    (hlast : peek b ((b.length : Int) - 1) ≠ some 58) :
    ∀ (n : Nat) (st0 st : State), state_at b dl n st0 = some st →
      state_at (b ++ t) dl n st0 = some st
  | 0, st0, st, h => by
    simp only [state_at] at h ⊢
    exact h
  | n + 1, st0, st, h => by
    simp only [state_at] at h ⊢
    split at h
    · simp at h
    · rename_i st2 hst
      rw [step_append b t dl st0 st2 hlast hst]
      exact state_at_append b t dl hlast n st2 st h

/-- Bytes behind a buffer that does not end in `:` are ignored: when the loop
on `b` reaches an empty stack after `n` iterations, the call on `b` and the
call on `b` followed by `t` both return 0 with the same entry, for every
iteration budget above `n`. -/
theorem trailing_bytes_ignored (b t : List Int) (depth_limit : Int) (n fuel : Nat)
    (st : State) (hlast : peek b ((b.length : Int) - 1) ≠ some 58)
    (hrun : state_at b depth_limit n ⟨0, [.none_e], .none_e⟩ = some st)
    (hempty : st.stack = []) :
    lazy_bdecode (fuel + n + 1) b depth_limit = .returned 0 st.ret
      ∧ lazy_bdecode (fuel + n + 1) (b ++ t) depth_limit = .returned 0 st.ret := by
  have hb : b.length ≠ 0 := by
    intro h0
    cases n with
    | zero =>
      simp only [state_at, Option.some.injEq] at hrun
      subst hrun
      simp at hempty
    | succ n =>
      simp only [state_at, step, h0] at hrun
      simp at hrun
  have hbt : (b ++ t).length ≠ 0 := by
    simp only [List.length_append]; omega
  have hrun2 := state_at_append b t depth_limit hlast n _ st hrun
  unfold lazy_bdecode
  rw [if_neg hb, if_neg hbt, show fuel + n + 1 = n + (fuel + 1) by omega,
    run_of_state_at _ _ _ _ _ _ hrun, run_of_state_at _ _ _ _ _ _ hrun2,
    run_empty_stack b _ _ _ hempty, run_empty_stack (b ++ t) _ _ _ hempty]
  exact ⟨rfl, rfl⟩

/-- The list `l4:spam4:eggse` followed by `junk` decodes as the list alone. -/
theorem trailing_bytes_ignored_on_list :
    lazy_bdecode 5 (bytes "l4:spam4:eggse" ++ bytes "junk") 1000
      = lazy_bdecode 5 (bytes "l4:spam4:eggse") 1000 := by
  have h := trailing_bytes_ignored (bytes "l4:spam4:eggse") (bytes "junk") 1000 4 0
    ⟨14, [], .list_e 0 (some 14) 5 [.string_e 3 4 1 7, .string_e 9 4 7 13]⟩
    (by decide) (by rfl) rfl
  rw [h.1, h.2]

set_option maxRecDepth 100000 in
/-- The same divergence with a key whose length prefix is all digits:
`18446744073709551588` is `2^64 - 28` and leaves -28 in the 64-bit
accumulator, so the cursor goes back to offset 10 as well. -/
theorem trailing_byte_changes_result_digits :
    lazy_bdecode 7 (bytes "d1:ad1:b7:i1eei7e18446744073709551588:") 1000
        = .returned 0 (.int_e 15 1 14 17)
      ∧ lazy_bdecode 7 (bytes "d1:ad1:b7:i1eei7e18446744073709551588:" ++ bytes "x") 1000
        = .returned (-1) .none_e := by
  exact ⟨by rfl, by rfl⟩

end libtorrent
